import Mathlib

/-!
Clustering subsystem of gnmic: service registration, membership view, peer
selection and target dispatch. Shallow embedding of `app/clustering.go`.

* Go strings are Lean `String`s; `strings.TrimSuffix` / `strings.HasSuffix` are
  modelled on the underlying character lists.
* A Go `map[string]V` is a `GoMap V`: an association list whose keys are
  pairwise distinct.  A `range` loop over a map visits the entries in an
  unspecified order; every `range` loop of the source takes its order from a
  `RangeOrder`, an arbitrary permutation of the entries chosen per loop site,
  and every theorem quantifies over all of them.
* Go `int` values stored in maps are Lean `Int`s (the code uses `-1` sentinels).
* `(*Service, error)` results are `Except Err (Option Service)`; `none` is the
  nil pointer.
* The locker, the HTTP peers and the Go runtime are a `World` of answers indexed
  by the number of the call; `dispatchTarget` runs on fuel, one unit per jump to a
  label, and records what it does in a trace of `Event`s.
* The goroutines of `startCluster` are a step function `clusterStep` over
  `ClusterEvent`s; a goroutine that is blocked or has returned ignores the event.
  A watcher that restarts `WatchServices` within a term keeps the term's context,
  so one snapshot consumer stands for each term.
* `config/diff.go` and `formatters/event_allow/event_allow.go` are embedded at the
  end of the definitions; what they call outside the sources is a parameter.
-/

namespace Gnmic

/-! ## Strings -/

/-- Go `strings.HasSuffix`. -/
def hasSuffix (s suffix : String) : Bool :=
  suffix.data.isSuffixOf s.data

/-- Go `strings.TrimSuffix`: `s` without the trailing `suffix`, or `s` itself. -/
def trimSuffix (s suffix : String) : String :=
  if hasSuffix s suffix then ⟨s.data.take (s.data.length - suffix.data.length)⟩ else s

/-! ## Go maps with string keys -/

/-- Keys of an association list, in list order. -/
def alKeys {V : Type} (l : List (String × V)) : List String :=
  l.map Prod.fst

/-- Lookup in an association list. -/
def alGet {V : Type} (k : String) : List (String × V) → Option V
  | [] => none
  | e :: r => if e.1 = k then some e.2 else alGet k r

/-- Assignment `m[k] = v` on an association list: overwrite in place or append. -/
def alSet {V : Type} (k : String) (v : V) : List (String × V) → List (String × V)
  | [] => [(k, v)]
  | e :: r => if e.1 = k then (k, v) :: r else e :: alSet k v r

/-- Removal `delete(m, k)` on an association list. -/
def alDel {V : Type} (k : String) : List (String × V) → List (String × V)
  | [] => []
  | e :: r => if e.1 = k then alDel k r else e :: alDel k r

theorem alKeys_cons {V : Type} (e : String × V) (r : List (String × V)) :
    alKeys (e :: r) = e.1 :: alKeys r := rfl

theorem mem_alKeys {V : Type} {k : String} {l : List (String × V)} :
    k ∈ alKeys l ↔ ∃ v, (k, v) ∈ l := by
  unfold alKeys
  constructor
  · intro h
    obtain ⟨e, he, rfl⟩ := List.mem_map.1 h
    exact ⟨e.2, he⟩
  · rintro ⟨v, hv⟩
    exact List.mem_map.2 ⟨(k, v), hv, rfl⟩

theorem mem_alKeys_alSet {V : Type} (k : String) (v : V) (k' : String) (l : List (String × V)) :
    k' ∈ alKeys (alSet k v l) ↔ k' = k ∨ k' ∈ alKeys l := by
  induction l with
  | nil => simp [alSet, alKeys]
  | cons e r ih =>
    by_cases h : e.1 = k
    · simp only [alSet, h, if_true, alKeys_cons, List.mem_cons]
      tauto
    · simp only [alSet, h, if_false, alKeys_cons, List.mem_cons, ih]
      tauto

theorem nodup_alKeys_alSet {V : Type} (k : String) (v : V) (l : List (String × V))
    (h : (alKeys l).Nodup) : (alKeys (alSet k v l)).Nodup := by
  induction l with
  | nil => simp [alSet, alKeys]
  | cons e r ih =>
    rw [alKeys_cons, List.nodup_cons] at h
    by_cases hk : e.1 = k
    · simp only [alSet, hk, if_true, alKeys_cons, List.nodup_cons]
      exact ⟨hk ▸ h.1, h.2⟩
    · simp only [alSet, hk, if_false, alKeys_cons, List.nodup_cons, mem_alKeys_alSet]
      refine ⟨fun hc => ?_, ih h.2⟩
      rcases hc with hc | hc
      · first | exact hk hc | exact hc.elim
      · exact h.1 hc

theorem mem_alKeys_alDel {V : Type} (k k' : String) (l : List (String × V)) :
    k' ∈ alKeys (alDel k l) ↔ k' ≠ k ∧ k' ∈ alKeys l := by
  induction l with
  | nil => simp [alDel, alKeys]
  | cons e r ih =>
    by_cases h : e.1 = k
    · simp only [alDel, h, if_true, ih, alKeys_cons, List.mem_cons]
      constructor
      · rintro ⟨h1, h2⟩; exact ⟨h1, Or.inr h2⟩
      · rintro ⟨h1, h2 | h2⟩
        · exact absurd h2 h1
        · exact ⟨h1, h2⟩
    · simp only [alDel, h, if_false, alKeys_cons, List.mem_cons, ih]
      constructor
      · rintro (h1 | ⟨h1, h2⟩)
        · exact ⟨fun hc => h (h1 ▸ hc), Or.inl h1⟩
        · exact ⟨h1, Or.inr h2⟩
      · rintro ⟨h1, h2 | h2⟩
        · exact Or.inl h2
        · exact Or.inr ⟨h1, h2⟩

theorem nodup_alKeys_alDel {V : Type} (k : String) (l : List (String × V))
    (h : (alKeys l).Nodup) : (alKeys (alDel k l)).Nodup := by
  induction l with
  | nil => simp [alDel, alKeys]
  | cons e r ih =>
    rw [alKeys_cons, List.nodup_cons] at h
    by_cases hk : e.1 = k
    · simp only [alDel, hk, if_true]
      exact ih h.2
    · simp only [alDel, hk, if_false, alKeys_cons, List.nodup_cons, mem_alKeys_alDel]
      exact ⟨fun hc => h.1 hc.2, ih h.2⟩

/-- Go `map[string]V`: an association list with pairwise distinct keys. -/
structure GoMap (V : Type) where
  /-- The entries, in some internal order. -/
  entries : List (String × V)
  /-- No key occurs twice. -/
  nodup : (alKeys entries).Nodup

namespace GoMap

variable {V : Type}

/-- Go `make(map[string]V)`. -/
def empty : GoMap V := ⟨[], List.nodup_nil⟩

/-- Go `len(m)`. -/
def len (m : GoMap V) : Nat := m.entries.length

/-- The keys of the map. -/
def keys (m : GoMap V) : List String := alKeys m.entries

/-- Go `v, ok := m[k]`. -/
def get (m : GoMap V) (k : String) : Option V := alGet k m.entries

/-- Go `m[k] = v`. -/
def set (m : GoMap V) (k : String) (v : V) : GoMap V :=
  ⟨alSet k v m.entries, nodup_alKeys_alSet k v m.entries m.nodup⟩

/-- Go `delete(m, k)`. -/
def del (m : GoMap V) (k : String) : GoMap V :=
  ⟨alDel k m.entries, nodup_alKeys_alDel k m.entries m.nodup⟩

end GoMap

/-- The order in which `range` loops visit map entries: for each loop site an
arbitrary permutation of the entries. -/
structure RangeOrder (V : Type) where
  /-- The visiting order chosen at a loop site for a given entry list. -/
  visit : Nat → List (String × V) → List (String × V)
  /-- Every entry is visited exactly once. -/
  isPerm : ∀ (site : Nat) (l : List (String × V)), (visit site l).Perm l

/-- The entries of a map in the order a `range` loop at `site` visits them. -/
def GoMap.range {V : Type} (o : RangeOrder V) (site : Nat) (m : GoMap V) : List (String × V) :=
  o.visit site m.entries

/-- The visiting order that follows the internal entry order. -/
def RangeOrder.inOrder (V : Type) : RangeOrder V :=
  ⟨fun _ l => l, fun _ l => List.Perm.refl l⟩

/-- The visiting order that reverses the internal entry order. -/
def RangeOrder.reversed (V : Type) : RangeOrder V :=
  ⟨fun _ l => l.reverse, fun _ l => List.reverse_perm l⟩

/-- Go `m[k]` on a `map[string]int`: the stored value, or the zero value. -/
def GoMap.getD0 (m : GoMap Int) (k : String) : Int :=
  (m.get k).getD 0

/-! ## Data model -/

/-- Modelled from the spec: `lockers.Service` (package `lockers` is not among the
sources); the fields the clustering code reads: service ID, address and the
ordered tag list. -/
structure Service where
  /-- Service ID, `<instance-name>-api` for registered instances. -/
  ID : String
  /-- Address of the instance API, `host:port`. -/
  Address : String
  /-- Ordered tag list. -/
  Tags : List String
deriving DecidableEq, Repr

/-- Modelled from the spec: `lockers.ServiceRegistration` (package `lockers` is not
among the sources); the fields `apiServiceRegistration` fills in. The TTL is a
`time.Duration`, in nanoseconds. -/
structure ServiceRegistration where
  /-- Service ID. -/
  ID : String
  /-- Service name. -/
  Name : String
  /-- Advertised address. -/
  Address : String
  /-- Advertised port. -/
  Port : Int
  /-- Ordered tag list. -/
  Tags : List String
  /-- Time to live, nanoseconds. -/
  TTL : Int
deriving DecidableEq, Repr

/-- Modelled from the spec: the part of `config.Config.Clustering` read by
`app/clustering.go` (its declaration is not among the sources). Durations are
`time.Duration` values, in nanoseconds. -/
structure ClusteringConfig where
  /-- Cluster name. -/
  ClusterName : String
  /-- Name of this instance. -/
  InstanceName : String
  /-- Address to advertise; empty means the API server host. -/
  ServiceAddress : String
  /-- User tags, ordered. -/
  Tags : List String
  /-- Confirmation timeout of one assignment. -/
  TargetAssignmentTimeout : Int
deriving DecidableEq, Repr

/-- The part of `types.TargetConfig` the dispatcher reads: name and affinity tags. -/
structure TargetConfig where
  /-- Target name. -/
  Name : String
  /-- Ordered affinity tags. -/
  Tags : List String
deriving DecidableEq, Repr

/-- Errors returned by the clustering code: the two package sentinels, an error
of the locker backend, an error of the HTTP client. -/
inductive Err where
  /-- Sentinel `errNotFound`. -/
  | notFound
  /-- Sentinel `errNoMoreSuitableServices`. -/
  | noMoreSuitableServices
  /-- Error returned by a locker call. -/
  | locker (msg : String)
  /-- Error returned by `assignTarget`. -/
  | http (msg : String)
deriving DecidableEq, Repr

deriving instance DecidableEq for Except

/-- Visiting orders of all `range` loops over maps, by value type. -/
structure Sched where
  /-- Loops over `map[string]*lockers.Service`. -/
  svc : RangeOrder Service
  /-- Loops over `map[string]int`. -/
  cnt : RangeOrder Int
  /-- Loops over `map[string]string`. -/
  str : RangeOrder String

/-- Every loop follows the internal entry order. -/
def Sched.inOrder : Sched :=
  ⟨RangeOrder.inOrder Service, RangeOrder.inOrder Int, RangeOrder.inOrder String⟩

/-- Every loop follows the reversed internal entry order. -/
def Sched.reversed : Sched :=
  ⟨RangeOrder.reversed Service, RangeOrder.reversed Int, RangeOrder.reversed String⟩

/-- Constant `lockWaitTime` = 100ms, in nanoseconds. -/
def lockWaitTime : Int := 100 * 1000000

/-- Constant `apiServiceName`. -/
def apiServiceName : String := "gnmic-api"

/-- Go `time.Second`, in nanoseconds. -/
def timeSecond : Int := 1000000000

/-! ## Service registration -/

/-- The registration built by `apiServiceRegistration` (lines 67-86); `addr` and `p`
are the host and port parsed from the API server address. -/
def apiServiceRegistration (c : ClusteringConfig) (addr : String) (p : Int) :
    ServiceRegistration :=
  let tags : List String := []
  let tags := tags ++ ["cluster-name=" ++ c.ClusterName]
  let tags := tags ++ ["instance-name=" ++ c.InstanceName]
  let tags := tags ++ c.Tags
  let serviceReg : ServiceRegistration :=
    { ID := c.InstanceName ++ "-api"
      Name := c.ClusterName ++ "-" ++ apiServiceName
      Address := c.ServiceAddress
      Port := p
      Tags := tags
      TTL := 5 * timeSecond }
  if serviceReg.Address = "" then { serviceReg with Address := addr } else serviceReg

/-! ## Membership view -/

/-- Function `updateServices` (lines 186-230): the view after a snapshot. -/
def updateServices (o : Sched) (apiServices : GoMap Service) (srvs : List Service) :
    GoMap Service :=
  let numNewSrv := srvs.length
  let numCurrentSrv := apiServices.len
  if numNewSrv = 0 ∧ numCurrentSrv = 0 then apiServices
  else if numNewSrv = 0 ∧ numCurrentSrv ≠ 0 then GoMap.empty
  else if numCurrentSrv = 0 then
    srvs.foldl (fun m s => m.set s.ID s) apiServices
  else
    let newSrvs : GoMap Service := srvs.foldl (fun m s => m.set s.ID s) GoMap.empty
    let pruned := (apiServices.range o.svc 0).foldl
      (fun m e => if (newSrvs.get e.1).isNone then m.del e.1 else m) apiServices
    (newSrvs.range o.svc 1).foldl (fun m e => m.set e.1 e.2) pruned

/-! ## Peer selection -/

/-- Length of the longest common prefix of two tag lists: the number of leading
positions at which they agree. -/
def commonPrefixLen : List String → List String → Nat
  | a :: as, b :: bs => if a = b then commonPrefixLen as bs + 1 else 0
  | _, _ => 0

/-- Inner loop of `getInstancesTagsMatches` (lines 484-493) over the remaining
service tags, `i` being the index of the next one. -/
def matchLoop (tags : List String) (name : String) :
    Nat → List String → GoMap Int → GoMap Int
  | _, [], maxMatch => maxMatch
  | i, tag :: rest, maxMatch =>
    if i + 1 > tags.length then maxMatch
    else if some tag = tags[i]? then
      matchLoop tags name (i + 1) rest (maxMatch.set name (maxMatch.getD0 name + 1))
    else maxMatch

/-- Function `getInstancesTagsMatches` (lines 475-496). -/
def getInstancesTagsMatches (o : Sched) (apiServices : GoMap Service) (tags : List String) :
    GoMap Int :=
  let maxMatch : GoMap Int := GoMap.empty
  let numTags := tags.length
  if numTags = 0 then maxMatch
  else
    (apiServices.range o.svc 3).foldl
      (fun maxMatch e =>
        let name := trimSuffix e.1 "-api"
        matchLoop tags name 0 e.2.Tags (maxMatch.set name 0))
      maxMatch

/-- Loop body of `getHighestTagsMatches` (lines 502-509) on the state `(ss, high)`. -/
def highestStep (st : List String × Int) (e : String × Int) : List String × Int :=
  if st.2 < 0 ∨ e.2 > st.2 then ([trimSuffix e.1 "-api"], e.2)
  else if st.2 = e.2 then (st.1 ++ [trimSuffix e.1 "-api"], st.2)
  else st

/-- Function `getHighestTagsMatches` (lines 498-512). -/
def getHighestTagsMatches (o : Sched) (tagsCount : GoMap Int) : List String :=
  ((tagsCount.range o.cnt 4).foldl highestStep ([], -1)).1

/-- Load of an instance in a target-lock listing: the number of locks whose value
(owner) is that instance name. -/
def lockCount (locks : GoMap String) (inst : String) : Nat :=
  (locks.entries.filter (fun e => decide (e.2 = inst))).length

/-- A service has maximal tag affinity in the view: no peer shares a longer common
prefix with the target tags. -/
def MaxAffinity (apiServices : GoMap Service) (tags : List String) (s : Service) : Prop :=
  ∀ e ∈ apiServices.entries, commonPrefixLen tags e.2.Tags ≤ commonPrefixLen tags s.Tags

/-- Function `getInstancesLoad` (lines 407-444); `locks` is the result of the
locker's `List` call on the target-lock listing. -/
def getInstancesLoad (o : Sched) (apiServices : GoMap Service)
    (locks : Except String (GoMap String)) (instances : List String) :
    Except Err (GoMap Int) :=
  match locks with
  | .error e => .error (Err.locker e)
  | .ok locks =>
    let load : GoMap Int := GoMap.empty
    let load := (locks.range o.str 6).foldl
      (fun load e =>
        let inst := e.2
        let load := if (load.get inst).isNone then load.set inst 0 else load
        load.set inst (load.getD0 inst + 1))
      load
    let load := (apiServices.range o.svc 7).foldl
      (fun load e =>
        let inst := trimSuffix e.2.ID "-api"
        if (load.get inst).isNone then load.set inst 0 else load)
      load
    if instances.length > 0 then
      let filteredLoad : GoMap Int := GoMap.empty
      .ok (instances.foldl
        (fun filteredLoad inst =>
          match load.get inst with
          | some l => filteredLoad.set inst l
          | none => filteredLoad.set inst 0)
        filteredLoad)
    else .ok load

/-- Loop body of `getLowLoadInstance` (lines 451-456) on the state `(ss, low)`. -/
def lowStep (st : String × Int) (e : String × Int) : String × Int :=
  if st.2 < 0 ∨ e.2 < st.2 then (e.1, e.2) else st

/-- Function `getLowLoadInstance` (lines 448-458). -/
def getLowLoadInstance (o : Sched) (load : GoMap Int) : String :=
  ((load.range o.cnt 8).foldl lowStep ("", -1)).1

/-- The candidate list `matchingInstances` computed by `selectService`
(lines 365-374). -/
def matchingInstances (o : Sched) (apiServices : GoMap Service) (tags : List String) :
    List String :=
  let tagCount := getInstancesTagsMatches o apiServices tags
  if tagCount.len > 0 then getHighestTagsMatches o tagCount
  else (apiServices.range o.svc 5).foldl (fun acc e => acc ++ [trimSuffix e.1 "-api"]) []

/-- Lines 391-402 of `selectService`: drop the denied peers from the load map and
pick the least loaded one. -/
def selectByLoad (o : Sched) (apiServices : GoMap Service) (load : GoMap Int)
    (denied : List String) : Except Err (Option Service) :=
  let load := denied.foldl (fun load d => load.del (trimSuffix d "-api")) load
  if load.len = 0 then .error Err.noMoreSuitableServices
  else
    let ss := getLowLoadInstance o load
    .ok (apiServices.get (ss ++ "-api"))

/-- Lines 378-402 of `selectService`: selection by load among the candidates. -/
def loadPath (o : Sched) (apiServices : GoMap Service)
    (locks : Except String (GoMap String)) (denied : List String) (candidates : List String) :
    Except Err (Option Service) :=
  match getInstancesLoad o apiServices locks candidates with
  | .error err => .error err
  | .ok load =>
    if load.len = 0 then
      match candidates with
      | n :: _ => .ok (apiServices.get (n ++ "-api"))
      | [] => selectByLoad o apiServices load denied
    else selectByLoad o apiServices load denied

/-- Function `selectService` (lines 354-405); `locks` is what the locker's `List`
call returns, should the function reach it. -/
def selectService (o : Sched) (apiServices : GoMap Service)
    (locks : Except String (GoMap String)) (tags : List String) (denied : List String) :
    Except Err (Option Service) :=
  match apiServices.len with
  | 0 => .error Err.notFound
  | 1 =>
    match apiServices.range o.svc 2 with
    | e :: _ => .ok (some e.2)
    | [] => .error Err.notFound
  | _ =>
    match matchingInstances o apiServices tags with
    | [n] => .ok (apiServices.get (n ++ "-api"))
    | candidates => loadPath o apiServices locks denied candidates

/-- The view is keyed by service ID, as `updateServices` builds it. -/
def KeyedByID (apiServices : GoMap Service) : Prop :=
  ∀ e ∈ apiServices.entries, e.2.ID = e.1

/-- No two service IDs of the view have the same name once `-api` is trimmed. -/
def TrimInjective (apiServices : GoMap Service) : Prop :=
  ∀ k ∈ apiServices.keys, ∀ k' ∈ apiServices.keys,
    trimSuffix k "-api" = trimSuffix k' "-api" → k = k'

/-- The service IDs of the view are those registration produces, `<name>-api`,
and, when target tags are given, no instance name itself ends in `-api`. -/
def RegisteredIDs (apiServices : GoMap Service) (tags : List String) : Prop :=
  ∀ k ∈ apiServices.keys, hasSuffix k "-api" = true ∧
    (tags ≠ [] → hasSuffix (trimSuffix k "-api") "-api" = false)

instance (apiServices : GoMap Service) (tags : List String) (s : Service) :
    Decidable (MaxAffinity apiServices tags s) :=
  inferInstanceAs (Decidable (∀ e ∈ apiServices.entries,
    commonPrefixLen tags e.2.Tags ≤ commonPrefixLen tags s.Tags))

instance (apiServices : GoMap Service) : Decidable (KeyedByID apiServices) :=
  inferInstanceAs (Decidable (∀ e ∈ apiServices.entries, e.2.ID = e.1))

instance (apiServices : GoMap Service) : Decidable (TrimInjective apiServices) :=
  inferInstanceAs (Decidable (∀ k ∈ apiServices.keys, ∀ k' ∈ apiServices.keys,
    trimSuffix k "-api" = trimSuffix k' "-api" → k = k'))

instance (apiServices : GoMap Service) (tags : List String) :
    Decidable (RegisteredIDs apiServices tags) :=
  inferInstanceAs (Decidable (∀ k ∈ apiServices.keys, hasSuffix k "-api" = true ∧
    (tags ≠ [] → hasSuffix (trimSuffix k "-api") "-api" = false)))

/-! ## Dispatch of one target -/

/-- Go `strings.Split(s, sep)` for a one-character separator, on character lists. -/
def splitChars (sep : Char) : List Char → List (List Char)
  | [] => [[]]
  | c :: cs =>
    if c = sep then [] :: splitChars sep cs
    else
      match splitChars sep cs with
      | [] => [[c]]
      | h :: t => (c :: h) :: t

/-- Go `strings.Split(s, "=")`. -/
def splitEq (s : String) : List String :=
  (splitChars '=' s.data).map String.mk

/-- Lines 305-311 of `dispatchTarget`: the instance name read off the tags of the
selected service (the last `instance-name=` tag wins, empty when there is none). -/
def instanceNameOf (tags : List String) : String :=
  tags.foldl
    (fun instanceName tag =>
      match splitEq tag with
      | [a, b] => if a = "instance-name" then b else instanceName
      | _ => instanceName)
    ""

/-- The lock key of a target, `gnmic/<cluster>/targets/<name>` (lines 275, 312). -/
def targetKey (c : ClusteringConfig) (tc : TargetConfig) : String :=
  "gnmic/" ++ c.ClusterName ++ "/targets/" ++ tc.Name

/-- The prefix of all target locks, `gnmic/<cluster>/targets` (line 409). -/
def targetsKey (c : ClusteringConfig) : String :=
  "gnmic/" ++ c.ClusterName ++ "/targets"

/-- What the dispatcher does to the outside, in program order. -/
inductive Event where
  /-- Locker call `IsLocked(key)`. -/
  | isLocked (key : String)
  /-- Call of `selectService` with this denied list. -/
  | select (denied : List String)
  /-- Locker call `List` on the target-lock listing, made by `getInstancesLoad`. -/
  | listTargets (key : String)
  /-- HTTP POST sent to this URL. -/
  | post (url : String)
  /-- HTTP DELETE sent to this URL. -/
  | delete (url : String)
  /-- Locker call `List(key)` of the confirmation poll. -/
  | list (key : String)
  /-- Call of `time.Sleep` for this many nanoseconds. -/
  | sleep (d : Int)
deriving DecidableEq, Repr

/-- The environment of the dispatcher: what the locker, the peers and the Go
runtime answer, by the number of the call. -/
structure World where
  /-- Visiting orders of the map loops during the n-th `selectService` call. -/
  sched : Nat → Sched
  /-- Result of the n-th `IsLocked` call, for its key. -/
  isLocked : Nat → String → Except String Bool
  /-- Result of the target-lock listing during the n-th `selectService` call. -/
  listTargets : Nat → Except String (GoMap String)
  /-- Whether `http.NewRequest` rejects a URL (its error message). -/
  newRequest : String → Option String
  /-- Result of the n-th HTTP request sent: status code, or a transport error. -/
  http : Nat → Except String Nat
  /-- Result of the n-th confirmation poll `List(key)`. -/
  list : Nat → Except String (GoMap String)

/-- Call counters and the trace of effects so far. -/
structure DState where
  /-- Number of `IsLocked` calls made. -/
  nLocked : Nat
  /-- Number of `selectService` calls made. -/
  nSelect : Nat
  /-- Number of HTTP requests sent. -/
  nHttp : Nat
  /-- Number of confirmation polls made. -/
  nList : Nat
  /-- Effects so far, oldest first. -/
  trace : List Event
deriving DecidableEq, Repr

/-- The state before anything has happened. -/
def DState.init : DState := ⟨0, 0, 0, 0, []⟩

/-- One HTTP request of `assignTarget` (lines 547-559, 561-572): build it, send it,
refuse a status above 200. -/
def postRequest (w : World) (url : String) (st : DState) : Option Err × DState :=
  match w.newRequest url with
  | some msg => (some (Err.http msg), st)
  | none =>
    let st1 := { st with nHttp := st.nHttp + 1, trace := st.trace ++ [Event.post url] }
    match w.http st.nHttp with
    | .error msg => (some (Err.http msg), st1)
    | .ok code => if code > 200 then (some (Err.http "status code"), st1) else (none, st1)

/-- Function `assignTarget` (lines 539-574); encoding the target configuration as
JSON does not fail. -/
def assignTarget (w : World) (tc : TargetConfig) (service : Service) (st : DState) :
    Option Err × DState :=
  match postRequest w ("http://" ++ service.Address ++ "/config/targets") st with
  | (some err, st1) => (some err, st1)
  | (none, st1) => postRequest w ("http://" ++ service.Address ++ "/targets/" ++ tc.Name) st1

/-- The loop of `unassignTarget` (lines 577-594) over the services in visiting order. -/
def unassignLoop (w : World) (name serviceID : String) :
    List (String × Service) → DState → DState
  | [], st => st
  | e :: rest, st =>
    if e.2.ID ≠ serviceID then unassignLoop w name serviceID rest st
    else
      let url := "http://" ++ e.2.Address ++ "/targets/" ++ name
      match w.newRequest url with
      | some _ => unassignLoop w name serviceID rest st
      | none =>
        let st1 := { st with nHttp := st.nHttp + 1, trace := st.trace ++ [Event.delete url] }
        match w.http st.nHttp with
        | .error _ => unassignLoop w name serviceID rest st1
        | .ok _ => st1

/-- Function `unassignTarget` (lines 576-596); it always returns nil. -/
def unassignTarget (o : Sched) (w : World) (apiServices : GoMap Service)
    (name serviceID : String) (st : DState) : DState :=
  unassignLoop w name serviceID (apiServices.range o.svc 9) st

/-- The retry limit test of lines 324 and 342, on `int` values (64 bit, no wrap
for the counts a run can reach). -/
def retryLimitReached (retries : Int) (c : ClusteringConfig) : Bool :=
  decide ((retries + 1) * lockWaitTime ≥ c.TargetAssignmentTimeout)

/-- Where `dispatchTarget` stands: at label `SELECTSERVICE`, or at label `WAIT`
with the chosen service, the owner name expected in the lock and the retry count. -/
inductive Phase where
  /-- Label `SELECTSERVICE` (line 287). -/
  | select
  /-- Label `WAIT` (line 315). -/
  | wait (service : Service) (instanceName : String) (retries : Int)
deriving DecidableEq, Repr

/-- Lines 323-333 and 341-351: count a retry, then either unassign and go back to
`SELECTSERVICE`, or sleep and go back to `WAIT`. -/
def retryOrReselect (w : World) (c : ClusteringConfig) (apiServices : GoMap Service)
    (tc : TargetConfig) (service : Service) (instanceName : String) (retries : Int)
    (st : DState) : Phase × DState :=
  let retries := retries + 1
  if retryLimitReached retries c then
    (Phase.select, unassignTarget (w.sched st.nSelect) w apiServices tc.Name service.ID st)
  else
    (Phase.wait service instanceName retries,
      { st with trace := st.trace ++ [Event.sleep lockWaitTime] })

/-- Lines 286-352 of `dispatchTarget` from a label on, each jump to a label
taking one unit of fuel: `some err` is the value returned (`some none` for nil),
`none` means the fuel ran out before the function returned. -/
def dispatchLoop (w : World) (c : ClusteringConfig) (apiServices : GoMap Service)
    (tc : TargetConfig) : Nat → Phase → List String → DState → Option (Option Err) × DState
  | 0, _, _, st => (none, st)
  | fuel + 1, Phase.select, denied, st =>
    let o := w.sched st.nSelect
    let reaches := decide (2 ≤ apiServices.len) &&
      decide ((matchingInstances o apiServices tc.Tags).length ≠ 1)
    let st1 : DState :=
      { st with
        nSelect := st.nSelect + 1
        trace := st.trace ++ [Event.select denied] ++
          (if reaches then [Event.listTargets (targetsKey c)] else []) }
    match selectService o apiServices (w.listTargets st.nSelect) tc.Tags denied with
    | .error err => (some (some err), st1)
    | .ok none => dispatchLoop w c apiServices tc fuel Phase.select denied st1
    | .ok (some service) =>
      match assignTarget w tc service st1 with
      | (some _, st2) =>
        dispatchLoop w c apiServices tc fuel Phase.select (denied ++ [service.ID]) st2
      | (none, st2) =>
        dispatchLoop w c apiServices tc fuel
          (Phase.wait service (instanceNameOf service.Tags) 0) denied st2
  | fuel + 1, Phase.wait service instanceName retries, denied, st =>
    let key := targetKey c tc
    let st1 : DState := { st with nList := st.nList + 1, trace := st.trace ++ [Event.list key] }
    match w.list st.nList with
    | .error _ =>
      dispatchLoop w c apiServices tc fuel (Phase.wait service instanceName retries) denied
        { st1 with trace := st1.trace ++ [Event.sleep lockWaitTime] }
    | .ok values =>
      if values.len = 0 then
        let next := retryOrReselect w c apiServices tc service instanceName retries st1
        dispatchLoop w c apiServices tc fuel next.1 denied next.2
      else if values.get key = some instanceName then (some none, st1)
      else
        let next := retryOrReselect w c apiServices tc service instanceName retries st1
        dispatchLoop w c apiServices tc fuel next.1 denied next.2

/-- How one confirmation attempt at label `WAIT` ends. -/
inductive Confirm where
  /-- The lock is held by the expected owner: `dispatchTarget` returns nil (line 338). -/
  | acquired
  /-- The retry limit is reached: back to `SELECTSERVICE` (lines 330, 348). -/
  | reselect
deriving DecidableEq, Repr

/-- Lines 315-351 of `dispatchTarget` for one chosen service: the polls at label
`WAIT` until the function returns or jumps back to `SELECTSERVICE`. The result
says how the attempt ended (`none`: the fuel ran out first), how much fuel is left
and the state reached. -/
def confirmLoop (w : World) (c : ClusteringConfig) (apiServices : GoMap Service)
    (tc : TargetConfig) (service : Service) (instanceName : String) :
    Nat → Int → DState → Option Confirm × Nat × DState
  | 0, _, st => (none, 0, st)
  | fuel + 1, retries, st =>
    let key := targetKey c tc
    let st1 : DState := { st with nList := st.nList + 1, trace := st.trace ++ [Event.list key] }
    match w.list st.nList with
    | .error _ =>
      confirmLoop w c apiServices tc service instanceName fuel retries
        { st1 with trace := st1.trace ++ [Event.sleep lockWaitTime] }
    | .ok values =>
      if values.len = 0 then
        if retryLimitReached (retries + 1) c then
          (some Confirm.reselect, fuel,
            unassignTarget (w.sched st1.nSelect) w apiServices tc.Name service.ID st1)
        else
          confirmLoop w c apiServices tc service instanceName fuel (retries + 1)
            { st1 with trace := st1.trace ++ [Event.sleep lockWaitTime] }
      else if values.get key = some instanceName then (some Confirm.acquired, fuel, st1)
      else if retryLimitReached (retries + 1) c then
        (some Confirm.reselect, fuel,
          unassignTarget (w.sched st1.nSelect) w apiServices tc.Name service.ID st1)
      else
        confirmLoop w c apiServices tc service instanceName fuel (retries + 1)
          { st1 with trace := st1.trace ++ [Event.sleep lockWaitTime] }

/-- The number of `time.Sleep` calls in a trace. -/
def sleepCount (trace : List Event) : Nat :=
  trace.countP (fun e => match e with
    | Event.sleep _ => true
    | _ => false)

/-- Function `dispatchTarget` (lines 274-352). -/
def dispatchTarget (w : World) (c : ClusteringConfig) (apiServices : GoMap Service)
    (fuel : Nat) (tc : TargetConfig) (st : DState) : Option (Option Err) × DState :=
  let key := targetKey c tc
  let st1 : DState :=
    { st with nLocked := st.nLocked + 1, trace := st.trace ++ [Event.isLocked key] }
  match w.isLocked st.nLocked key with
  | .error msg => (some (some (Err.locker msg)), st1)
  | .ok true => (some none, st1)
  | .ok false => dispatchLoop w c apiServices tc fuel Phase.select [] st1

/-- The loop over the targets in one pass of `dispatchTargets` (lines 245-261):
the result says whether the pass came to its end within the fuel given to each
target. -/
def dispatchPass (w : World) (c : ClusteringConfig) (apiServices : GoMap Service)
    (fuel : Nat) : List TargetConfig → DState → Bool × DState
  | [], st => (true, st)
  | tc :: rest, st =>
    match dispatchTarget w c apiServices fuel tc st with
    | (none, st1) => (false, st1)
    | (some (some Err.notFound), st1) => (true, st1)
    | (some _, st1) => dispatchPass w c apiServices fuel rest st1

/-! ## The diff command's Get request (`config/diff.go`) -/

/-- The part of `gnmi.Path` (an external protobuf type) the code touches: origin,
elements and target. -/
structure GnmiPath where
  /-- Path origin. -/
  Origin : String
  /-- Path elements. -/
  Elem : List String
  /-- Path target. -/
  Target : String
deriving DecidableEq, Repr

/-- The part of `gnmi.GetRequest` (an external protobuf type) that
`CreateDiffGetRequest` fills in; `Prefix` is a pointer, `none` when nil. -/
structure GetRequest where
  /-- Field `Prefix`. -/
  Prefix : Option GnmiPath
  /-- Field `Path`. -/
  Path : List GnmiPath
  /-- Field `Type`, a `gnmi.GetRequest_DataType`. -/
  DataType : Int
  /-- Field `Encoding`, a `gnmi.Encoding`. -/
  Encoding : Int
deriving DecidableEq, Repr

/-- Modelled from the spec: the fields of `config.Config` that
`CreateDiffGetRequest` reads (the declaration of `Config` and of its flag
structures is not among the sources). -/
structure DiffConfig where
  /-- Global flag `encoding`. -/
  Encoding : String
  /-- Flag `prefix` of the get command. -/
  GetPrefix : String
  /-- Flag `prefix` of the diff command. -/
  DiffPrefix : String
  /-- Flag `target` of the diff command. -/
  DiffTarget : String
  /-- Flag `type` of the diff command. -/
  DiffType : String
  /-- Flag `path` of the diff command. -/
  DiffPath : List String
deriving DecidableEq, Repr

/-- What `CreateDiffGetRequest` calls outside `config/diff.go`, as parameters. -/
structure DiffLib where
  /-- The lookup `gnmi.Encoding_value[strings.Replace(strings.ToUpper(s), "-", "_", -1)]`. -/
  encodingValue : String → Option Int
  /-- The lookup `gnmi.GetRequest_DataType_value[strings.ToUpper(s)]`. -/
  dataTypeValue : String → Option Int
  /-- Function `utils.ParsePath`. -/
  parsePath : String → Except String GnmiPath
  /-- Go `strings.TrimSpace`. -/
  trimSpace : String → String

/-- Lines 63-69 of `CreateDiffGetRequest`: parse the paths in order, stop at the
first that fails. -/
def diffPaths (lib : DiffLib) : List String → GetRequest → Except String GetRequest
  | [], req => .ok req
  | p :: rest, req =>
    match lib.parsePath (lib.trimSpace p) with
    | .error err => .error ("path parse error: " ++ err)
    | .ok gnmiPath => diffPaths lib rest { req with Path := req.Path ++ [gnmiPath] }

/-- Lines 43-49 of `CreateDiffGetRequest`. -/
def diffPrefixStep (lib : DiffLib) (c : DiffConfig) (req : GetRequest) :
    Except String GetRequest :=
  if c.GetPrefix ≠ "" then
    match lib.parsePath c.DiffPrefix with
    | .error err => .error ("prefix parse error: " ++ err)
    | .ok gnmiPrefix => .ok { req with Prefix := some gnmiPrefix }
  else .ok req

/-- Lines 50-55 of `CreateDiffGetRequest`. -/
def diffTargetStep (c : DiffConfig) (req : GetRequest) : GetRequest :=
  if c.DiffTarget ≠ "" then
    let pfx : GnmiPath :=
      match req.Prefix with
      | none => ⟨"", [], ""⟩
      | some p => p
    { req with Prefix := some { pfx with Target := c.DiffTarget } }
  else req

/-- Lines 56-62 of `CreateDiffGetRequest`. -/
def diffTypeStep (lib : DiffLib) (c : DiffConfig) (req : GetRequest) :
    Except String GetRequest :=
  if c.DiffType ≠ "" then
    match lib.dataTypeValue c.DiffType with
    | none => .error ("unknown data type " ++ c.DiffType)
    | some dti => .ok { req with DataType := dti }
  else .ok req

/-- Function `Config.CreateDiffGetRequest` (lines 30-71); `none` is the nil
configuration. -/
def CreateDiffGetRequest (lib : DiffLib) (c : Option DiffConfig) : Except String GetRequest :=
  match c with
  | none => .error "invalid configuration"
  | some c =>
    match lib.encodingValue c.Encoding with
    | none => .error ("invalid encoding type '" ++ c.Encoding ++ "'")
    | some encodingVal =>
      let req : GetRequest := { Prefix := none, Path := [], DataType := 0, Encoding := encodingVal }
      match diffPrefixStep lib c req with
      | .error err => .error err
      | .ok req =>
        let req := diffTargetStep c req
        match diffTypeStep lib c req with
        | .error err => .error err
        | .ok req => diffPaths lib c.DiffPath req

/-! ## The event-allow processor (`formatters/event_allow/event_allow.go`) -/

instance {V : Type} [DecidableEq V] : DecidableEq (GoMap V) := fun a b =>
  if h : a.entries = b.entries then
    isTrue (by cases a; cases b; cases h; rfl)
  else isFalse (fun hab => h (hab ▸ rfl))

/-- A Go `interface{}` value of an event: a string, or a value of another type. -/
inductive EventValue where
  /-- A value of dynamic type `string`. -/
  | str (s : String)
  /-- A value of any other dynamic type, by its printed form. -/
  | other (printed : String)
deriving DecidableEq, Repr

/-- Modelled from the spec: `formatters.EventMsg` (package `formatters` is not
among the sources); the fields `Apply` reads, the tags and the values, and the
event name. -/
structure EventMsg where
  /-- Event name. -/
  Name : String
  /-- Field `Tags`, a `map[string]string`. -/
  Tags : GoMap String
  /-- Field `Values`, a `map[string]interface{}`. -/
  Values : GoMap EventValue
deriving DecidableEq

/-- A compiled `*regexp.Regexp` (an external type): its source and what
`MatchString` answers. -/
structure Regexp where
  /-- The expression as written. -/
  source : String
  /-- Method `MatchString`. -/
  matchString : String → Bool

/-- The processor `Allow` (lines 22-36): the trimmed condition and the compiled
expressions. -/
structure Allow where
  /-- Field `Condition`. -/
  Condition : String
  /-- Field `tagNames`. -/
  tagNames : List Regexp
  /-- Field `valueNames`. -/
  valueNames : List Regexp
  /-- Field `tags`. -/
  tags : List Regexp
  /-- Field `values`. -/
  values : List Regexp

/-- Visiting orders of the loops over the maps of an event. -/
structure EventOrder where
  /-- Loops over `e.Values`. -/
  vals : RangeOrder EventValue
  /-- Loops over `e.Tags`. -/
  tags : RangeOrder String

/-- Both maps are visited in their internal entry order. -/
def EventOrder.inOrder : EventOrder :=
  ⟨RangeOrder.inOrder EventValue, RangeOrder.inOrder String⟩

/-- Both maps are visited in reversed internal entry order. -/
def EventOrder.reversed : EventOrder :=
  ⟨RangeOrder.reversed EventValue, RangeOrder.reversed String⟩

/-- A loop `for _, re := range res` that leaves at the first expression matching
`s` (lines 128-134, 146-152, 153-159): whether it found one. -/
def anyMatch : List Regexp → String → Bool
  | [], _ => false
  | re :: rest, s => if re.matchString s then true else anyMatch rest s

/-- The loop of lines 135-143 for one value: only a value of type `string` is
matched. -/
def anyMatchValue : List Regexp → EventValue → Bool
  | [], _ => false
  | re :: rest, v =>
    match v with
    | EventValue.str vs => if re.matchString vs then true else anyMatchValue rest v
    | EventValue.other _ => anyMatchValue rest v

/-- The loop over `e.Values` (lines 127-144): whether it allows the event. -/
def valuesAllow (d : Allow) : List (String × EventValue) → Bool
  | [] => false
  | kv :: rest =>
    if anyMatch d.valueNames kv.1 then true
    else if anyMatchValue d.values kv.2 then true
    else valuesAllow d rest

/-- The loop over `e.Tags` (lines 145-160): whether it allows the event. -/
def tagsAllow (d : Allow) : List (String × String) → Bool
  | [] => false
  | kv :: rest =>
    if anyMatch d.tagNames kv.1 then true
    else if anyMatch d.tags kv.2 then true
    else tagsAllow d rest

/-- The body of the loop `OUTER` for a non-nil event (lines 116-160): whether the
event is appended to `allowed`. `check` stands for `formatters.CheckCondition`
with the compiled condition. -/
def allowsEvent (o : EventOrder) (check : EventMsg → Except String Bool) (d : Allow)
    (e : EventMsg) : Bool :=
  let byRegex :=
    if valuesAllow d (e.Values.range o.vals 11) then true
    else tagsAllow d (e.Tags.range o.tags 12)
  if d.Condition ≠ "" then
    match check e with
    | .error _ => false
    | .ok true => true
    | .ok false => byRegex
  else byRegex

/-- Method `Allow.Apply` (lines 109-163); a nil event is `none`. -/
def Allow.Apply (o : EventOrder) (check : EventMsg → Except String Bool) (d : Allow)
    (es : List (Option EventMsg)) : List EventMsg :=
  es.foldl
    (fun allowed e =>
      match e with
      | none => allowed
      | some e => if allowsEvent o check d e then allowed ++ [e] else allowed)
    []

/-- An event is matched by the processor: an expression of `valueNames` matches a
key of its values, or an expression of `values` a value of type string, or an
expression of `tagNames` a key of its tags, or an expression of `tags` a tag
value. -/
def Matched (d : Allow) (e : EventMsg) : Prop :=
  (∃ kv ∈ e.Values.entries, ∃ re ∈ d.valueNames, re.matchString kv.1 = true) ∨
  (∃ kv ∈ e.Values.entries, ∃ re ∈ d.values, ∃ vs, kv.2 = EventValue.str vs ∧
    re.matchString vs = true) ∨
  (∃ kv ∈ e.Tags.entries, ∃ re ∈ d.tagNames, re.matchString kv.1 = true) ∨
  (∃ kv ∈ e.Tags.entries, ∃ re ∈ d.tags, re.matchString kv.2 = true)

/-- The events of a list that are not nil, in order. -/
def nonNil (es : List (Option EventMsg)) : List EventMsg :=
  es.filterMap id

/-! ## Leader election and the tasks it starts (`startCluster`, `watchMembers`) -/

/-- The goroutines of `startCluster` and the contexts they run under. The contexts
made at line 133 are numbered by leadership term, from 1. -/
structure ClusterState where
  /-- Field `a.isLeader`. -/
  isLeader : Bool
  /-- Number of leadership terms begun so far. -/
  terms : Nat
  /-- The process context `a.ctx` is cancelled. -/
  processDone : Bool
  /-- Terms whose context has been cancelled by `cancel()` (lines 143, 148). -/
  cancelled : List Nat
  /-- Terms whose snapshot consumer, the goroutine of lines 164-176 started by
  `watchMembers(ctx)`, has not returned. -/
  consumers : List Nat
  /-- Terms whose `dispatchTargets(ctx)` goroutine has not returned. -/
  dispatchers : List Nat
  /-- The goroutine `apiServiceRegistration` (line 111) is still in its loop. -/
  registering : Bool
  /-- The membership view `a.apiServices`. -/
  apiServices : GoMap Service
deriving DecidableEq

/-- What can happen next in the cluster code of one instance. -/
inductive ClusterEvent where
  /-- Call `Lock` returns `(true, nil)`: lines 129-137 make a new context and start
  `watchMembers` and `dispatchTargets` under it. -/
  | lockAcquired
  /-- Channel `doneCh` or `errCh` of `KeepLock` fires (lines 141-150). -/
  | leaderLost
  /-- The `WatchServices` call of the watcher of a term offers a snapshot on
  `membersChan`; `preferDone` is the choice of the consumer's `select` when its
  context is done as well (lines 166-174). -/
  | snapshot (term : Nat) (srvs : List Service) (preferDone : Bool)
  /-- The consumer of a term evaluates its `select` while no snapshot is offered. -/
  | consumerPoll (term : Nat)
  /-- The goroutine `dispatchTargets` of a term reaches a `select` on its context
  (lines 234-236, 264-266). -/
  | dispatcherPoll (term : Nat)
  /-- The registration goroutine goes once round its loop (lines 89-102);
  `registered` says whether `Register` succeeds. -/
  | registerPoll (registered : Bool)
  /-- The process context `a.ctx` is cancelled. -/
  | processCancelled
deriving DecidableEq

/-- The state when `startCluster` has started registration (line 111) and is about
to contend for the leader key. -/
def ClusterState.init : ClusterState :=
  { isLeader := false, terms := 0, processDone := false, cancelled := [], consumers := [],
    dispatchers := [], registering := true, apiServices := GoMap.empty }

/-- The context of a leadership term is done: it was cancelled, or its parent
`a.ctx` is done (`context.WithCancel(a.ctx)`, line 133). -/
def ClusterState.ctxDone (st : ClusterState) (term : Nat) : Bool :=
  st.processDone || decide (term ∈ st.cancelled)

/-- One step of the cluster code of an instance. An event that cannot happen in a
state (a blocked goroutine, a goroutine that has returned) leaves it unchanged. -/
def clusterStep (o : Sched) (st : ClusterState) : ClusterEvent → ClusterState
  | ClusterEvent.lockAcquired =>
    if st.isLeader || st.processDone then st
    else
      { st with
        isLeader := true
        terms := st.terms + 1
        consumers := (st.terms + 1) :: st.consumers
        dispatchers := (st.terms + 1) :: st.dispatchers }
  | ClusterEvent.leaderLost =>
    if st.isLeader then
      { st with isLeader := false, cancelled := st.terms :: st.cancelled }
    else st
  | ClusterEvent.snapshot term srvs preferDone =>
    if term ∈ st.consumers then
      if st.ctxDone term && preferDone then
        { st with consumers := st.consumers.filter (fun t => decide (t ≠ term)) }
      else { st with apiServices := updateServices o st.apiServices srvs }
    else st
  | ClusterEvent.consumerPoll term =>
    if st.ctxDone term then
      { st with consumers := st.consumers.filter (fun t => decide (t ≠ term)) }
    else st
  | ClusterEvent.dispatcherPoll term =>
    if st.ctxDone term then
      { st with dispatchers := st.dispatchers.filter (fun t => decide (t ≠ term)) }
    else st
  | ClusterEvent.registerPoll registered =>
    if st.processDone || registered then { st with registering := false } else st
  | ClusterEvent.processCancelled => { st with processDone := true }

/-- A run of the cluster code: the events in order. -/
def clusterRun (o : Sched) (st : ClusterState) (events : List ClusterEvent) : ClusterState :=
  events.foldl (clusterStep o) st

/-- The context of term `t` is done and the term is not a future one. -/
def TermOver (t : Nat) (st : ClusterState) : Prop :=
  t ≤ st.terms ∧ st.ctxDone t = true

/-- Every cancelled context belongs to a term that has begun. -/
def CancelledBegun (st : ClusterState) : Prop :=
  ∀ t ∈ st.cancelled, t ≤ st.terms

instance (st : ClusterState) : Decidable (CancelledBegun st) :=
  inferInstanceAs (Decidable (∀ t ∈ st.cancelled, t ≤ st.terms))

/-! ## Example clusters -/

/-- The service a registration is seen as by the peers: same ID, address and tags. -/
def serviceOf (r : ServiceRegistration) : Service :=
  ⟨r.ID, r.Address, r.Tags⟩

/-- A view holding the given services under their IDs, when these are distinct. -/
def viewOf (l : List Service) (h : (alKeys (l.map (fun s => (s.ID, s)))).Nodup) : GoMap Service :=
  ⟨l.map (fun s => (s.ID, s)), h⟩

/-- Instance `i1` of cluster `c`, without user tags. -/
def plainPeer1 : Service :=
  serviceOf (apiServiceRegistration ⟨"c", "i1", "h1:7890", [], 10 * timeSecond⟩ "" 7890)

/-- Instance `i2` of cluster `c`, without user tags. -/
def plainPeer2 : Service :=
  serviceOf (apiServiceRegistration ⟨"c", "i2", "h2:7890", [], 10 * timeSecond⟩ "" 7890)

/-- The view of a cluster with the single instance `i1`. -/
def singleView : GoMap Service := viewOf [plainPeer1] (by decide)

/-- The view of a cluster with the untagged instances `i1` and `i2`. -/
def plainView : GoMap Service := viewOf [plainPeer1, plainPeer2] (by decide)

/-- Target locks `t1 = i1`, `t2 = i1`. -/
def plainLocks : GoMap String :=
  ⟨[("gnmic/c/targets/t1", "i1"), ("gnmic/c/targets/t2", "i1")], by decide⟩

/-- Instance `i1` of cluster `c`, configured with the tag `region=eu`. -/
def euPeer : Service :=
  serviceOf (apiServiceRegistration ⟨"c", "i1", "h1:7890", ["region=eu"], 10 * timeSecond⟩ "" 7890)

/-- Instance `i2` of cluster `c`, configured with the tag `region=us`. -/
def usPeer : Service :=
  serviceOf (apiServiceRegistration ⟨"c", "i2", "h2:7890", ["region=us"], 10 * timeSecond⟩ "" 7890)

/-- The view of the cluster of `euPeer` and `usPeer`. -/
def regionView : GoMap Service := viewOf [euPeer, usPeer] (by decide)

/-- One target lock, `t1 = i1`. -/
def regionLocks : GoMap String :=
  ⟨[("gnmic/c/targets/t1", "i1")], by decide⟩

/-- A view with two peers tagged `a, b, x` and `x, a, b`. -/
def orderView : GoMap Service :=
  viewOf [⟨"i1-api", "h1:7890", ["a", "b", "x"]⟩, ⟨"i2-api", "h2:7890", ["x", "a", "b"]⟩]
    (by decide)

/-- Instance `x-api` of cluster `c`. -/
def apiNamedPeer : Service :=
  serviceOf (apiServiceRegistration ⟨"c", "x-api", "h1:7890", [], 10 * timeSecond⟩ "" 7890)

/-- Instance `y` of cluster `c`. -/
def otherPeer : Service :=
  serviceOf (apiServiceRegistration ⟨"c", "y", "h2:7890", [], 10 * timeSecond⟩ "" 7890)

/-- The view of the cluster of the instances `x-api` and `y`. -/
def apiNamedView : GoMap Service := viewOf [apiNamedPeer, otherPeer] (by decide)

/-- A cluster configuration with a target assignment timeout of 200ms, twice
`lockWaitTime`. -/
def shortTimeoutConfig : ClusteringConfig :=
  ⟨"c", "i1", "h1:7890", [], 2 * lockWaitTime⟩

/-- A world in which no target is locked, the peers answer every request with
status 200 and no target lock ever appears. -/
def silentWorld : World :=
  { sched := fun _ => Sched.inOrder
    isLocked := fun _ _ => .ok false
    listTargets := fun _ => .ok GoMap.empty
    newRequest := fun _ => none
    http := fun _ => .ok 200
    list := fun _ => .ok GoMap.empty }

/-- A world in which every target is locked. -/
def lockedWorld : World :=
  { silentWorld with isLocked := fun _ _ => .ok true }

/-- The affinity counts `i1 = 2`, `i2 = 0`, `i3 = 2`. -/
def tieCounts : GoMap Int :=
  ⟨[("i1", 2), ("i2", 0), ("i3", 2)], by decide⟩

/-- One target lock, `t1 = y`. -/
def yLocks : GoMap String :=
  ⟨[("gnmic/c/targets/t1", "y")], by decide⟩

/-- A world like `silentWorld` in which the first three confirmation polls fail. -/
def flakyWorld : World :=
  { silentWorld with
    list := fun n => if n < 3 then .error "locker unavailable" else .ok GoMap.empty }

/-- A library in which `json` is encoding 0, no data type is known and every path
parses to the single element it is written as. -/
def plainLib : DiffLib :=
  { encodingValue := fun s => if s = "json" then some 0 else none
    dataTypeValue := fun _ => none
    parsePath := fun s => .ok ⟨"", [s], ""⟩
    trimSpace := fun s => s }

/-- A diff configuration with the diff prefix `/a` and no prefix for the get
command. -/
def diffOnlyConfig : DiffConfig :=
  { Encoding := "json", GetPrefix := "", DiffPrefix := "/a", DiffTarget := "",
    DiffType := "", DiffPath := ["/b"] }

/-- An expression that matches exactly the strings starting with `eth`. -/
def ethRegexp : Regexp :=
  ⟨"^eth", fun s => "eth".data.isPrefixOf s.data⟩

/-- A processor without condition that allows events with a value named `eth...`. -/
def ethAllow : Allow :=
  { Condition := "", tagNames := [], valueNames := [ethRegexp], tags := [], values := [] }

/-- An event with the value `eth0/in-octets`. -/
def ethEvent : EventMsg :=
  ⟨"sub1", ⟨[("source", "r1")], by decide⟩, ⟨[("eth0/in-octets", EventValue.other "42")], by decide⟩⟩

/-- An event with the value `lo0/in-octets`. -/
def loEvent : EventMsg :=
  ⟨"sub1", ⟨[("source", "r1")], by decide⟩, ⟨[("lo0/in-octets", EventValue.str "eth")], by decide⟩⟩

/-- A world like `silentWorld` in which the peers answer every request with status
500. -/
def refusingWorld : World :=
  { silentWorld with http := fun _ => .ok 500 }

/-- A cluster configuration with a target assignment timeout of 500ms, five times
`lockWaitTime`. -/
def halfSecondConfig : ClusteringConfig :=
  ⟨"c", "i1", "h1:7890", [], 5 * lockWaitTime⟩


/-! ## Lemmas: strings -/

theorem hasSuffix_append (n s : String) : hasSuffix (n ++ s) s = true := by
  unfold hasSuffix
  rw [String.data_append, List.isSuffixOf_iff_suffix]
  exact List.suffix_append _ _

theorem trimSuffix_append (n s : String) : trimSuffix (n ++ s) s = n := by
  unfold trimSuffix
  rw [if_pos (hasSuffix_append n s)]
  apply String.ext
  simp [String.data_append]

theorem trimSuffix_of_not_hasSuffix {s x : String} (h : hasSuffix s x = false) :
    trimSuffix s x = s := by
  unfold trimSuffix
  simp [h]

theorem trimSuffix_append_self {s x : String} (h : hasSuffix s x = true) :
    trimSuffix s x ++ x = s := by
  unfold hasSuffix at h
  rw [List.isSuffixOf_iff_suffix] at h
  obtain ⟨t, ht⟩ := h
  unfold trimSuffix hasSuffix
  have h2 : x.data.isSuffixOf s.data = true := by
    rw [List.isSuffixOf_iff_suffix]
    exact ⟨t, ht⟩
  rw [if_pos h2]
  apply String.ext
  rw [String.data_append, ← ht]
  simp

theorem append_right_cancel {a b s : String} (h : a ++ s = b ++ s) : a = b := by
  apply String.ext
  have h2 := congrArg String.data h
  rw [String.data_append, String.data_append] at h2
  exact List.append_cancel_right h2

/-! ## Lemmas: association lists and maps -/

theorem alGet_alSet {V : Type} (k : String) (v : V) (k' : String) (l : List (String × V)) :
    alGet k' (alSet k v l) = if k' = k then some v else alGet k' l := by
  induction l with
  | nil =>
    by_cases h : k' = k
    · simp [alSet, alGet, h]
    · have h2 : ¬ k = k' := fun hc => h hc.symm
      simp [alSet, alGet, h, h2]
  | cons e r ih =>
    by_cases he : e.1 = k
    · by_cases h : k' = k
      · simp [alSet, alGet, he, h]
      · have h2 : ¬ k = k' := fun hc => h hc.symm
        simp [alSet, alGet, he, h, h2]
    · by_cases h : k' = k
      · subst h
        simp [alSet, alGet, he, ih]
      · simp only [alSet, he, if_false, alGet, ih, h]

theorem alGet_alDel {V : Type} (k k' : String) (l : List (String × V)) :
    alGet k' (alDel k l) = if k' = k then none else alGet k' l := by
  induction l with
  | nil => simp [alDel, alGet]
  | cons e r ih =>
    by_cases he : e.1 = k
    · by_cases h : k' = k
      · subst h
        simp [alDel, he, ih]
      · have h2 : ¬ k = k' := fun hc => h hc.symm
        simp [alDel, alGet, he, ih, h, h2]
    · by_cases h : k' = k
      · subst h
        simp [alDel, alGet, he, ih]
      · simp only [alDel, he, if_false, alGet, ih, h]

theorem alGet_eq_none_iff {V : Type} (k : String) (l : List (String × V)) :
    alGet k l = none ↔ k ∉ alKeys l := by
  induction l with
  | nil => simp [alGet, alKeys]
  | cons e r ih =>
    by_cases he : e.1 = k
    · simp [alGet, he, alKeys_cons]
    · have h2 : ¬ k = e.1 := fun hc => he hc.symm
      simp [alGet, he, alKeys_cons, ih, h2]

theorem alGet_eq_some_iff {V : Type} (k : String) (v : V) (l : List (String × V))
    (h : (alKeys l).Nodup) : alGet k l = some v ↔ (k, v) ∈ l := by
  induction l with
  | nil => simp [alGet]
  | cons e r ih =>
    rw [alKeys_cons, List.nodup_cons] at h
    by_cases he : e.1 = k
    · simp only [alGet, he, if_true, List.mem_cons, Option.some.injEq]
      constructor
      · intro hv
        left
        rw [← hv, ← he]
      · rintro (hv | hv)
        · rw [← hv]
        · exact absurd (mem_alKeys.2 ⟨v, hv⟩) (he ▸ h.1)
    · simp only [alGet, he, if_false, List.mem_cons, ih h.2]
      constructor
      · exact Or.inr
      · rintro (hv | hv)
        · exact absurd (congrArg Prod.fst hv).symm he
        · exact hv

namespace GoMap

variable {V : Type}

theorem get_empty (k : String) : (GoMap.empty : GoMap V).get k = none := rfl

theorem get_set (m : GoMap V) (k : String) (v : V) (k' : String) :
    (m.set k v).get k' = if k' = k then some v else m.get k' :=
  alGet_alSet k v k' m.entries

theorem get_del (m : GoMap V) (k k' : String) :
    (m.del k).get k' = if k' = k then none else m.get k' :=
  alGet_alDel k k' m.entries

theorem get_eq_some_iff (m : GoMap V) (k : String) (v : V) :
    m.get k = some v ↔ (k, v) ∈ m.entries :=
  alGet_eq_some_iff k v m.entries m.nodup

theorem get_eq_none_iff (m : GoMap V) (k : String) :
    m.get k = none ↔ k ∉ m.keys :=
  alGet_eq_none_iff k m.entries

theorem mem_keys_iff (m : GoMap V) (k : String) :
    k ∈ m.keys ↔ ∃ v, m.get k = some v := by
  unfold keys
  rw [mem_alKeys]
  exact exists_congr fun v => (m.get_eq_some_iff k v).symm

theorem range_perm (o : RangeOrder V) (site : Nat) (m : GoMap V) :
    (m.range o site).Perm m.entries :=
  o.isPerm site m.entries

theorem mem_range_iff (o : RangeOrder V) (site : Nat) (m : GoMap V) (e : String × V) :
    e ∈ m.range o site ↔ m.get e.1 = some e.2 := by
  rw [(m.range_perm o site).mem_iff, m.get_eq_some_iff]

theorem nodup_keys_range (o : RangeOrder V) (site : Nat) (m : GoMap V) :
    (alKeys (m.range o site)).Nodup :=
  (((m.range_perm o site).map Prod.fst).nodup_iff).2 m.nodup

theorem length_range (o : RangeOrder V) (site : Nat) (m : GoMap V) :
    (m.range o site).length = m.len :=
  (m.range_perm o site).length_eq

theorem len_eq_zero_iff (m : GoMap V) : m.len = 0 ↔ ∀ k, m.get k = none := by
  unfold len
  constructor
  · intro h k
    have : m.entries = [] := List.length_eq_zero.1 h
    simp [get, this, alGet]
  · intro h
    cases hm : m.entries with
    | nil => rfl
    | cons e r =>
      have := h e.1
      simp [get, hm, alGet] at this

end GoMap

/-! ## Lemmas: tag affinity -/

theorem getD0_of_get {m : GoMap Int} {k : String} {c : Int} (h : m.get k = some c) :
    m.getD0 k = c := by
  simp [GoMap.getD0, h]

theorem matchLoop_get (tags : List String) (name : String) (P : List String) :
    ∀ (i : Nat) (m : GoMap Int) (c : Int), m.get name = some c → ∀ k,
      (matchLoop tags name i P m).get k =
        if k = name then some (c + (commonPrefixLen (tags.drop i) P : Nat)) else m.get k := by
  induction P with
  | nil =>
    intro i m c hc k
    by_cases hk : k = name
    · subst hk
      cases hd : tags.drop i <;> simp [matchLoop, commonPrefixLen, hc]
    · simp [matchLoop, hk]
  | cons tag rest ih =>
    intro i m c hc k
    by_cases hi : i + 1 > tags.length
    · have hdrop : tags.drop i = [] := List.drop_eq_nil_of_le (by omega)
      by_cases hk : k = name
      · subst hk
        simp [matchLoop, hi, hdrop, commonPrefixLen, hc]
      · simp [matchLoop, hi, hk]
    · have hlt : i < tags.length := by omega
      have hdrop : tags.drop i = tags[i] :: tags.drop (i + 1) := List.drop_eq_getElem_cons hlt
      have hget : tags[i]? = some tags[i] := List.getElem?_eq_getElem hlt
      by_cases ht : tag = tags[i]
      · have hm : (m.set name (m.getD0 name + 1)).get name = some (c + 1) := by
          rw [GoMap.get_set, if_pos rfl, getD0_of_get hc]
        have := ih (i + 1) (m.set name (m.getD0 name + 1)) (c + 1) hm k
        simp only [matchLoop, hi, if_false, hget, ht, if_true, this, hdrop, commonPrefixLen]
        by_cases hk : k = name
        · simp only [hk, if_true, Option.some.injEq]
          push_cast
          ring
        · simp only [hk, if_false, GoMap.get_set]
      · have ht2 : ¬ tags[i] = tag := fun hc => ht hc.symm
        have hcpl : commonPrefixLen (tags.drop i) (tag :: rest) = 0 := by
          rw [hdrop]
          simp only [commonPrefixLen, ht2, if_false]
        have hml : matchLoop tags name i (tag :: rest) m = m := by
          simp only [matchLoop, hi, if_false, hget, Option.some.injEq, ht]
        rw [hml, hcpl]
        by_cases hk : k = name
        · subst hk
          simp [hc]
        · simp [hk]

/-- One iteration of the outer loop of `getInstancesTagsMatches`. -/
theorem tagStep_get (tags : List String) (m : GoMap Int) (e : String × Service) (k : String) :
    (matchLoop tags (trimSuffix e.1 "-api") 0 e.2.Tags
        (m.set (trimSuffix e.1 "-api") 0)).get k =
      if k = trimSuffix e.1 "-api" then some ((commonPrefixLen tags e.2.Tags : Nat) : Int)
      else m.get k := by
  have hm : (m.set (trimSuffix e.1 "-api") 0).get (trimSuffix e.1 "-api") = some 0 := by
    rw [GoMap.get_set, if_pos rfl]
  rw [matchLoop_get tags _ e.2.Tags 0 _ 0 hm k]
  by_cases hk : k = trimSuffix e.1 "-api"
  · subst hk
    simp
  · simp [hk, GoMap.get_set]

theorem commonPrefixLen_le_left : ∀ (T P : List String), commonPrefixLen T P ≤ T.length
  | [], _ => by simp [commonPrefixLen]
  | _ :: _, [] => by simp [commonPrefixLen]
  | a :: as, b :: bs => by
    by_cases h : a = b
    · simpa [commonPrefixLen, h] using commonPrefixLen_le_left as bs
    · simp [commonPrefixLen, h]

theorem commonPrefixLen_le_right : ∀ (T P : List String), commonPrefixLen T P ≤ P.length
  | [], _ => by simp [commonPrefixLen]
  | _ :: _, [] => by simp [commonPrefixLen]
  | a :: as, b :: bs => by
    by_cases h : a = b
    · simpa [commonPrefixLen, h] using commonPrefixLen_le_right as bs
    · simp [commonPrefixLen, h]

theorem commonPrefixLen_agree : ∀ (T P : List String) (i : Nat),
    i < commonPrefixLen T P → T[i]? = P[i]?
  | [], _, i => by simp [commonPrefixLen]
  | _ :: _, [], i => by simp [commonPrefixLen]
  | a :: as, b :: bs, i => by
    by_cases h : a = b
    · intro hi
      cases i with
      | zero => simp [h]
      | succ j =>
        simp only [commonPrefixLen, h, if_true] at hi
        simpa using commonPrefixLen_agree as bs j (by omega)
    · simp [commonPrefixLen, h]

theorem commonPrefixLen_maximal : ∀ (T P : List String) (j : Nat),
    j ≤ T.length → j ≤ P.length → (∀ i, i < j → T[i]? = P[i]?) → j ≤ commonPrefixLen T P
  | [], _, j => by
    intro h1 _ _
    simp at h1
    simp [h1]
  | _ :: _, [], j => by
    intro _ h2 _
    simp at h2
    simp [h2]
  | a :: as, b :: bs, j => by
    intro h1 h2 h
    cases j with
    | zero => exact Nat.zero_le _
    | succ j =>
      have h0 := h 0 (by omega)
      simp at h0
      simp only [commonPrefixLen, h0, if_true]
      have := commonPrefixLen_maximal as bs j (by simpa using h1) (by simpa using h2)
        (fun i hi => by simpa using h (i + 1) (by omega))
      omega

/-- The outer loop of `getInstancesTagsMatches` leaves names of no visited peer alone. -/
theorem tagFold_get_other (tags : List String) (nm : String) :
    ∀ (l : List (String × Service)) (m0 : GoMap Int),
      (∀ e ∈ l, trimSuffix e.1 "-api" ≠ nm) →
      (l.foldl (fun maxMatch e =>
          matchLoop tags (trimSuffix e.1 "-api") 0 e.2.Tags
            (maxMatch.set (trimSuffix e.1 "-api") 0)) m0).get nm = m0.get nm := by
  intro l
  induction l with
  | nil => intro m0 _; rfl
  | cons e r ih =>
    intro m0 h
    rw [List.foldl_cons, ih _ (fun e' he' => h e' (List.mem_cons_of_mem _ he')), tagStep_get]
    have : ¬ nm = trimSuffix e.1 "-api" := fun hc => h e (List.mem_cons_self _ _) hc.symm
    simp [this]

/-- The outer loop of `getInstancesTagsMatches` gives a visited peer whose trimmed
name no other visited peer shares the length of its common prefix with `tags`. -/
theorem tagFold_get_mem (tags : List String) (e : String × Service) :
    ∀ (l : List (String × Service)) (m0 : GoMap Int), l.Nodup → e ∈ l →
      (∀ e' ∈ l, trimSuffix e'.1 "-api" = trimSuffix e.1 "-api" → e' = e) →
      (l.foldl (fun maxMatch e =>
          matchLoop tags (trimSuffix e.1 "-api") 0 e.2.Tags
            (maxMatch.set (trimSuffix e.1 "-api") 0)) m0).get (trimSuffix e.1 "-api")
        = some ((commonPrefixLen tags e.2.Tags : Nat) : Int) := by
  intro l
  induction l with
  | nil => intro m0 _ he; cases he
  | cons x r ih =>
    intro m0 hnd he huniq
    rw [List.nodup_cons] at hnd
    rw [List.foldl_cons]
    by_cases hx : x = e
    · subst hx
      rw [tagFold_get_other tags _ r _ ?_, tagStep_get, if_pos rfl]
      intro e' he' hc
      have := huniq e' (List.mem_cons_of_mem _ he') hc
      exact hnd.1 (this ▸ he')
    · have her : e ∈ r := by
        rcases List.mem_cons.1 he with h | h
        · exact absurd h.symm hx
        · exact h
      exact ih _ hnd.2 her (fun e' he' => huniq e' (List.mem_cons_of_mem _ he'))

/-- Every entry the outer loop of `getInstancesTagsMatches` leaves in the map was
there before or is the affinity of a visited peer. -/
theorem tagFold_get_some (tags : List String) (nm : String) (c : Int) :
    ∀ (l : List (String × Service)) (m0 : GoMap Int),
      (l.foldl (fun maxMatch e =>
          matchLoop tags (trimSuffix e.1 "-api") 0 e.2.Tags
            (maxMatch.set (trimSuffix e.1 "-api") 0)) m0).get nm = some c →
      m0.get nm = some c ∨
        ∃ e ∈ l, trimSuffix e.1 "-api" = nm ∧ c = ((commonPrefixLen tags e.2.Tags : Nat) : Int) := by
  intro l
  induction l with
  | nil => intro m0 h; exact Or.inl h
  | cons x r ih =>
    intro m0 h
    rw [List.foldl_cons] at h
    rcases ih _ h with h1 | ⟨e, he, h2, h3⟩
    · rw [tagStep_get] at h1
      by_cases hk : nm = trimSuffix x.1 "-api"
      · rw [if_pos hk] at h1
        right
        refine ⟨x, List.mem_cons_self _ _, hk.symm, ?_⟩
        exact (Option.some.inj h1).symm
      · rw [if_neg hk] at h1
        exact Or.inl h1
    · exact Or.inr ⟨e, List.mem_cons_of_mem _ he, h2, h3⟩

/-! ## Lemmas: `getHighestTagsMatches` -/

theorem highestFold (l : List (String × Int)) :
    ∀ (ss : List String) (high : Int), (∀ e ∈ l, 0 ≤ e.2) → -1 ≤ high →
      high ≤ (l.foldl highestStep (ss, high)).2 ∧
      (∀ e ∈ l, e.2 ≤ (l.foldl highestStep (ss, high)).2) ∧
      ((l.foldl highestStep (ss, high)).2 = high ∨
        ∃ e ∈ l, e.2 = (l.foldl highestStep (ss, high)).2) ∧
      (l.foldl highestStep (ss, high)).1 =
        (if (l.foldl highestStep (ss, high)).2 = high then ss else []) ++
          (l.filter (fun e => decide (e.2 = (l.foldl highestStep (ss, high)).2))).map
            (fun e => trimSuffix e.1 "-api") := by
  induction l with
  | nil => intro ss high _ _; simp
  | cons x r ih =>
    intro ss high hpos hhigh
    have hx : 0 ≤ x.2 := hpos x (List.mem_cons_self _ _)
    have hr : ∀ e ∈ r, 0 ≤ e.2 := fun e he => hpos e (List.mem_cons_of_mem _ he)
    rw [List.foldl_cons]
    by_cases h1 : high < 0 ∨ x.2 > high
    · have hstep : highestStep (ss, high) x = ([trimSuffix x.1 "-api"], x.2) := by
        simp only [highestStep, h1, if_true]
      rw [hstep]
      obtain ⟨a1, a2, a3, a4⟩ := ih [trimSuffix x.1 "-api"] x.2 hr (by omega)
      generalize List.foldl highestStep ([trimSuffix x.1 "-api"], x.2) r = res at a1 a2 a3 a4
      have hlt : high < x.2 := by omega
      refine ⟨by omega, ?_, ?_, ?_⟩
      · intro e he
        rcases List.mem_cons.1 he with h | h
        · rw [h]; exact a1
        · exact a2 e h
      · right
        rcases a3 with h | ⟨e, he, h⟩
        · exact ⟨x, List.mem_cons_self _ _, h.symm⟩
        · exact ⟨e, List.mem_cons_of_mem _ he, h⟩
      · have hne : ¬ res.2 = high := by omega
        rw [a4, if_neg hne, List.filter_cons]
        by_cases hc : res.2 = x.2
        · simp [hc]
        · have hc2 : ¬ x.2 = res.2 := fun h => hc h.symm
          simp [hc, hc2]
    · have h0 : 0 ≤ high := by omega
      have hle : x.2 ≤ high := by omega
      by_cases h2 : high = x.2
      · have hstep : highestStep (ss, high) x = (ss ++ [trimSuffix x.1 "-api"], high) := by
          simp only [highestStep]
          rw [if_neg h1, if_pos h2]
        rw [hstep]
        obtain ⟨a1, a2, a3, a4⟩ := ih (ss ++ [trimSuffix x.1 "-api"]) high hr hhigh
        generalize List.foldl highestStep (ss ++ [trimSuffix x.1 "-api"], high) r = res
          at a1 a2 a3 a4
        refine ⟨a1, ?_, ?_, ?_⟩
        · intro e he
          rcases List.mem_cons.1 he with h | h
          · rw [h]; omega
          · exact a2 e h
        · rcases a3 with h | ⟨e, he, h⟩
          · exact Or.inl h
          · exact Or.inr ⟨e, List.mem_cons_of_mem _ he, h⟩
        · rw [a4, List.filter_cons]
          by_cases hc : res.2 = high
          · have hc2 : x.2 = res.2 := by omega
            simp [hc, hc2]
          · have hc2 : ¬ x.2 = res.2 := by omega
            simp [hc, hc2]
      · have hstep : highestStep (ss, high) x = (ss, high) := by
          simp only [highestStep]
          rw [if_neg h1, if_neg h2]
        rw [hstep]
        obtain ⟨a1, a2, a3, a4⟩ := ih ss high hr hhigh
        generalize List.foldl highestStep (ss, high) r = res at a1 a2 a3 a4
        refine ⟨a1, ?_, ?_, ?_⟩
        · intro e he
          rcases List.mem_cons.1 he with h | h
          · rw [h]; omega
          · exact a2 e h
        · rcases a3 with h | ⟨e, he, h⟩
          · exact Or.inl h
          · exact Or.inr ⟨e, List.mem_cons_of_mem _ he, h⟩
        · have hc2 : ¬ x.2 = res.2 := by omega
          rw [a4, List.filter_cons]
          simp [hc2]

/-! ## Lemmas: `getLowLoadInstance` -/

theorem lowFold_from (l : List (String × Int)) :
    ∀ (st : String × Int), (∀ e ∈ l, 0 ≤ e.2) → 0 ≤ st.2 →
      (l.foldl lowStep st).2 ≤ st.2 ∧
      (∀ e ∈ l, (l.foldl lowStep st).2 ≤ e.2) ∧
      (l.foldl lowStep st = st ∨ l.foldl lowStep st ∈ l) := by
  induction l with
  | nil => intro st _ _; simp
  | cons x r ih =>
    intro st hpos hst
    have hx : 0 ≤ x.2 := hpos x (List.mem_cons_self _ _)
    have hr : ∀ e ∈ r, 0 ≤ e.2 := fun e he => hpos e (List.mem_cons_of_mem _ he)
    rw [List.foldl_cons]
    by_cases h1 : st.2 < 0 ∨ x.2 < st.2
    · have hstep : lowStep st x = x := by
        simp only [lowStep, h1, if_true]
      rw [hstep]
      obtain ⟨a1, a2, a3⟩ := ih x hr hx
      refine ⟨by omega, ?_, ?_⟩
      · intro e he
        rcases List.mem_cons.1 he with h | h
        · rw [h]; exact a1
        · exact a2 e h
      · right
        rcases a3 with h | h
        · rw [h]; exact List.mem_cons_self _ _
        · exact List.mem_cons_of_mem _ h
    · have hstep : lowStep st x = st := by
        simp only [lowStep, h1, if_false]
      rw [hstep]
      obtain ⟨a1, a2, a3⟩ := ih st hr hst
      refine ⟨a1, ?_, ?_⟩
      · intro e he
        rcases List.mem_cons.1 he with h | h
        · rw [h]; omega
        · exact a2 e h
      · rcases a3 with h | h
        · exact Or.inl h
        · exact Or.inr (List.mem_cons_of_mem _ h)

/-- The loop of `getLowLoadInstance` over a non-empty list of non-negative loads
ends on a visited entry of least load. -/
theorem lowFold (l : List (String × Int)) (hne : l ≠ []) (hpos : ∀ e ∈ l, 0 ≤ e.2) :
    l.foldl lowStep ("", -1) ∈ l ∧ ∀ e ∈ l, (l.foldl lowStep ("", -1)).2 ≤ e.2 := by
  cases l with
  | nil => exact absurd rfl hne
  | cons x r =>
    have hx : 0 ≤ x.2 := hpos x (List.mem_cons_self _ _)
    have hr : ∀ e ∈ r, 0 ≤ e.2 := fun e he => hpos e (List.mem_cons_of_mem _ he)
    have hstep : lowStep ("", -1) x = x := by
      simp [lowStep]
    rw [List.foldl_cons, hstep]
    obtain ⟨a1, a2, a3⟩ := lowFold_from r x hr hx
    refine ⟨?_, ?_⟩
    · rcases a3 with h | h
      · rw [h]; exact List.mem_cons_self _ _
      · exact List.mem_cons_of_mem _ h
    · intro e he
      rcases List.mem_cons.1 he with h | h
      · rw [h]; exact a1
      · exact a2 e h

/-! ## Lemmas: `getInstancesLoad` -/

theorem getD0_set (m : GoMap Int) (k : String) (v : Int) (n : String) :
    (m.set k v).getD0 n = if n = k then v else m.getD0 n := by
  unfold GoMap.getD0
  rw [GoMap.get_set]
  by_cases h : n = k <;> simp [h]

/-- Counting one lock (lines 419-422) adds one to the owner and nothing elsewhere. -/
theorem lockStep_getD0 (load : GoMap Int) (inst n : String) :
    ((if (load.get inst).isNone then load.set inst 0 else load).set inst
        ((if (load.get inst).isNone then load.set inst 0 else load).getD0 inst + 1)).getD0 n =
      load.getD0 n + (if inst = n then 1 else 0) := by
  rw [getD0_set]
  by_cases h : n = inst
  · subst h
    by_cases hn : (load.get n).isNone
    · have : load.get n = none := by simpa using hn
      simp [hn, GoMap.getD0, this, GoMap.get_set]
    · simp [hn]
  · have h2 : ¬ inst = n := fun hc => h hc.symm
    by_cases hn : (load.get inst).isNone
    · simp [hn, getD0_set, h, h2]
    · simp [hn, h, h2]

theorem lockFold_getD0 (n : String) :
    ∀ (l : List (String × String)) (m0 : GoMap Int),
      (l.foldl (fun load e =>
          let inst := e.2
          let load := if (load.get inst).isNone then load.set inst 0 else load
          load.set inst (load.getD0 inst + 1)) m0).getD0 n =
        m0.getD0 n + ((l.filter (fun e => decide (e.2 = n))).length : Nat) := by
  intro l
  induction l with
  | nil => intro m0; simp
  | cons x r ih =>
    intro m0
    rw [List.foldl_cons, ih]
    simp only []
    rw [lockStep_getD0, List.filter_cons]
    by_cases h : x.2 = n
    · simp [h]; ring
    · simp [h]

theorem zeroFold_getD0 (n : String) :
    ∀ (l : List (String × Service)) (m0 : GoMap Int),
      (l.foldl (fun load e =>
          let inst := trimSuffix e.2.ID "-api"
          if (load.get inst).isNone then load.set inst 0 else load) m0).getD0 n = m0.getD0 n := by
  intro l
  induction l with
  | nil => intro m0; rfl
  | cons x r ih =>
    intro m0
    rw [List.foldl_cons, ih]
    simp only []
    by_cases hn : (m0.get (trimSuffix x.2.ID "-api")).isNone
    · rw [if_pos hn, getD0_set]
      by_cases h : n = trimSuffix x.2.ID "-api"
      · have : m0.get n = none := by
          rw [h]; simpa using hn
        rw [if_pos h]
        simp [GoMap.getD0, this]
      · simp [h]
    · rw [if_neg hn]

theorem filterFold_get (load : GoMap Int) (n : String) :
    ∀ (l : List String) (f0 : GoMap Int),
      (l.foldl (fun filteredLoad inst =>
          match load.get inst with
          | some l => filteredLoad.set inst l
          | none => filteredLoad.set inst 0) f0).get n =
        if n ∈ l then some (load.getD0 n) else f0.get n := by
  intro l
  induction l with
  | nil => intro f0; simp
  | cons x r ih =>
    intro f0
    rw [List.foldl_cons, ih]
    by_cases hr : n ∈ r
    · simp [hr]
    · rw [if_neg hr]
      have hstep : (match load.get x with
          | some l => f0.set x l
          | none => f0.set x 0) = f0.set x (load.getD0 x) := by
        cases hx : load.get x <;> simp [GoMap.getD0, hx]
      rw [hstep, GoMap.get_set]
      by_cases h : n = x
      · subst h
        simp
      · simp [h, hr]

/-- With a readable lock listing and a non-empty candidate list, `getInstancesLoad`
returns the map that gives every candidate its lock count and holds nothing else. -/
theorem getInstancesLoad_ok (o : Sched) (apiServices : GoMap Service) (locks : GoMap String)
    (instances : List String) (hne : instances ≠ []) :
    ∃ load, getInstancesLoad o apiServices (.ok locks) instances = .ok load ∧
      ∀ n, load.get n = if n ∈ instances then some ((lockCount locks n : Nat) : Int) else none := by
  have hlen : instances.length > 0 := List.length_pos.2 hne
  unfold getInstancesLoad
  simp only [hlen, if_true]
  refine ⟨_, rfl, ?_⟩
  intro n
  rw [filterFold_get, GoMap.get_empty, zeroFold_getD0, lockFold_getD0]
  have hcount : ((locks.range o.str 6).filter (fun e => decide (e.2 = n))).length
      = lockCount locks n :=
    ((locks.range_perm o.str 6).filter _).length_eq
  rw [hcount]
  simp [GoMap.getD0, GoMap.get_empty]

theorem getInstancesLoad_error (o : Sched) (apiServices : GoMap Service) (msg : String)
    (instances : List String) :
    getInstancesLoad o apiServices (.error msg) instances = .error (Err.locker msg) := rfl

/-! ## Lemmas: denied peers and least load -/

theorem deniedFold_get (n : String) :
    ∀ (denied : List String) (load : GoMap Int),
      (denied.foldl (fun load d => load.del (trimSuffix d "-api")) load).get n =
        if n ∈ denied.map (fun d => trimSuffix d "-api") then none else load.get n := by
  intro denied
  induction denied with
  | nil => intro load; simp
  | cons d r ih =>
    intro load
    rw [List.foldl_cons, ih, GoMap.get_del]
    by_cases h1 : n ∈ r.map (fun d => trimSuffix d "-api")
    · simp [h1]
    · by_cases h2 : n = trimSuffix d "-api"
      · simp [h2]
      · simp [h1, h2]

theorem getLowLoadInstance_spec (o : Sched) (load : GoMap Int) (hne : load.len ≠ 0)
    (hpos : ∀ n c, load.get n = some c → 0 ≤ c) :
    ∃ low, load.get (getLowLoadInstance o load) = some low ∧
      ∀ n c, load.get n = some c → low ≤ c := by
  have hl : load.range o.cnt 8 ≠ [] := by
    intro h
    have := load.length_range o.cnt 8
    rw [h] at this
    exact hne this.symm
  have hp : ∀ e ∈ load.range o.cnt 8, 0 ≤ e.2 := fun e he =>
    hpos e.1 e.2 ((load.mem_range_iff o.cnt 8 e).1 he)
  obtain ⟨h1, h2⟩ := lowFold _ hl hp
  refine ⟨((load.range o.cnt 8).foldl lowStep ("", -1)).2, ?_, ?_⟩
  · exact (load.mem_range_iff o.cnt 8 _).1 h1
  · intro n c hc
    exact h2 (n, c) ((load.mem_range_iff o.cnt 8 (n, c)).2 hc)

/-- Lines 391-402 when some entry of the load map survives the denied filter: the
result is the view entry of a surviving name of least load. -/
theorem selectByLoad_ok (o : Sched) (apiServices : GoMap Service) (load : GoMap Int)
    (denied : List String) (hpos : ∀ n c, load.get n = some c → 0 ≤ c)
    (hex : ∃ n c, load.get n = some c ∧ n ∉ denied.map (fun d => trimSuffix d "-api")) :
    ∃ ss low, selectByLoad o apiServices load denied = .ok (apiServices.get (ss ++ "-api")) ∧
      load.get ss = some low ∧ ss ∉ denied.map (fun d => trimSuffix d "-api") ∧
      ∀ n c, load.get n = some c → n ∉ denied.map (fun d => trimSuffix d "-api") → low ≤ c := by
  obtain ⟨n0, c0, hn0, hd0⟩ := hex
  have hne : (denied.foldl (fun load d => load.del (trimSuffix d "-api")) load).len ≠ 0 := by
    intro h
    have := (GoMap.len_eq_zero_iff _).1 h n0
    rw [deniedFold_get, if_neg hd0, hn0] at this
    cases this
  have hpos2 : ∀ n c,
      (denied.foldl (fun load d => load.del (trimSuffix d "-api")) load).get n = some c →
        0 ≤ c := by
    intro n c h
    rw [deniedFold_get] at h
    by_cases hd : n ∈ denied.map (fun d => trimSuffix d "-api")
    · rw [if_pos hd] at h; cases h
    · rw [if_neg hd] at h; exact hpos n c h
  obtain ⟨low, h1, h2⟩ := getLowLoadInstance_spec o _ hne hpos2
  refine ⟨getLowLoadInstance o
    (denied.foldl (fun load d => load.del (trimSuffix d "-api")) load), low, ?_, ?_, ?_, ?_⟩
  · unfold selectByLoad
    simp only [hne, if_false]
  · rw [deniedFold_get] at h1
    by_cases hd : getLowLoadInstance o
        (denied.foldl (fun load d => load.del (trimSuffix d "-api")) load)
          ∈ denied.map (fun d => trimSuffix d "-api")
    · rw [if_pos hd] at h1; cases h1
    · rw [if_neg hd] at h1; exact h1
  · intro hd
    rw [deniedFold_get, if_pos hd] at h1
    cases h1
  · intro n c hc hd
    apply h2 n c
    rw [deniedFold_get, if_neg hd]
    exact hc

/-- Lines 395-398: when the denied filter empties the load map the result is
`errNoMoreSuitableServices`. -/
theorem selectByLoad_error (o : Sched) (apiServices : GoMap Service) (load : GoMap Int)
    (denied : List String)
    (hall : ∀ n c, load.get n = some c → n ∈ denied.map (fun d => trimSuffix d "-api")) :
    selectByLoad o apiServices load denied = .error Err.noMoreSuitableServices := by
  have hz : (denied.foldl (fun load d => load.del (trimSuffix d "-api")) load).len = 0 := by
    rw [GoMap.len_eq_zero_iff]
    intro n
    rw [deniedFold_get]
    by_cases hd : n ∈ denied.map (fun d => trimSuffix d "-api")
    · rw [if_pos hd]
    · rw [if_neg hd]
      cases hc : load.get n with
      | none => rfl
      | some c => exact absurd (hall n c hc) hd
  unfold selectByLoad
  simp only [hz, if_true]

/-! ## Lemmas: candidates of `selectService` -/

theorem GoMap.nodup_entries {V : Type} (m : GoMap V) : m.entries.Nodup :=
  List.Nodup.of_map Prod.fst m.nodup

theorem GoMap.entry_eq_of_key_eq {V : Type} (m : GoMap V) {e e' : String × V}
    (he : e ∈ m.entries) (he' : e' ∈ m.entries) (h : e'.1 = e.1) : e' = e := by
  have h1 := (m.get_eq_some_iff e.1 e.2).2 he
  have h2 := (m.get_eq_some_iff e'.1 e'.2).2 he'
  rw [h, h1] at h2
  exact Prod.ext h (Option.some.inj h2).symm

theorem GoMap.mem_keys_of_mem {V : Type} (m : GoMap V) {e : String × V}
    (he : e ∈ m.entries) : e.1 ∈ m.keys :=
  List.mem_map.2 ⟨e, he, rfl⟩

/-- A peer whose trimmed ID no other peer of the view shares is given the length
of the common prefix of the target tags and its own tags. -/
theorem tagCount_get_of_mem (o : Sched) (apiServices : GoMap Service) (tags : List String)
    (htags : tags ≠ []) (e : String × Service) (he : e ∈ apiServices.entries)
    (huniq : ∀ k ∈ apiServices.keys, trimSuffix k "-api" = trimSuffix e.1 "-api" → k = e.1) :
    (getInstancesTagsMatches o apiServices tags).get (trimSuffix e.1 "-api")
      = some ((commonPrefixLen tags e.2.Tags : Nat) : Int) := by
  have hlen : ¬ tags.length = 0 := fun h => htags (List.length_eq_zero.1 h)
  unfold getInstancesTagsMatches
  simp only [hlen, if_false]
  have hperm := apiServices.range_perm o.svc 3
  apply tagFold_get_mem tags e _ _ (hperm.nodup_iff.2 apiServices.nodup_entries)
    (hperm.mem_iff.2 he)
  intro e' he' ht
  have he'' : e' ∈ apiServices.entries := hperm.mem_iff.1 he'
  exact apiServices.entry_eq_of_key_eq he he''
    (huniq e'.1 (apiServices.mem_keys_of_mem he'') ht)

/-- Every entry of the affinity map is the affinity of some peer of the view. -/
theorem tagCount_get_some (o : Sched) (apiServices : GoMap Service) (tags : List String)
    (nm : String) (c : Int)
    (h : (getInstancesTagsMatches o apiServices tags).get nm = some c) :
    ∃ e ∈ apiServices.entries, trimSuffix e.1 "-api" = nm ∧
      c = ((commonPrefixLen tags e.2.Tags : Nat) : Int) := by
  unfold getInstancesTagsMatches at h
  by_cases hlen : tags.length = 0
  · simp only [hlen, if_true] at h
    cases h
  · simp only [hlen, if_false] at h
    rcases tagFold_get_some tags nm c _ _ h with h1 | ⟨e, he, h2, h3⟩
    · cases h1
    · exact ⟨e, (apiServices.range_perm o.svc 3).mem_iff.1 he, h2, h3⟩

theorem tagCount_len_zero (o : Sched) (apiServices : GoMap Service) :
    (getInstancesTagsMatches o apiServices []).len = 0 := rfl

theorem tagCount_len_pos (o : Sched) (apiServices : GoMap Service) (tags : List String)
    (htags : tags ≠ []) (hview : apiServices.len ≠ 0) :
    (getInstancesTagsMatches o apiServices tags).len > 0 := by
  have hlen : ¬ tags.length = 0 := fun h => htags (List.length_eq_zero.1 h)
  apply Nat.pos_of_ne_zero
  intro hz
  have hnone := (GoMap.len_eq_zero_iff _).1 hz
  unfold getInstancesTagsMatches at hnone
  simp only [hlen, if_false] at hnone
  have hl : apiServices.range o.svc 3 ≠ [] := by
    intro h
    have := apiServices.length_range o.svc 3
    rw [h] at this
    exact hview this.symm
  obtain ⟨l', x, hx⟩ := (List.eq_nil_or_concat (apiServices.range o.svc 3)).resolve_left hl
  have := hnone (trimSuffix x.1 "-api")
  rw [hx, List.concat_eq_append, List.foldl_append, List.foldl_cons, List.foldl_nil,
    tagStep_get, if_pos rfl] at this
  cases this

theorem foldl_append_singleton {α β : Type} (g : α → β) :
    ∀ (l : List α) (init : List β),
      l.foldl (fun acc e => acc ++ [g e]) init = init ++ l.map g := by
  intro l
  induction l with
  | nil => intro init; simp
  | cons x r ih => intro init; rw [List.foldl_cons, ih]; simp

/-- Without target tags every peer is a candidate (lines 371-373). -/
theorem matchingInstances_noTags (o : Sched) (apiServices : GoMap Service) :
    matchingInstances o apiServices [] =
      (apiServices.range o.svc 5).map (fun e => trimSuffix e.1 "-api") := by
  unfold matchingInstances
  simp only [tagCount_len_zero, gt_iff_lt, lt_self_iff_false, if_false]
  rw [foldl_append_singleton (fun e : String × Service => trimSuffix e.1 "-api")]
  simp

/-- With target tags the candidates are the names of highest affinity in the
affinity map, each trimmed once more (lines 367-369, 503, 508). -/
theorem matchingInstances_tags (o : Sched) (apiServices : GoMap Service) (tags : List String)
    (htags : tags ≠ []) (hview : apiServices.len ≠ 0) :
    ∃ mx : Int,
      (∀ e ∈ (getInstancesTagsMatches o apiServices tags).entries, e.2 ≤ mx) ∧
      (∃ e ∈ (getInstancesTagsMatches o apiServices tags).entries, e.2 = mx) ∧
      matchingInstances o apiServices tags =
        (((getInstancesTagsMatches o apiServices tags).range o.cnt 4).filter
          (fun e => decide (e.2 = mx))).map (fun e => trimSuffix e.1 "-api") := by
  have hpos := tagCount_len_pos o apiServices tags htags hview
  have hperm := (getInstancesTagsMatches o apiServices tags).range_perm o.cnt 4
  have hnonneg : ∀ e ∈ (getInstancesTagsMatches o apiServices tags).range o.cnt 4, 0 ≤ e.2 := by
    intro e he
    have h1 := (GoMap.mem_range_iff _ _ _ e).1 he
    obtain ⟨e', _, _, hc⟩ := tagCount_get_some o apiServices tags e.1 e.2 h1
    rw [hc]
    exact Int.natCast_nonneg _
  obtain ⟨a1, a2, a3, a4⟩ := highestFold _ [] (-1) hnonneg (le_refl _)
  have hne : (getInstancesTagsMatches o apiServices tags).range o.cnt 4 ≠ [] := by
    intro h
    have := (getInstancesTagsMatches o apiServices tags).length_range o.cnt 4
    rw [h] at this
    simp at this
    omega
  obtain ⟨x, hx⟩ := List.exists_mem_of_ne_nil _ hne
  have hx0 := hnonneg x hx
  have hxle := a2 x hx
  have hdef : matchingInstances o apiServices tags =
      (((getInstancesTagsMatches o apiServices tags).range o.cnt 4).foldl
        highestStep ([], -1)).1 := by
    unfold matchingInstances
    simp only [hpos, if_true]
    rfl
  rw [hdef]
  generalize ((getInstancesTagsMatches o apiServices tags).range o.cnt 4).foldl
    highestStep ([], -1) = res at a1 a2 a3 a4 hxle
  have hmx : ¬ res.2 = -1 := by omega
  refine ⟨res.2, ?_, ?_, ?_⟩
  · intro e he
    exact a2 e (hperm.mem_iff.2 he)
  · rcases a3 with h | ⟨e, he, h⟩
    · exact absurd h hmx
    · exact ⟨e, hperm.mem_iff.1 he, h⟩
  · rw [a4, if_neg hmx, List.nil_append]

/-! ## Lemmas: the branches of `selectService` -/

theorem selectService_empty (o : Sched) (apiServices : GoMap Service)
    (locks : Except String (GoMap String)) (tags denied : List String)
    (h : apiServices.len = 0) :
    selectService o apiServices locks tags denied = .error Err.notFound := by
  unfold selectService
  rw [h]

theorem selectService_one (o : Sched) (apiServices : GoMap Service)
    (locks : Except String (GoMap String)) (tags denied : List String)
    (h : apiServices.len = 1) :
    ∃ e ∈ apiServices.entries, selectService o apiServices locks tags denied = .ok (some e.2) := by
  unfold selectService
  rw [h]
  have hlen := apiServices.length_range o.svc 2
  rw [h] at hlen
  cases hr : apiServices.range o.svc 2 with
  | nil => rw [hr] at hlen; cases hlen
  | cons e r =>
    refine ⟨e, ?_, ?_⟩
    · exact (apiServices.range_perm o.svc 2).mem_iff.1 (hr ▸ List.mem_cons_self _ _)
    · simp only []

theorem selectService_single (o : Sched) (apiServices : GoMap Service)
    (locks : Except String (GoMap String)) (tags denied : List String)
    (h : 2 ≤ apiServices.len) (n : String) (hn : matchingInstances o apiServices tags = [n]) :
    selectService o apiServices locks tags denied = .ok (apiServices.get (n ++ "-api")) := by
  obtain ⟨k, hk⟩ : ∃ k, apiServices.len = k + 2 := ⟨apiServices.len - 2, by omega⟩
  unfold selectService
  rw [hk]
  simp only [hn]

theorem selectService_many (o : Sched) (apiServices : GoMap Service)
    (locks : Except String (GoMap String)) (tags denied : List String)
    (h : 2 ≤ apiServices.len) (hn : (matchingInstances o apiServices tags).length ≠ 1) :
    selectService o apiServices locks tags denied =
      loadPath o apiServices locks denied (matchingInstances o apiServices tags) := by
  obtain ⟨k, hk⟩ : ∃ k, apiServices.len = k + 2 := ⟨apiServices.len - 2, by omega⟩
  unfold selectService
  rw [hk]
  simp only []
  generalize matchingInstances o apiServices tags = c at hn
  match c, hn with
  | [], _ => rfl
  | [a], hn => simp at hn
  | a :: b :: r, _ => rfl

theorem lowFold_mem_or (l : List (String × Int)) :
    ∀ (st : String × Int), l.foldl lowStep st = st ∨ l.foldl lowStep st ∈ l := by
  induction l with
  | nil => intro st; exact Or.inl rfl
  | cons x r ih =>
    intro st
    rw [List.foldl_cons]
    by_cases h1 : st.2 < 0 ∨ x.2 < st.2
    · have hstep : lowStep st x = x := by
        simp only [lowStep, h1, if_true]
      rw [hstep]
      rcases ih x with h | h
      · rw [h]; exact Or.inr (List.mem_cons_self _ _)
      · exact Or.inr (List.mem_cons_of_mem _ h)
    · have hstep : lowStep st x = st := by
        simp only [lowStep, h1, if_false]
      rw [hstep]
      rcases ih st with h | h
      · exact Or.inl h
      · exact Or.inr (List.mem_cons_of_mem _ h)

/-- The name `getLowLoadInstance` returns for a non-empty map is one of its keys. -/
theorem getLowLoadInstance_mem (o : Sched) (load : GoMap Int) (hne : load.len ≠ 0) :
    ∃ c, load.get (getLowLoadInstance o load) = some c := by
  have hlen := load.length_range o.cnt 8
  unfold getLowLoadInstance
  cases hr : load.range o.cnt 8 with
  | nil => rw [hr] at hlen; exact absurd hlen.symm hne
  | cons x r =>
    have hstep : lowStep ("", -1) x = x := by
      simp [lowStep]
    rw [List.foldl_cons, hstep]
    have hmem : r.foldl lowStep x ∈ load.range o.cnt 8 := by
      rw [hr]
      rcases lowFold_mem_or r x with h | h
      · rw [h]; exact List.mem_cons_self _ _
      · exact List.mem_cons_of_mem _ h
    exact ⟨_, (load.mem_range_iff o.cnt 8 _).1 hmem⟩

/-- Whatever `selectByLoad` returns without error is the view entry of a name that
the denied filter has not removed. -/
theorem selectByLoad_some (o : Sched) (apiServices : GoMap Service) (load : GoMap Int)
    (denied : List String) (r : Option Service)
    (h : selectByLoad o apiServices load denied = .ok r) :
    ∃ ss, r = apiServices.get (ss ++ "-api") ∧
      ss ∉ denied.map (fun d => trimSuffix d "-api") := by
  unfold selectByLoad at h
  by_cases hz : (denied.foldl (fun load d => load.del (trimSuffix d "-api")) load).len = 0
  · simp only [hz, if_true] at h
    cases h
  · simp only [hz, if_false] at h
    obtain ⟨c, hc⟩ := getLowLoadInstance_mem o _ hz
    refine ⟨_, (Except.ok.inj h).symm, ?_⟩
    intro hd
    rw [deniedFold_get, if_pos hd] at hc
    cases hc

/-- On the load path a service returned without error is stored in the view
under `ss ++ "-api"` for a name `ss` the denied filter has not removed. -/
theorem loadPath_some (o : Sched) (apiServices : GoMap Service)
    (locks : Except String (GoMap String)) (denied candidates : List String)
    (r : Option Service) (h : loadPath o apiServices locks denied candidates = .ok r) :
    ∃ ss, r = apiServices.get (ss ++ "-api") ∧
      ss ∉ denied.map (fun d => trimSuffix d "-api") := by
  cases locks with
  | error msg =>
    unfold loadPath at h
    rw [getInstancesLoad_error] at h
    cases h
  | ok lk =>
    cases candidates with
    | nil =>
      unfold loadPath at h
      cases hl : getInstancesLoad o apiServices (.ok lk) [] with
      | error err => rw [hl] at h; cases h
      | ok load =>
        rw [hl] at h
        simp only [ite_self] at h
        exact selectByLoad_some o apiServices load denied r h
    | cons n rest =>
      obtain ⟨load, hl, hget⟩ := getInstancesLoad_ok o apiServices lk (n :: rest)
        (List.cons_ne_nil _ _)
      have hne : load.len ≠ 0 := by
        intro hz
        have := (GoMap.len_eq_zero_iff load).1 hz n
        rw [hget, if_pos (List.mem_cons_self _ _)] at this
        cases this
      unfold loadPath at h
      rw [hl] at h
      simp only [hne, if_false] at h
      exact selectByLoad_some o apiServices load denied r h

theorem two_le_length_of_mem_ne {α : Type} {a b : α} :
    ∀ {l : List α}, a ∈ l → b ∈ l → a ≠ b → 2 ≤ l.length
  | [], ha, _, _ => by cases ha
  | [x], ha, hb, hne => by
    simp only [List.mem_singleton] at ha hb
    exact absurd (ha.trans hb.symm) hne
  | _ :: _ :: _, _, _, _ => by simp

theorem eq_singleton_of_forall_eq {α : Type} {a : α} :
    ∀ {l : List α}, l.Nodup → a ∈ l → (∀ x ∈ l, x = a) → l = [a]
  | [], _, ha, _ => by cases ha
  | [x], _, _, hall => by rw [hall x (List.mem_singleton_self x)]
  | x :: y :: r, hnd, _, hall => by
    have hx := hall x (List.mem_cons_self _ _)
    have hy := hall y (List.mem_cons_of_mem _ (List.mem_cons_self _ _))
    rw [List.nodup_cons] at hnd
    exact absurd (hy ▸ hx ▸ List.mem_cons_self _ _ : x ∈ y :: r) hnd.1

/-! ## Lemmas: candidates and affinity under injective trimming -/

theorem tagCount_get_iff (o : Sched) (apiServices : GoMap Service) (tags : List String)
    (htags : tags ≠ []) (hinj : TrimInjective apiServices) (nm : String) (c : Int) :
    (getInstancesTagsMatches o apiServices tags).get nm = some c ↔
      ∃ e ∈ apiServices.entries, trimSuffix e.1 "-api" = nm ∧
        c = ((commonPrefixLen tags e.2.Tags : Nat) : Int) := by
  constructor
  · exact tagCount_get_some o apiServices tags nm c
  · rintro ⟨e, he, rfl, rfl⟩
    exact tagCount_get_of_mem o apiServices tags htags e he
      (fun k hk ht => hinj k hk e.1 (apiServices.mem_keys_of_mem he) ht)

/-- With target tags, a non-empty view and injective trimming, the candidates are
the twice-trimmed IDs of the peers of maximal affinity, one for each such peer. -/
theorem candidates_tags (o : Sched) (apiServices : GoMap Service) (tags : List String)
    (htags : tags ≠ []) (hview : apiServices.len ≠ 0) (hinj : TrimInjective apiServices) :
    ∃ F : List (String × Int), F.Nodup ∧
      (∀ p, p ∈ F ↔ ∃ e ∈ apiServices.entries, MaxAffinity apiServices tags e.2 ∧
        p = (trimSuffix e.1 "-api", ((commonPrefixLen tags e.2.Tags : Nat) : Int))) ∧
      matchingInstances o apiServices tags = F.map (fun p => trimSuffix p.1 "-api") := by
  obtain ⟨mx, h1, ⟨emx, hemx, hmx⟩, h3⟩ := matchingInstances_tags o apiServices tags htags hview
  have hperm := (getInstancesTagsMatches o apiServices tags).range_perm o.cnt 4
  -- the maximum is the affinity of some peer, and bounds the affinity of every peer
  have hmxget := ((getInstancesTagsMatches o apiServices tags).get_eq_some_iff emx.1 emx.2).2 hemx
  obtain ⟨e0, he0, _, hc0⟩ := (tagCount_get_iff o apiServices tags htags hinj _ _).1 hmxget
  have hbound : ∀ e ∈ apiServices.entries,
      ((commonPrefixLen tags e.2.Tags : Nat) : Int) ≤ mx := by
    intro e he
    have hg := (tagCount_get_iff o apiServices tags htags hinj (trimSuffix e.1 "-api")
      ((commonPrefixLen tags e.2.Tags : Nat) : Int)).2 ⟨e, he, rfl, rfl⟩
    have hm := ((getInstancesTagsMatches o apiServices tags).get_eq_some_iff _ _).1 hg
    exact h1 _ hm
  have hmaxiff : ∀ e ∈ apiServices.entries,
      (MaxAffinity apiServices tags e.2 ↔ ((commonPrefixLen tags e.2.Tags : Nat) : Int) = mx) := by
    intro e he
    constructor
    · intro hm
      have hle := hm e0 he0
      have hb := hbound e he
      have : mx = ((commonPrefixLen tags e0.2.Tags : Nat) : Int) := by rw [← hmx, hc0]
      omega
    · intro hm e' he'
      have hb := hbound e' he'
      omega
  refine ⟨((getInstancesTagsMatches o apiServices tags).range o.cnt 4).filter
    (fun e => decide (e.2 = mx)), ?_, ?_, h3⟩
  · exact (hperm.nodup_iff.2 (GoMap.nodup_entries _)).filter _
  · intro p
    rw [List.mem_filter, GoMap.mem_range_iff, tagCount_get_iff o apiServices tags htags hinj]
    constructor
    · rintro ⟨⟨e, he, hnm, hc⟩, hdec⟩
      have hpmx : p.2 = mx := of_decide_eq_true hdec
      refine ⟨e, he, (hmaxiff e he).2 (by rw [← hc, hpmx]), ?_⟩
      exact Prod.ext hnm.symm hc
    · rintro ⟨e, he, hm, rfl⟩
      exact ⟨⟨e, he, rfl, rfl⟩, decide_eq_true ((hmaxiff e he).1 hm)⟩

theorem maxAffinity_noTags (apiServices : GoMap Service) (s : Service) :
    MaxAffinity apiServices [] s := by
  intro e _
  simp [commonPrefixLen]

theorem RegisteredIDs.key_eq {apiServices : GoMap Service} {tags : List String}
    (h : RegisteredIDs apiServices tags) {k : String} (hk : k ∈ apiServices.keys) :
    k = trimSuffix k "-api" ++ "-api" :=
  (trimSuffix_append_self (h k hk).1).symm

theorem RegisteredIDs.trim_trim {apiServices : GoMap Service} {tags : List String}
    (h : RegisteredIDs apiServices tags) (htags : tags ≠ []) {k : String}
    (hk : k ∈ apiServices.keys) :
    trimSuffix (trimSuffix k "-api") "-api" = trimSuffix k "-api" :=
  trimSuffix_of_not_hasSuffix ((h k hk).2 htags)

theorem RegisteredIDs.trimInjective {apiServices : GoMap Service} {tags : List String}
    (h : RegisteredIDs apiServices tags) : TrimInjective apiServices := by
  intro k hk k' hk' ht
  rw [h.key_eq hk, h.key_eq hk', ht]

/-- Under `RegisteredIDs` the candidates are the instance names of the peers of
maximal affinity, and two such peers give a candidate list of length other than one. -/
theorem candidates_registered (o : Sched) (apiServices : GoMap Service) (tags : List String)
    (hform : RegisteredIDs apiServices tags) (hview : apiServices.len ≠ 0) :
    (∀ n, n ∈ matchingInstances o apiServices tags ↔
      ∃ e ∈ apiServices.entries, MaxAffinity apiServices tags e.2 ∧
        n = trimSuffix e.1 "-api") ∧
    ((∃ e1 ∈ apiServices.entries, ∃ e2 ∈ apiServices.entries, e1 ≠ e2 ∧
        MaxAffinity apiServices tags e1.2 ∧ MaxAffinity apiServices tags e2.2) →
      2 ≤ (matchingInstances o apiServices tags).length) := by
  by_cases htags : tags = []
  · subst htags
    rw [matchingInstances_noTags]
    have hperm := apiServices.range_perm o.svc 5
    constructor
    · intro n
      rw [List.mem_map]
      constructor
      · rintro ⟨e, he, rfl⟩
        exact ⟨e, hperm.mem_iff.1 he, maxAffinity_noTags _ _, rfl⟩
      · rintro ⟨e, he, _, rfl⟩
        exact ⟨e, hperm.mem_iff.2 he, rfl⟩
    · rintro ⟨e1, he1, e2, he2, hne, _, _⟩
      rw [List.length_map, hperm.length_eq]
      exact two_le_length_of_mem_ne he1 he2 hne
  · obtain ⟨F, hnd, hF, hmi⟩ := candidates_tags o apiServices tags htags hview hform.trimInjective
    rw [hmi]
    constructor
    · intro n
      rw [List.mem_map]
      constructor
      · rintro ⟨p, hp, rfl⟩
        obtain ⟨e, he, hm, rfl⟩ := (hF p).1 hp
        exact ⟨e, he, hm, hform.trim_trim htags (apiServices.mem_keys_of_mem he)⟩
      · rintro ⟨e, he, hm, rfl⟩
        exact ⟨_, (hF _).2 ⟨e, he, hm, rfl⟩,
          hform.trim_trim htags (apiServices.mem_keys_of_mem he)⟩
    · rintro ⟨e1, he1, e2, he2, hne, hm1, hm2⟩
      rw [List.length_map]
      refine two_le_length_of_mem_ne ((hF _).2 ⟨e1, he1, hm1, rfl⟩)
        ((hF _).2 ⟨e2, he2, hm2, rfl⟩) ?_
      intro heq
      have hk : trimSuffix e1.1 "-api" = trimSuffix e2.1 "-api" := congrArg Prod.fst heq
      have := hform.trimInjective e1.1 (apiServices.mem_keys_of_mem he1) e2.1
        (apiServices.mem_keys_of_mem he2) hk
      exact hne (apiServices.entry_eq_of_key_eq he2 he1 this)

/-! ## Lemmas: the result of `selectService` -/

theorem not_mem_denied_names {apiServices : GoMap Service} {tags : List String}
    (hform : RegisteredIDs apiServices tags) {denied : List String}
    (hdenied : ∀ d ∈ denied, d ∈ apiServices.keys) {k : String} (hk : k ∈ apiServices.keys)
    (hnot : k ∉ denied) :
    trimSuffix k "-api" ∉ denied.map (fun d => trimSuffix d "-api") := by
  intro hmem
  obtain ⟨d, hd, hdk⟩ := List.mem_map.1 hmem
  have := hform.trimInjective d (hdenied d hd) k hk hdk
  exact hnot (this ▸ hd)

/-- Selection among tied candidates: with registered IDs, a denied list of view
IDs, two peers of maximal affinity and one of them not denied, `selectService`
returns a peer of maximal affinity that is not denied and whose lock count is
least among such peers. -/
theorem selectService_ties (o : Sched) (apiServices : GoMap Service) (locks : GoMap String)
    (tags denied : List String) (hform : RegisteredIDs apiServices tags)
    (hdenied : ∀ d ∈ denied, d ∈ apiServices.keys)
    (htie : ∃ e1 ∈ apiServices.entries, ∃ e2 ∈ apiServices.entries, e1 ≠ e2 ∧
      MaxAffinity apiServices tags e1.2 ∧ MaxAffinity apiServices tags e2.2)
    (hfree : ∃ e ∈ apiServices.entries, MaxAffinity apiServices tags e.2 ∧ e.1 ∉ denied) :
    ∃ e ∈ apiServices.entries,
      selectService o apiServices (.ok locks) tags denied = .ok (some e.2) ∧
      MaxAffinity apiServices tags e.2 ∧ e.1 ∉ denied ∧
      ∀ e' ∈ apiServices.entries, MaxAffinity apiServices tags e'.2 → e'.1 ∉ denied →
        lockCount locks (trimSuffix e.1 "-api") ≤ lockCount locks (trimSuffix e'.1 "-api") := by
  have hlen2 : 2 ≤ apiServices.len := by
    obtain ⟨e1, he1, e2, he2, hne, _, _⟩ := htie
    exact two_le_length_of_mem_ne he1 he2 hne
  obtain ⟨hmem, hlen⟩ := candidates_registered o apiServices tags hform (by omega)
  have hcl := hlen htie
  have hcne : matchingInstances o apiServices tags ≠ [] := by
    intro h
    rw [h] at hcl
    simp at hcl
  rw [selectService_many o apiServices (.ok locks) tags denied hlen2 (by omega)]
  obtain ⟨load, hl, hget⟩ := getInstancesLoad_ok o apiServices locks
    (matchingInstances o apiServices tags) hcne
  have hpos : ∀ n c, load.get n = some c → 0 ≤ c := by
    intro n c hc
    rw [hget] at hc
    by_cases hn : n ∈ matchingInstances o apiServices tags
    · rw [if_pos hn] at hc
      rw [← Option.some.inj hc]
      exact Int.natCast_nonneg _
    · rw [if_neg hn] at hc
      cases hc
  have hex : ∃ n c, load.get n = some c ∧ n ∉ denied.map (fun d => trimSuffix d "-api") := by
    obtain ⟨e, he, hm, hd⟩ := hfree
    refine ⟨trimSuffix e.1 "-api", ((lockCount locks (trimSuffix e.1 "-api") : Nat) : Int),
      ?_, ?_⟩
    · rw [hget, if_pos ((hmem _).2 ⟨e, he, hm, rfl⟩)]
    · exact not_mem_denied_names hform hdenied (apiServices.mem_keys_of_mem he) hd
  have hne : load.len ≠ 0 := by
    intro hz
    obtain ⟨n, c, hc, _⟩ := hex
    rw [(GoMap.len_eq_zero_iff load).1 hz n] at hc
    cases hc
  obtain ⟨ss, low, hsel, hss, hnd, hmin⟩ := selectByLoad_ok o apiServices load denied hpos hex
  have hss2 := hss
  rw [hget] at hss2
  by_cases hin : ss ∈ matchingInstances o apiServices tags
  · rw [if_pos hin] at hss2
    have hlow : low = ((lockCount locks ss : Nat) : Int) := (Option.some.inj hss2).symm
    obtain ⟨e, he, hm, hname⟩ := (hmem ss).1 hin
    have hkey : e.1 = ss ++ "-api" := by
      rw [hname]
      exact hform.key_eq (apiServices.mem_keys_of_mem he)
    refine ⟨e, he, ?_, hm, ?_, ?_⟩
    · unfold loadPath
      rw [hl]
      simp only [hne, if_false]
      rw [hsel, ← hkey, (apiServices.get_eq_some_iff e.1 e.2).2 he]
    · intro hd
      apply hnd
      rw [hname]
      exact List.mem_map.2 ⟨e.1, hd, rfl⟩
    · intro e' he' hm' hd'
      have h1 : load.get (trimSuffix e'.1 "-api")
          = some ((lockCount locks (trimSuffix e'.1 "-api") : Nat) : Int) := by
        rw [hget, if_pos ((hmem _).2 ⟨e', he', hm', rfl⟩)]
      have h2 := hmin _ _ h1
        (not_mem_denied_names hform hdenied (apiServices.mem_keys_of_mem he') hd')
      rw [hlow] at h2
      rw [← hname]
      exact_mod_cast h2
  · rw [if_neg hin] at hss2
    cases hss2

/-- When every candidate is denied the load path ends in `errNoMoreSuitableServices`. -/
theorem loadPath_all_denied (o : Sched) (apiServices : GoMap Service) (locks : GoMap String)
    (denied candidates : List String) (hne : candidates ≠ [])
    (hall : ∀ n ∈ candidates, n ∈ denied.map (fun d => trimSuffix d "-api")) :
    loadPath o apiServices (.ok locks) denied candidates =
      .error Err.noMoreSuitableServices := by
  obtain ⟨load, hl, hget⟩ := getInstancesLoad_ok o apiServices locks candidates hne
  have hlen : load.len ≠ 0 := by
    intro hz
    obtain ⟨n, hn⟩ := List.exists_mem_of_ne_nil _ hne
    have := (GoMap.len_eq_zero_iff load).1 hz n
    rw [hget, if_pos hn] at this
    cases this
  unfold loadPath
  rw [hl]
  simp only [hlen, if_false]
  apply selectByLoad_error
  intro n c hc
  rw [hget] at hc
  by_cases hn : n ∈ candidates
  · exact hall n hn
  · rw [if_neg hn] at hc
    cases hc

/-- A single peer of maximal affinity: `selectService` looks up its twice-trimmed
ID followed by `-api`, whatever the lock listing and the denied list. -/
theorem selectService_winner (o : Sched) (apiServices : GoMap Service)
    (locks : Except String (GoMap String)) (tags denied : List String) (htags : tags ≠ [])
    (hinj : TrimInjective apiServices) (hlen : 2 ≤ apiServices.len)
    (e0 : String × Service) (he0 : e0 ∈ apiServices.entries)
    (hmax : MaxAffinity apiServices tags e0.2)
    (huniq : ∀ e ∈ apiServices.entries, MaxAffinity apiServices tags e.2 → e = e0) :
    selectService o apiServices locks tags denied =
      .ok (apiServices.get (trimSuffix (trimSuffix e0.1 "-api") "-api" ++ "-api")) := by
  obtain ⟨F, hnd, hF, hmi⟩ := candidates_tags o apiServices tags htags (by omega) hinj
  have hFeq : F = [(trimSuffix e0.1 "-api", ((commonPrefixLen tags e0.2.Tags : Nat) : Int))] := by
    apply eq_singleton_of_forall_eq hnd ((hF _).2 ⟨e0, he0, hmax, rfl⟩)
    intro p hp
    obtain ⟨e, he, hm, rfl⟩ := (hF p).1 hp
    rw [huniq e he hm]
  apply selectService_single o apiServices locks tags denied hlen
  rw [hmi, hFeq]
  rfl

/-! ## Lemmas: `updateServices` -/

theorem insertFold_get (id : String) :
    ∀ (srvs : List Service) (m0 : GoMap Service),
      (srvs.foldl (fun m s => m.set s.ID s) m0).get id =
        (srvs.reverse.find? (fun s => decide (s.ID = id))).or (m0.get id) := by
  intro srvs
  induction srvs with
  | nil => intro m0; simp
  | cons x r ih =>
    intro m0
    rw [List.foldl_cons, ih, GoMap.get_set, List.reverse_cons, List.find?_append]
    cases hr : r.reverse.find? (fun s => decide (s.ID = id)) with
    | some s => simp
    | none =>
      by_cases hx : x.ID = id
      · subst hx
        simp
      · have hx2 : ¬ id = x.ID := fun h => hx h.symm
        simp [hx, hx2]

theorem pruneFold_get (newSrvs : GoMap Service) (id : String) :
    ∀ (l : List (String × Service)) (m0 : GoMap Service),
      (l.foldl (fun m e => if (newSrvs.get e.1).isNone then m.del e.1 else m) m0).get id =
        if id ∈ alKeys l ∧ newSrvs.get id = none then none else m0.get id := by
  intro l
  induction l with
  | nil => intro m0; simp [alKeys]
  | cons x r ih =>
    intro m0
    rw [List.foldl_cons, ih, alKeys_cons]
    by_cases hn : (newSrvs.get x.1).isNone
    · have hnone : newSrvs.get x.1 = none := by simpa using hn
      rw [if_pos hn, GoMap.get_del]
      by_cases hx : id = x.1
      · rw [hx]
        simp [hnone]
      · simp [hx]
    · rw [if_neg hn]
      by_cases hx : id = x.1
      · rw [hx]
        have hsome : ¬ newSrvs.get x.1 = none := by
          intro h
          rw [h] at hn
          exact hn rfl
        simp [hsome]
      · simp [hx]

theorem overwriteFold_get (id : String) :
    ∀ (l : List (String × Service)) (m0 : GoMap Service), (alKeys l).Nodup →
      (l.foldl (fun m e => m.set e.1 e.2) m0).get id = (alGet id l).or (m0.get id) := by
  intro l
  induction l with
  | nil => intro m0 _; simp [alGet]
  | cons x r ih =>
    intro m0 hnd
    rw [alKeys_cons, List.nodup_cons] at hnd
    rw [List.foldl_cons, ih _ hnd.2, GoMap.get_set]
    by_cases hx : x.1 = id
    · have hr : alGet x.1 r = none := by
        rw [alGet_eq_none_iff]
        exact hnd.1
      rw [← hx]
      simp [alGet, hr]
    · have hx2 : ¬ id = x.1 := fun h => hx h.symm
      simp [alGet, hx, hx2]

theorem alGet_perm {V : Type} (k : String) {l l' : List (String × V)} (h : l.Perm l')
    (hnd : (alKeys l').Nodup) : alGet k l = alGet k l' := by
  have hnd2 : (alKeys l).Nodup := ((h.map Prod.fst).nodup_iff).2 hnd
  cases hv : alGet k l' with
  | none =>
    rw [alGet_eq_none_iff] at hv ⊢
    intro hk
    exact hv (((h.map Prod.fst).mem_iff).1 hk)
  | some v =>
    rw [alGet_eq_some_iff k v l' hnd] at hv
    rw [alGet_eq_some_iff k v l hnd2]
    exact h.mem_iff.2 hv

/-- The view after `updateServices` maps every ID to the last service of the
snapshot with that ID, and holds nothing else. -/
theorem updateServices_get (o : Sched) (apiServices : GoMap Service) (srvs : List Service)
    (id : String) :
    (updateServices o apiServices srvs).get id =
      srvs.reverse.find? (fun s => decide (s.ID = id)) := by
  unfold updateServices
  simp only []
  by_cases h1 : srvs.length = 0 ∧ apiServices.len = 0
  · rw [if_pos h1]
    have hs : srvs = [] := List.length_eq_zero.1 h1.1
    rw [(GoMap.len_eq_zero_iff _).1 h1.2 id, hs]
    rfl
  · rw [if_neg h1]
    by_cases h2 : srvs.length = 0 ∧ apiServices.len ≠ 0
    · rw [if_pos h2]
      have hs : srvs = [] := List.length_eq_zero.1 h2.1
      rw [hs]
      rfl
    · rw [if_neg h2]
      by_cases h3 : apiServices.len = 0
      · rw [if_pos h3, insertFold_get, (GoMap.len_eq_zero_iff _).1 h3 id]
        simp
      · rw [if_neg h3]
        have hnew : ∀ k, (srvs.foldl (fun m s => m.set s.ID s) (GoMap.empty : GoMap Service)).get k
            = srvs.reverse.find? (fun s => decide (s.ID = k)) := by
          intro k
          rw [insertFold_get, GoMap.get_empty]
          simp
        rw [overwriteFold_get id _ _ (GoMap.nodup_keys_range _ _ _), pruneFold_get]
        have hperm := (srvs.foldl (fun m s => m.set s.ID s)
          (GoMap.empty : GoMap Service)).range_perm o.svc 1
        rw [alGet_perm id hperm (GoMap.nodup _)]
        change (GoMap.get _ id).or _ = _
        rw [hnew]
        cases hf : srvs.reverse.find? (fun s => decide (s.ID = id)) with
        | some s => simp
        | none =>
          have hkeys : id ∈ alKeys (apiServices.range o.svc 0) ↔ id ∈ apiServices.keys :=
            ((apiServices.range_perm o.svc 0).map Prod.fst).mem_iff
          by_cases hk : id ∈ apiServices.keys
          · simp [hkeys.2 hk]
          · have hnone := (apiServices.get_eq_none_iff id).2 hk
            simp [hnone]

/-! ## Lemmas: `errNotFound` -/

theorem selectByLoad_ne_notFound (o : Sched) (apiServices : GoMap Service) (load : GoMap Int)
    (denied : List String) :
    selectByLoad o apiServices load denied ≠ .error Err.notFound := by
  unfold selectByLoad
  simp only []
  split
  · intro h; cases h
  · intro h; cases h

theorem loadPath_ne_notFound (o : Sched) (apiServices : GoMap Service) (lk : GoMap String)
    (denied candidates : List String) :
    loadPath o apiServices (.ok lk) denied candidates ≠ .error Err.notFound := by
  unfold loadPath
  cases hl : getInstancesLoad o apiServices (.ok lk) candidates with
  | error err =>
    unfold getInstancesLoad at hl
    simp only [] at hl
    split at hl <;> cases hl
  | ok load =>
    simp only []
    split
    · cases candidates with
      | nil => exact selectByLoad_ne_notFound o apiServices load denied
      | cons n rest => intro h; cases h
    · exact selectByLoad_ne_notFound o apiServices load denied

theorem selectService_ne_notFound (o : Sched) (apiServices : GoMap Service) (lk : GoMap String)
    (tags denied : List String) (h : apiServices.len ≠ 0) :
    selectService o apiServices (.ok lk) tags denied ≠ .error Err.notFound := by
  by_cases h1 : apiServices.len = 1
  · obtain ⟨e, _, he⟩ := selectService_one o apiServices (.ok lk) tags denied h1
    rw [he]
    intro hc; cases hc
  · have h2 : 2 ≤ apiServices.len := by omega
    by_cases hc : (matchingInstances o apiServices tags).length = 1
    · obtain ⟨n, hn⟩ := List.length_eq_one.1 hc
      rw [selectService_single o apiServices (.ok lk) tags denied h2 n hn]
      intro hc; cases hc
    · rw [selectService_many o apiServices (.ok lk) tags denied h2 hc]
      exact loadPath_ne_notFound o apiServices lk denied _

/-! ## Lemmas: `getHighestTagsMatches` on a map of names -/

/-- On a non-empty map of non-negative counts `getHighestTagsMatches` returns the
trimmed keys of the entries of highest count, in visiting order. -/
theorem getHighestTagsMatches_eq (o : Sched) (tagsCount : GoMap Int)
    (hne : tagsCount.len ≠ 0) (hpos : ∀ e ∈ tagsCount.entries, 0 ≤ e.2) :
    ∃ mx : Int, (∀ e ∈ tagsCount.entries, e.2 ≤ mx) ∧ (∃ e ∈ tagsCount.entries, e.2 = mx) ∧
      getHighestTagsMatches o tagsCount =
        ((tagsCount.range o.cnt 4).filter (fun e => decide (e.2 = mx))).map
          (fun e => trimSuffix e.1 "-api") := by
  have hperm := tagsCount.range_perm o.cnt 4
  have hnonneg : ∀ e ∈ tagsCount.range o.cnt 4, 0 ≤ e.2 :=
    fun e he => hpos e (hperm.mem_iff.1 he)
  obtain ⟨a1, a2, a3, a4⟩ := highestFold _ [] (-1) hnonneg (le_refl _)
  have hl : tagsCount.range o.cnt 4 ≠ [] := by
    intro h
    have := tagsCount.length_range o.cnt 4
    rw [h] at this
    exact hne this.symm
  obtain ⟨x, hx⟩ := List.exists_mem_of_ne_nil _ hl
  have hx0 := hnonneg x hx
  have hxle := a2 x hx
  unfold getHighestTagsMatches
  generalize (tagsCount.range o.cnt 4).foldl highestStep ([], -1) = res at a1 a2 a3 a4 hxle
  have hmx : ¬ res.2 = -1 := by omega
  refine ⟨res.2, fun e he => a2 e (hperm.mem_iff.2 he), ?_, ?_⟩
  · rcases a3 with h | ⟨e, he, h⟩
    · exact absurd h hmx
    · exact ⟨e, hperm.mem_iff.1 he, h⟩
  · rw [a4, if_neg hmx, List.nil_append]

/-! ## Lemmas: `strings.Split` and the owner name -/

theorem splitChars_ne_nil (sep : Char) : ∀ l : List Char, splitChars sep l ≠ []
  | [] => by simp [splitChars]
  | c :: cs => by
    by_cases h : c = sep
    · simp [splitChars, h]
    · have := splitChars_ne_nil sep cs
      cases hs : splitChars sep cs with
      | nil => exact absurd hs this
      | cons a r => simp [splitChars, h, hs]

theorem splitChars_no_sep (sep : Char) : ∀ l : List Char, sep ∉ l → splitChars sep l = [l]
  | [], _ => rfl
  | c :: cs, h => by
    have hc : ¬ c = sep := fun hc => h (hc ▸ List.mem_cons_self _ _)
    have hcs : sep ∉ cs := fun hm => h (List.mem_cons_of_mem _ hm)
    simp [splitChars, hc, splitChars_no_sep sep cs hcs]

theorem splitChars_append_sep (sep : Char) (r : List Char) :
    ∀ p : List Char, sep ∉ p → splitChars sep (p ++ sep :: r) = p :: splitChars sep r
  | [], _ => by simp [splitChars]
  | c :: cs, h => by
    have hc : ¬ c = sep := fun hc => h (hc ▸ List.mem_cons_self _ _)
    have hcs : sep ∉ cs := fun hm => h (List.mem_cons_of_mem _ hm)
    simp [splitChars, hc, splitChars_append_sep sep r cs hcs]

/-- Joining the pieces of a split with the separator gives the string back. -/
theorem splitChars_join (sep : Char) :
    ∀ l : List Char, ∀ a b : List Char, splitChars sep l = [a, b] → l = a ++ sep :: b
  | [], a, b, h => by simp [splitChars] at h
  | c :: cs, a, b, h => by
    by_cases hc : c = sep
    · simp only [splitChars, hc, if_true] at h
      have h1 : a = [] := by
        have := congrArg List.head? h
        simpa using this.symm
      have h2 : splitChars sep cs = [b] := by
        have := congrArg List.tail h
        simpa using this
      have hb : cs = b := by
        -- a split into one piece has no separator in it
        have hno : ∀ l : List Char, ∀ b : List Char, splitChars sep l = [b] → l = b := by
          intro l
          induction l with
          | nil => intro b hb; simp [splitChars] at hb; exact hb.symm
          | cons d ds ih =>
            intro b hb
            by_cases hd : d = sep
            · simp only [splitChars, hd, if_true] at hb
              have := congrArg List.tail hb
              simp at this
              exact absurd this (splitChars_ne_nil sep ds)
            · cases hs : splitChars sep ds with
              | nil => exact absurd hs (splitChars_ne_nil sep ds)
              | cons x xs =>
                simp only [splitChars, hd, if_false, hs] at hb
                have hx : xs = [] := by
                  have := congrArg List.tail hb
                  simpa using this
                subst hx
                have hds := ih x hs
                have := congrArg List.head? hb
                simp at this
                rw [← this, hds]
        exact hno cs b h2
      rw [h1, hc, hb]
      rfl
    · cases hs : splitChars sep cs with
      | nil => exact absurd hs (splitChars_ne_nil sep cs)
      | cons x xs =>
        simp only [splitChars, hc, if_false, hs] at h
        have hx : xs = [b] := by
          have := congrArg List.tail h
          simpa using this
        subst hx
        have ha : a = c :: x := by
          have := congrArg List.head? h
          simpa using this.symm
        have := splitChars_join sep cs x b hs
        rw [ha, this]
        rfl

theorem splitEq_two {u a b : String} (h : splitEq u = [a, b]) : u = a ++ "=" ++ b := by
  unfold splitEq at h
  cases hs : splitChars '=' u.data with
  | nil => exact absurd hs (splitChars_ne_nil _ _)
  | cons x xs =>
    rw [hs] at h
    cases xs with
    | nil => simp at h
    | cons y ys =>
      cases ys with
      | nil =>
        simp only [List.map_cons, List.map_nil, List.cons.injEq, and_true] at h
        have := splitChars_join '=' u.data x y hs
        apply String.ext
        rw [String.data_append, String.data_append, ← h.1, ← h.2, this]
        simp
      | cons z zs => simp at h

theorem splitEq_tag (name value : String) (hname : '=' ∉ name.data) :
    splitEq (name ++ "=" ++ value) = name :: (splitChars '=' value.data).map String.mk := by
  unfold splitEq
  have hd : (name ++ "=" ++ value).data = name.data ++ '=' :: value.data := by
    simp [String.data_append]
  rw [hd, splitChars_append_sep '=' value.data name.data hname]
  rfl

/-- The body of the loop of lines 306-311 on the owner name found so far. -/
theorem instanceNameOf_cons (tag : String) (rest : List String) (acc : String) :
    (tag :: rest).foldl
        (fun instanceName tag =>
          match splitEq tag with
          | [a, b] => if a = "instance-name" then b else instanceName
          | _ => instanceName) acc =
      rest.foldl
        (fun instanceName tag =>
          match splitEq tag with
          | [a, b] => if a = "instance-name" then b else instanceName
          | _ => instanceName)
        (match splitEq tag with
          | [a, b] => if a = "instance-name" then b else acc
          | _ => acc) := rfl

theorem ownerStep_other (name value acc : String) (hname : '=' ∉ name.data)
    (hne : name ≠ "instance-name") :
    (match splitEq (name ++ "=" ++ value) with
      | [a, b] => if a = "instance-name" then b else acc
      | _ => acc) = acc := by
  rw [splitEq_tag name value hname]
  split
  · rename_i a b heq
    have : name = a := by
      have := congrArg List.head? heq
      simpa using this
    rw [if_neg (this ▸ hne)]
  · rfl

theorem ownerStep_instance (value acc : String) (hvalue : '=' ∉ value.data) :
    (match splitEq ("instance-name" ++ "=" ++ value) with
      | [a, b] => if a = "instance-name" then b else acc
      | _ => acc) = value := by
  rw [splitEq_tag "instance-name" value (by decide), splitChars_no_sep '=' value.data hvalue]
  rfl

theorem ownerStep_user (u acc : String) (hu : ∀ x, u ≠ "instance-name=" ++ x) :
    (match splitEq u with
      | [a, b] => if a = "instance-name" then b else acc
      | _ => acc) = acc := by
  split
  · rename_i a b heq
    by_cases ha : a = "instance-name"
    · exfalso
      apply hu b
      rw [splitEq_two heq, ha]
      rfl
    · rw [if_neg ha]
  · rfl

theorem ownerFold_user (acc : String) :
    ∀ U : List String, (∀ u ∈ U, ∀ x, u ≠ "instance-name=" ++ x) →
      U.foldl
        (fun instanceName tag =>
          match splitEq tag with
          | [a, b] => if a = "instance-name" then b else instanceName
          | _ => instanceName) acc = acc
  | [], _ => rfl
  | u :: rest, h => by
    rw [instanceNameOf_cons, ownerStep_user u acc (h u (List.mem_cons_self _ _))]
    exact ownerFold_user acc rest (fun v hv => h v (List.mem_cons_of_mem _ hv))

/-! ## Lemmas: the confirmation attempt -/

/-- At label `WAIT`, `dispatchTarget` runs one confirmation attempt and then
returns nil, or goes on from `SELECTSERVICE` with the denied list it had. -/
theorem dispatchLoop_wait (w : World) (c : ClusteringConfig) (apiServices : GoMap Service)
    (tc : TargetConfig) (service : Service) (instanceName : String) (denied : List String) :
    ∀ (fuel : Nat) (retries : Int) (st : DState),
      dispatchLoop w c apiServices tc fuel (Phase.wait service instanceName retries) denied st =
        match confirmLoop w c apiServices tc service instanceName fuel retries st with
        | (none, _, st1) => (none, st1)
        | (some Confirm.acquired, _, st1) => (some none, st1)
        | (some Confirm.reselect, fuel1, st1) =>
          dispatchLoop w c apiServices tc fuel1 Phase.select denied st1 := by
  intro fuel
  induction fuel with
  | zero => intro retries st; simp [dispatchLoop, confirmLoop]
  | succ fuel ih =>
    intro retries st
    rw [dispatchLoop, confirmLoop]
    cases hl : w.list st.nList with
    | error msg => simp only [ih]
    | ok values =>
      simp only [retryOrReselect]
      by_cases hz : values.len = 0
      · simp only [hz, if_true]
        by_cases hr : retryLimitReached (retries + 1) c = true
        · simp only [hr, if_true]
        · simp only [hr, if_false]
          simp
          exact ih _ _
      · simp only [hz, if_false]
        by_cases hg : values.get (targetKey c tc) = some instanceName
        · simp only [hg, if_true]
        · simp only [hg, if_false]
          by_cases hr : retryLimitReached (retries + 1) c = true
          · simp only [hr, if_true]
          · simp only [hr, if_false]
            simp
            exact ih _ _

theorem sleepCount_append (a b : List Event) :
    sleepCount (a ++ b) = sleepCount a + sleepCount b := by
  unfold sleepCount
  exact List.countP_append _ _ _

theorem sleepCount_unassignLoop (w : World) (name serviceID : String) :
    ∀ (l : List (String × Service)) (st : DState),
      sleepCount (unassignLoop w name serviceID l st).trace = sleepCount st.trace := by
  intro l
  induction l with
  | nil => intro st; rfl
  | cons e rest ih =>
    intro st
    rw [unassignLoop]
    by_cases hid : e.2.ID ≠ serviceID
    · rw [if_pos hid, ih]
    · rw [if_neg hid]
      simp only []
      cases hn : w.newRequest ("http://" ++ e.2.Address ++ "/targets/" ++ name) with
      | some msg => simp only [ih]
      | none =>
        cases hh : w.http st.nHttp with
        | error msg =>
          simp only [ih, sleepCount_append]
          rfl
        | ok code =>
          simp only [sleepCount_append]
          rfl

theorem sleepCount_unassignTarget (o : Sched) (w : World) (apiServices : GoMap Service)
    (name serviceID : String) (st : DState) :
    sleepCount (unassignTarget o w apiServices name serviceID st).trace = sleepCount st.trace :=
  sleepCount_unassignLoop w name serviceID _ st

theorem lockWaitTime_pos : 0 < lockWaitTime := by decide

/-- Without `List` errors, an attempt that starts at retry count `retries` and
makes `n` sleeps has `n = 0` or `(retries + n + 1) * lockWaitTime` below the
timeout. -/
theorem confirmLoop_sleeps (w : World) (c : ClusteringConfig) (apiServices : GoMap Service)
    (tc : TargetConfig) (service : Service) (instanceName : String)
    (hok : ∀ k, ∃ values, w.list k = .ok values) :
    ∀ (fuel : Nat) (retries : Int) (st : DState) (r : Confirm) (fuel1 : Nat) (st1 : DState),
      confirmLoop w c apiServices tc service instanceName fuel retries st = (some r, fuel1, st1) →
      ∃ n : Nat, sleepCount st1.trace = sleepCount st.trace + n ∧
        (n = 0 ∨ (retries + n + 1) * lockWaitTime < c.TargetAssignmentTimeout) := by
  intro fuel
  induction fuel with
  | zero =>
    intro retries st r fuel1 st1 h
    simp [confirmLoop] at h
  | succ fuel ih =>
    intro retries st r fuel1 st1 h
    rw [confirmLoop] at h
    obtain ⟨values, hv⟩ := hok st.nList
    simp only [hv] at h
    have hretry : ∀ (hr : ¬ retryLimitReached (retries + 1) c = true),
        confirmLoop w c apiServices tc service instanceName fuel (retries + 1)
          { nLocked := st.nLocked, nSelect := st.nSelect, nHttp := st.nHttp,
            nList := st.nList + 1,
            trace := st.trace ++ [Event.list (targetKey c tc)] ++
              [Event.sleep lockWaitTime] } = (some r, fuel1, st1) →
        ∃ n : Nat, sleepCount st1.trace = sleepCount st.trace + n ∧
          (n = 0 ∨ (retries + n + 1) * lockWaitTime < c.TargetAssignmentTimeout) := by
      intro hr h2
      obtain ⟨m, hm, hbound⟩ := ih _ _ _ _ _ h2
      have hlim : (retries + 1 + 1) * lockWaitTime < c.TargetAssignmentTimeout := by
        unfold retryLimitReached at hr
        simpa using hr
      refine ⟨m + 1, ?_, Or.inr ?_⟩
      · rw [hm, sleepCount_append, sleepCount_append]
        simp [sleepCount]
        omega
      · rcases hbound with h0 | hb
        · subst h0
          have : retries + ((0 + 1 : Nat) : Int) + 1 = retries + 1 + 1 := by
            push_cast
            ring
          rw [this]
          exact hlim
        · have : retries + ((m + 1 : Nat) : Int) + 1 = retries + 1 + (m : Int) + 1 := by
            push_cast
            ring
          rw [this]
          exact hb
    have hstop : ∀ st2 : DState, sleepCount st2.trace = sleepCount st.trace →
        st2 = st1 →
        ∃ n : Nat, sleepCount st1.trace = sleepCount st.trace + n ∧
          (n = 0 ∨ (retries + n + 1) * lockWaitTime < c.TargetAssignmentTimeout) := by
      intro st2 hs he
      exact ⟨0, by rw [← he, hs]; rfl, Or.inl rfl⟩
    have hlist : sleepCount (st.trace ++ [Event.list (targetKey c tc)]) = sleepCount st.trace := by
      rw [sleepCount_append]
      simp [sleepCount]
    by_cases hz : values.len = 0
    · simp only [hz, if_true] at h
      by_cases hr : retryLimitReached (retries + 1) c = true
      · simp only [hr, if_true, Prod.mk.injEq] at h
        exact hstop _ (by rw [sleepCount_unassignTarget]; exact hlist) h.2.2
      · simp only [hr, if_false] at h
        exact hretry hr h
    · simp only [hz, if_false] at h
      by_cases hg : values.get (targetKey c tc) = some instanceName
      · simp only [hg, if_true, Prod.mk.injEq] at h
        exact hstop _ hlist h.2.2
      · simp only [hg, if_false] at h
        by_cases hr : retryLimitReached (retries + 1) c = true
        · simp only [hr, if_true, Prod.mk.injEq] at h
          exact hstop _ (by rw [sleepCount_unassignTarget]; exact hlist) h.2.2
        · simp only [hr, if_false] at h
          exact hretry hr h

/-- Without `List` errors an attempt ends once the retry limit is in reach of the
fuel. -/
theorem confirmLoop_ends (w : World) (c : ClusteringConfig) (apiServices : GoMap Service)
    (tc : TargetConfig) (service : Service) (instanceName : String)
    (hok : ∀ k, ∃ values, w.list k = .ok values) :
    ∀ (d : Nat) (retries : Int) (st : DState),
      c.TargetAssignmentTimeout ≤ (retries + d + 2) * lockWaitTime →
      ∃ r fuel1 st1,
        confirmLoop w c apiServices tc service instanceName (d + 1) retries st
          = (some r, fuel1, st1) := by
  intro d
  induction d with
  | zero =>
    intro retries st hT
    obtain ⟨values, hv⟩ := hok st.nList
    have hr : retryLimitReached (retries + 1) c = true := by
      unfold retryLimitReached
      have : retries + 1 + 1 = retries + ((0 : Nat) : Int) + 2 := by push_cast; ring
      rw [this]
      simpa using hT
    rw [confirmLoop]
    simp only [hv, hr, if_true]
    by_cases hz : values.len = 0
    · simp only [hz, if_true]
      exact ⟨_, _, _, rfl⟩
    · simp only [hz, if_false]
      by_cases hg : values.get (targetKey c tc) = some instanceName
      · simp only [hg, if_true]
        exact ⟨_, _, _, rfl⟩
      · simp only [hg, if_false]
        exact ⟨_, _, _, rfl⟩
  | succ d ih =>
    intro retries st hT
    obtain ⟨values, hv⟩ := hok st.nList
    have hnext : ∀ st2, ∃ r fuel1 st1,
        confirmLoop w c apiServices tc service instanceName (d + 1) (retries + 1) st2
          = (some r, fuel1, st1) := by
      intro st2
      apply ih
      have : retries + 1 + (d : Int) + 2 = retries + ((d + 1 : Nat) : Int) + 2 := by
        push_cast; ring
      rw [this]
      exact hT
    rw [confirmLoop]
    simp only [hv]
    by_cases hr : retryLimitReached (retries + 1) c = true
    · simp only [hr, if_true]
      by_cases hz : values.len = 0
      · simp only [hz, if_true]
        exact ⟨_, _, _, rfl⟩
      · simp only [hz, if_false]
        by_cases hg : values.get (targetKey c tc) = some instanceName
        · simp only [hg, if_true]
          exact ⟨_, _, _, rfl⟩
        · simp only [hg, if_false]
          exact ⟨_, _, _, rfl⟩
    · simp only [hr, if_false]
      by_cases hz : values.len = 0
      · simp only [hz, if_true]
        exact hnext _
      · simp only [hz, if_false]
        by_cases hg : values.get (targetKey c tc) = some instanceName
        · simp only [hg, if_true]
          exact ⟨_, _, _, rfl⟩
        · simp only [hg, if_false]
          exact hnext _

/-! ## Lemmas: the event-allow processor -/

theorem anyMatch_iff (s : String) :
    ∀ res : List Regexp, anyMatch res s = true ↔ ∃ re ∈ res, re.matchString s = true
  | [] => by simp [anyMatch]
  | re :: rest => by
    by_cases h : re.matchString s = true
    · simp [anyMatch, h]
    · simp [anyMatch, h, anyMatch_iff s rest]

theorem anyMatchValue_iff (v : EventValue) :
    ∀ res : List Regexp, anyMatchValue res v = true ↔
      ∃ re ∈ res, ∃ vs, v = EventValue.str vs ∧ re.matchString vs = true
  | [] => by simp [anyMatchValue]
  | re :: rest => by
    cases v with
    | str vs =>
      by_cases h : re.matchString vs = true
      · simp [anyMatchValue, h]
      · simp [anyMatchValue, h, anyMatchValue_iff (EventValue.str vs) rest]
    | other printed =>
      simp [anyMatchValue, anyMatchValue_iff (EventValue.other printed) rest]

theorem valuesAllow_iff (d : Allow) :
    ∀ l : List (String × EventValue), valuesAllow d l = true ↔
      ∃ kv ∈ l, anyMatch d.valueNames kv.1 = true ∨ anyMatchValue d.values kv.2 = true
  | [] => by simp [valuesAllow]
  | kv :: rest => by
    by_cases h1 : anyMatch d.valueNames kv.1 = true
    · simp [valuesAllow, h1]
    · by_cases h2 : anyMatchValue d.values kv.2 = true
      · simp [valuesAllow, h1, h2]
      · simp [valuesAllow, h1, h2, valuesAllow_iff d rest]

theorem tagsAllow_iff (d : Allow) :
    ∀ l : List (String × String), tagsAllow d l = true ↔
      ∃ kv ∈ l, anyMatch d.tagNames kv.1 = true ∨ anyMatch d.tags kv.2 = true
  | [] => by simp [tagsAllow]
  | kv :: rest => by
    by_cases h1 : anyMatch d.tagNames kv.1 = true
    · simp [tagsAllow, h1]
    · by_cases h2 : anyMatch d.tags kv.2 = true
      · simp [tagsAllow, h1, h2]
      · simp [tagsAllow, h1, h2, tagsAllow_iff d rest]

/-- Without a condition an event is appended exactly when it is matched, whatever
the visiting orders of its maps. -/
theorem allowsEvent_iff (o : EventOrder) (check : EventMsg → Except String Bool) (d : Allow)
    (hcond : d.Condition = "") (e : EventMsg) :
    allowsEvent o check d e = true ↔ Matched d e := by
  have hv : valuesAllow d (e.Values.range o.vals 11) = true ↔
      ((∃ kv ∈ e.Values.entries, ∃ re ∈ d.valueNames, re.matchString kv.1 = true) ∨
        (∃ kv ∈ e.Values.entries, ∃ re ∈ d.values, ∃ vs, kv.2 = EventValue.str vs ∧
          re.matchString vs = true)) := by
    rw [valuesAllow_iff]
    have hperm := e.Values.range_perm o.vals 11
    constructor
    · rintro ⟨kv, hkv, h | h⟩
      · exact Or.inl ⟨kv, hperm.mem_iff.1 hkv, (anyMatch_iff _ _).1 h⟩
      · exact Or.inr ⟨kv, hperm.mem_iff.1 hkv, (anyMatchValue_iff _ _).1 h⟩
    · rintro (⟨kv, hkv, h⟩ | ⟨kv, hkv, h⟩)
      · exact ⟨kv, hperm.mem_iff.2 hkv, Or.inl ((anyMatch_iff _ _).2 h)⟩
      · exact ⟨kv, hperm.mem_iff.2 hkv, Or.inr ((anyMatchValue_iff _ _).2 h)⟩
  have ht : tagsAllow d (e.Tags.range o.tags 12) = true ↔
      ((∃ kv ∈ e.Tags.entries, ∃ re ∈ d.tagNames, re.matchString kv.1 = true) ∨
        (∃ kv ∈ e.Tags.entries, ∃ re ∈ d.tags, re.matchString kv.2 = true)) := by
    rw [tagsAllow_iff]
    have hperm := e.Tags.range_perm o.tags 12
    constructor
    · rintro ⟨kv, hkv, h | h⟩
      · exact Or.inl ⟨kv, hperm.mem_iff.1 hkv, (anyMatch_iff _ _).1 h⟩
      · exact Or.inr ⟨kv, hperm.mem_iff.1 hkv, (anyMatch_iff _ _).1 h⟩
    · rintro (⟨kv, hkv, h⟩ | ⟨kv, hkv, h⟩)
      · exact ⟨kv, hperm.mem_iff.2 hkv, Or.inl ((anyMatch_iff _ _).2 h)⟩
      · exact ⟨kv, hperm.mem_iff.2 hkv, Or.inr ((anyMatch_iff _ _).2 h)⟩
  unfold allowsEvent Matched
  simp only [hcond, ne_eq, not_true_eq_false, if_false]
  by_cases h1 : valuesAllow d (e.Values.range o.vals 11) = true
  · rw [if_pos h1]
    have := hv.1 h1
    constructor
    · intro _
      rcases this with h | h
      · exact Or.inl h
      · exact Or.inr (Or.inl h)
    · intro _; rfl
  · rw [if_neg h1, ht]
    constructor
    · rintro (h | h)
      · exact Or.inr (Or.inr (Or.inl h))
      · exact Or.inr (Or.inr (Or.inr h))
    · rintro (h | h | h | h)
      · exact absurd (hv.2 (Or.inl h)) h1
      · exact absurd (hv.2 (Or.inr h)) h1
      · exact Or.inl h
      · exact Or.inr h

theorem applyFold_eq (keep : EventMsg → Bool) :
    ∀ (es : List (Option EventMsg)) (allowed : List EventMsg),
      es.foldl
        (fun allowed e =>
          match e with
          | none => allowed
          | some e => if keep e then allowed ++ [e] else allowed)
        allowed = allowed ++ (nonNil es).filter keep := by
  intro es
  induction es with
  | nil => intro allowed; simp [nonNil]
  | cons e rest ih =>
    intro allowed
    rw [List.foldl_cons, ih]
    cases e with
    | none => simp [nonNil]
    | some e =>
      by_cases hk : keep e = true
      · simp [nonNil, hk, List.filter_cons]
      · simp [nonNil, hk, List.filter_cons]

/-! ## Lemmas: leadership loss -/

theorem TermOver.step {t : Nat} {st : ClusterState} (o : Sched) (h : TermOver t st)
    (ev : ClusterEvent) : TermOver t (clusterStep o st ev) := by
  obtain ⟨h1, h2⟩ := h
  unfold ClusterState.ctxDone at h2
  cases ev with
  | lockAcquired =>
    simp only [clusterStep]
    split
    · exact ⟨h1, h2⟩
    · exact ⟨Nat.le_succ_of_le h1, h2⟩
  | leaderLost =>
    simp only [clusterStep]
    split
    · refine ⟨h1, ?_⟩
      unfold ClusterState.ctxDone
      simp only [Bool.or_eq_true, decide_eq_true_eq, List.mem_cons] at h2 ⊢
      rcases h2 with h2 | h2
      · exact Or.inl h2
      · exact Or.inr (Or.inr h2)
    · exact ⟨h1, h2⟩
  | snapshot term srvs preferDone =>
    simp only [clusterStep]
    split
    · split
      · exact ⟨h1, h2⟩
      · exact ⟨h1, h2⟩
    · exact ⟨h1, h2⟩
  | consumerPoll term =>
    simp only [clusterStep]
    split
    · exact ⟨h1, h2⟩
    · exact ⟨h1, h2⟩
  | dispatcherPoll term =>
    simp only [clusterStep]
    split
    · exact ⟨h1, h2⟩
    · exact ⟨h1, h2⟩
  | registerPoll registered =>
    simp only [clusterStep]
    split
    · exact ⟨h1, h2⟩
    · exact ⟨h1, h2⟩
  | processCancelled =>
    refine ⟨h1, ?_⟩
    simp [clusterStep, ClusterState.ctxDone]

theorem TermOver.run {t : Nat} (o : Sched) :
    ∀ (events : List ClusterEvent) {st : ClusterState}, TermOver t st →
      TermOver t (clusterRun o st events)
  | [], _, h => h
  | ev :: rest, _, h => TermOver.run o rest (h.step o ev)

/-- A consumer that has returned is not started again: later terms start their own. -/
theorem consumer_gone_step {t : Nat} {st : ClusterState} (o : Sched) (hle : t ≤ st.terms)
    (h : t ∉ st.consumers) (ev : ClusterEvent) :
    t ≤ (clusterStep o st ev).terms ∧ t ∉ (clusterStep o st ev).consumers := by
  cases ev with
  | lockAcquired =>
    simp only [clusterStep]
    split
    · exact ⟨hle, h⟩
    · refine ⟨Nat.le_succ_of_le hle, ?_⟩
      simp only [List.mem_cons, not_or]
      exact ⟨by omega, h⟩
  | leaderLost =>
    simp only [clusterStep]
    split <;> exact ⟨hle, h⟩
  | snapshot term srvs preferDone =>
    simp only [clusterStep]
    split
    · split
      · exact ⟨hle, fun hm => h (List.mem_of_mem_filter hm)⟩
      · exact ⟨hle, h⟩
    · exact ⟨hle, h⟩
  | consumerPoll term =>
    simp only [clusterStep]
    split
    · exact ⟨hle, fun hm => h (List.mem_of_mem_filter hm)⟩
    · exact ⟨hle, h⟩
  | dispatcherPoll term =>
    simp only [clusterStep]
    split <;> exact ⟨hle, h⟩
  | registerPoll registered =>
    simp only [clusterStep]
    split <;> exact ⟨hle, h⟩
  | processCancelled => exact ⟨hle, h⟩

theorem consumer_gone_run {t : Nat} (o : Sched) :
    ∀ (events : List ClusterEvent) {st : ClusterState}, t ≤ st.terms → t ∉ st.consumers →
      t ∉ (clusterRun o st events).consumers
  | [], _, _, h => h
  | ev :: rest, _, hle, h =>
    consumer_gone_run o rest (consumer_gone_step o hle h ev).1 (consumer_gone_step o hle h ev).2

theorem dispatcher_gone_step {t : Nat} {st : ClusterState} (o : Sched) (hle : t ≤ st.terms)
    (h : t ∉ st.dispatchers) (ev : ClusterEvent) :
    t ≤ (clusterStep o st ev).terms ∧ t ∉ (clusterStep o st ev).dispatchers := by
  cases ev with
  | lockAcquired =>
    simp only [clusterStep]
    split
    · exact ⟨hle, h⟩
    · refine ⟨Nat.le_succ_of_le hle, ?_⟩
      simp only [List.mem_cons, not_or]
      exact ⟨by omega, h⟩
  | leaderLost =>
    simp only [clusterStep]
    split <;> exact ⟨hle, h⟩
  | snapshot term srvs preferDone =>
    simp only [clusterStep]
    split
    · split <;> exact ⟨hle, h⟩
    · exact ⟨hle, h⟩
  | consumerPoll term =>
    simp only [clusterStep]
    split <;> exact ⟨hle, h⟩
  | dispatcherPoll term =>
    simp only [clusterStep]
    split
    · exact ⟨hle, fun hm => h (List.mem_of_mem_filter hm)⟩
    · exact ⟨hle, h⟩
  | registerPoll registered =>
    simp only [clusterStep]
    split <;> exact ⟨hle, h⟩
  | processCancelled => exact ⟨hle, h⟩

theorem dispatcher_gone_run {t : Nat} (o : Sched) :
    ∀ (events : List ClusterEvent) {st : ClusterState}, t ≤ st.terms → t ∉ st.dispatchers →
      t ∉ (clusterRun o st events).dispatchers
  | [], _, _, h => h
  | ev :: rest, _, hle, h =>
    dispatcher_gone_run o rest (dispatcher_gone_step o hle h ev).1
      (dispatcher_gone_step o hle h ev).2

theorem clusterRun_append (o : Sched) (st : ClusterState) (a b : List ClusterEvent) :
    clusterRun o st (a ++ b) = clusterRun o (clusterRun o st a) b :=
  List.foldl_append _ _ _ _

theorem consumerPoll_gone (o : Sched) (s : ClusterState) (t : Nat) (h : s.ctxDone t = true) :
    t ∉ (clusterStep o s (ClusterEvent.consumerPoll t)).consumers := by
  simp only [clusterStep, h, if_true]
  intro hm
  have := (List.mem_filter.1 hm).2
  simp at this

theorem dispatcherPoll_gone (o : Sched) (s : ClusterState) (t : Nat) (h : s.ctxDone t = true) :
    t ∉ (clusterStep o s (ClusterEvent.dispatcherPoll t)).dispatchers := by
  simp only [clusterStep, h, if_true]
  intro hm
  have := (List.mem_filter.1 hm).2
  simp at this

theorem snapshot_without_consumer (o : Sched) (s : ClusterState) (t : Nat)
    (srvs : List Service) (preferDone : Bool) (h : t ∉ s.consumers) :
    clusterStep o s (ClusterEvent.snapshot t srvs preferDone) = s := by
  simp only [clusterStep, h, if_false]


theorem snapshotDone_gone (o : Sched) (s : ClusterState) (t : Nat) (srvs : List Service)
    (h : s.ctxDone t = true) :
    t ∉ (clusterStep o s (ClusterEvent.snapshot t srvs true)).consumers := by
  by_cases hm : t ∈ s.consumers
  · simp only [clusterStep, hm, h, if_true, Bool.and_self]
    intro hm2
    have := (List.mem_filter.1 hm2).2
    simp at this
  · rw [snapshot_without_consumer o s t srvs true hm]
    exact hm

/-- A consumer that has not returned applies the snapshot its `select` receives. -/
theorem snapshot_applied (o : Sched) (s : ClusterState) (t : Nat) (srvs : List Service)
    (hm : t ∈ s.consumers) :
    clusterStep o s (ClusterEvent.snapshot t srvs false) =
      { s with apiServices := updateServices o s.apiServices srvs } := by
  simp [clusterStep, hm]

/-- A consumer whose context is not done applies every snapshot offered to it. -/
theorem snapshot_applied_live (o : Sched) (s : ClusterState) (t : Nat) (srvs : List Service)
    (preferDone : Bool) (hm : t ∈ s.consumers) (hctx : s.ctxDone t = false) :
    clusterStep o s (ClusterEvent.snapshot t srvs preferDone) =
      { s with apiServices := updateServices o s.apiServices srvs } := by
  simp [clusterStep, hm, hctx]

/-- Only an election adds a snapshot consumer, and it adds the one of the new term. -/
theorem consumer_started_by_election (o : Sched) (s : ClusterState) (ev : ClusterEvent)
    (t : Nat) (h : t ∈ (clusterStep o s ev).consumers) :
    t ∈ s.consumers ∨
      (ev = ClusterEvent.lockAcquired ∧ s.isLeader = false ∧ s.processDone = false ∧
        t = s.terms + 1) := by
  cases ev with
  | lockAcquired =>
    simp only [clusterStep] at h
    split at h
    · exact Or.inl h
    · rename_i hc
      simp only [Bool.or_eq_true, not_or, Bool.not_eq_true] at hc
      rcases List.mem_cons.1 h with h | h
      · exact Or.inr ⟨rfl, hc.1, hc.2, h⟩
      · exact Or.inl h
  | leaderLost =>
    simp only [clusterStep] at h
    split at h <;> exact Or.inl h
  | snapshot term srvs preferDone =>
    simp only [clusterStep] at h
    split at h
    · split at h
      · exact Or.inl (List.mem_of_mem_filter h)
      · exact Or.inl h
    · exact Or.inl h
  | consumerPoll term =>
    simp only [clusterStep] at h
    split at h
    · exact Or.inl (List.mem_of_mem_filter h)
    · exact Or.inl h
  | dispatcherPoll term =>
    simp only [clusterStep] at h
    split at h <;> exact Or.inl h
  | registerPoll registered =>
    simp only [clusterStep] at h
    split at h <;> exact Or.inl h
  | processCancelled => exact Or.inl h

theorem cancelledBegun_step {s : ClusterState} (o : Sched) (h : CancelledBegun s)
    (ev : ClusterEvent) : CancelledBegun (clusterStep o s ev) := by
  cases ev with
  | lockAcquired =>
    simp only [clusterStep]
    split
    · exact h
    · intro t ht
      exact Nat.le_succ_of_le (h t ht)
  | leaderLost =>
    simp only [clusterStep]
    split
    · intro t ht
      rcases List.mem_cons.1 ht with ht | ht
      · subst ht
        exact le_refl _
      · exact h t ht
    · exact h
  | snapshot term srvs preferDone =>
    simp only [clusterStep]
    split
    · split <;> exact h
    · exact h
  | consumerPoll term =>
    simp only [clusterStep]
    split <;> exact h
  | dispatcherPoll term =>
    simp only [clusterStep]
    split <;> exact h
  | registerPoll registered =>
    simp only [clusterStep]
    split <;> exact h
  | processCancelled => exact h

theorem cancelledBegun_run (o : Sched) :
    ∀ (events : List ClusterEvent) {s : ClusterState}, CancelledBegun s →
      CancelledBegun (clusterRun o s events)
  | [], _, h => h
  | ev :: rest, _, h => cancelledBegun_run o rest (cancelledBegun_step o h ev)

/-- An election of an instance that is not the leader begins a term whose context is
not done and starts the snapshot consumer and the dispatcher of that term. -/
theorem lockAcquired_starts (o : Sched) (s : ClusterState) (hl : s.isLeader = false)
    (hp : s.processDone = false) (hc : CancelledBegun s) :
    (clusterStep o s ClusterEvent.lockAcquired).terms = s.terms + 1 ∧
    s.terms + 1 ∈ (clusterStep o s ClusterEvent.lockAcquired).consumers ∧
    s.terms + 1 ∈ (clusterStep o s ClusterEvent.lockAcquired).dispatchers ∧
    (clusterStep o s ClusterEvent.lockAcquired).ctxDone (s.terms + 1) = false := by
  have hstep : clusterStep o s ClusterEvent.lockAcquired =
      { s with isLeader := true, terms := s.terms + 1,
               consumers := (s.terms + 1) :: s.consumers,
               dispatchers := (s.terms + 1) :: s.dispatchers } := by
    simp [clusterStep, hl, hp]
  rw [hstep]
  refine ⟨rfl, List.mem_cons_self _ _, List.mem_cons_self _ _, ?_⟩
  simp only [ClusterState.ctxDone, hp, Bool.false_or, decide_eq_false_iff_not]
  intro hm
  have := hc _ hm
  omega

/-! ## Lemmas: the denied list on the load path -/

/-- In a view keyed by service ID with at least two services, when the tag-affinity
step leaves a number of candidates other than one, so that selection goes by load
(lines 378-402), a service returned without error has an ID that is not in the
denied list. -/
theorem selectService_by_load_not_denied (o : Sched) (apiServices : GoMap Service)
    (locks : Except String (GoMap String)) (tags denied : List String) (s : Service)
    (hkeyed : KeyedByID apiServices) (hlen : 2 ≤ apiServices.len)
    (hcands : (matchingInstances o apiServices tags).length ≠ 1)
    (hsel : selectService o apiServices locks tags denied = .ok (some s)) :
    s.ID ∉ denied := by
  rw [selectService_many o apiServices locks tags denied hlen hcands] at hsel
  obtain ⟨ss, hget, hnd⟩ := loadPath_some o apiServices locks denied _ _ hsel
  have hmem := (apiServices.get_eq_some_iff (ss ++ "-api") s).1 hget.symm
  have hid : s.ID = ss ++ "-api" := hkeyed _ hmem
  intro hd
  apply hnd
  refine List.mem_map.2 ⟨s.ID, hd, ?_⟩
  rw [hid, trimSuffix_append]

/-- Selection among tied candidates when all of them are denied: with registered
IDs, two peers of maximal affinity and every peer of maximal affinity in the
denied list, `selectService` returns `errNoMoreSuitableServices`. -/
theorem selectService_ties_all_denied (o : Sched) (apiServices : GoMap Service)
    (locks : GoMap String) (tags denied : List String)
    (hform : RegisteredIDs apiServices tags)
    (htie : ∃ e1 ∈ apiServices.entries, ∃ e2 ∈ apiServices.entries, e1 ≠ e2 ∧
      MaxAffinity apiServices tags e1.2 ∧ MaxAffinity apiServices tags e2.2)
    (hall : ∀ e ∈ apiServices.entries, MaxAffinity apiServices tags e.2 → e.1 ∈ denied) :
    selectService o apiServices (.ok locks) tags denied
      = .error Err.noMoreSuitableServices := by
  have hlen2 : 2 ≤ apiServices.len := by
    obtain ⟨e1, he1, e2, he2, hne, _, _⟩ := htie
    exact two_le_length_of_mem_ne he1 he2 hne
  obtain ⟨hmem, hlen⟩ := candidates_registered o apiServices tags hform (by omega)
  have hcl := hlen htie
  have hcne : matchingInstances o apiServices tags ≠ [] := by
    intro h
    rw [h] at hcl
    simp at hcl
  rw [selectService_many o apiServices (.ok locks) tags denied hlen2 (by omega)]
  apply loadPath_all_denied o apiServices locks denied _ hcne
  intro n hn
  obtain ⟨e, he, hm, rfl⟩ := (hmem n).1 hn
  exact List.mem_map.2 ⟨e.1, hall e he hm, rfl⟩

/-! ## Claims -/

/-- C1, the code at the failing input: a cluster of the one instance `i1`, which
answers every assign request with status 500. For every visiting order, lock
listing, tag list and denied list `selectService` returns the service of `i1`
(lines 359-362 do not look at the denied list); likewise a single peer of highest
affinity is returned whatever the denied list holds (lines 375-377). So
`dispatchTarget` selects `i1` with an empty denied list, is refused, selects it
again with `i1-api` denied, is refused, and so on. -/
theorem selectService_ignores_denied :
    (∀ (o : Sched) (locks : Except String (GoMap String)) (tags denied : List String),
      selectService o singleView locks tags denied = .ok (some plainPeer1)) ∧
    (∀ (o : Sched) (locks : Except String (GoMap String)) (denied : List String),
      selectService o orderView locks ["a", "b", "c"] denied
        = .ok (some ⟨"i1-api", "h1:7890", ["a", "b", "x"]⟩)) ∧
    (dispatchTarget refusingWorld shortTimeoutConfig singleView 3 ⟨"t", []⟩ DState.init).2.trace =
      [Event.isLocked "gnmic/c/targets/t",
        Event.select [],
        Event.post "http://h1:7890/config/targets",
        Event.select ["i1-api"],
        Event.post "http://h1:7890/config/targets",
        Event.select ["i1-api", "i1-api"],
        Event.post "http://h1:7890/config/targets"] := by
  refine ⟨?_, ?_, by decide⟩
  · intro o locks tags denied
    obtain ⟨e, he, hsel⟩ := selectService_one o singleView locks tags denied (by decide)
    have hcase : e = (plainPeer1.ID, plainPeer1) := by
      simpa [singleView, viewOf] using he
    rw [hsel, hcase]
  · intro o locks denied
    have h := selectService_winner o orderView locks ["a", "b", "c"] denied (by decide)
      (by decide) (by decide) ("i1-api", ⟨"i1-api", "h1:7890", ["a", "b", "x"]⟩) (by decide)
      (by decide) (by decide)
    rw [h]
    decide

/-- C3: after `updateServices` the view maps every ID occurring in the snapshot to
the snapshot's last service with that ID and holds no other ID, whatever the view
was before and whatever the visiting orders of the map loops; so a peer absent from
the snapshot is absent from the view. -/
theorem updateServices_reflects_snapshot (o : Sched) (apiServices : GoMap Service)
    (srvs : List Service) :
    (∀ id, (updateServices o apiServices srvs).get id =
        srvs.reverse.find? (fun s => decide (s.ID = id))) ∧
      (∀ id, id ∈ (updateServices o apiServices srvs).keys ↔ id ∈ srvs.map (fun s => s.ID)) ∧
      (∀ id, id ∉ srvs.map (fun s => s.ID) → (updateServices o apiServices srvs).get id = none) := by
  have hget := updateServices_get o apiServices srvs
  have hkeys : ∀ id, id ∈ (updateServices o apiServices srvs).keys ↔
      id ∈ srvs.map (fun s => s.ID) := by
    intro id
    rw [GoMap.mem_keys_iff]
    constructor
    · rintro ⟨v, hv⟩
      rw [hget] at hv
      have h1 := List.mem_of_find?_eq_some hv
      have h2 := List.find?_some hv
      exact List.mem_map.2 ⟨v, List.mem_reverse.1 h1, of_decide_eq_true h2⟩
    · intro hid
      obtain ⟨s, hs, hsid⟩ := List.mem_map.1 hid
      cases hf : srvs.reverse.find? (fun s => decide (s.ID = id)) with
      | some v => exact ⟨v, by rw [hget, hf]⟩
      | none =>
        have := List.find?_eq_none.1 hf s (List.mem_reverse.2 hs)
        simp [hsid] at this
  refine ⟨hget, hkeys, ?_⟩
  intro id hid
  rw [GoMap.get_eq_none_iff, hkeys]
  exact hid

/-- C4: for every non-empty target tag list `tags`, every view whose service IDs
end in `-api` and every peer of the view, `getInstancesTagsMatches` stores under
the peer's service ID with the `-api` suffix removed the length `k` of the longest
common prefix of `tags` and the peer's tags: `k` is at most both lengths, the lists
agree at every index below `k`, and no larger number has these properties. -/
theorem getInstancesTagsMatches_prefix_length (o : Sched) (apiServices : GoMap Service)
    (tags : List String) (e : String × Service) (htags : tags ≠ [])
    (hids : ∀ k ∈ apiServices.keys, hasSuffix k "-api" = true)
    (he : e ∈ apiServices.entries) :
    ∃ k : Nat,
      (getInstancesTagsMatches o apiServices tags).get (trimSuffix e.1 "-api")
        = some (k : Int) ∧
      k = commonPrefixLen tags e.2.Tags ∧
      k ≤ tags.length ∧ k ≤ e.2.Tags.length ∧
      (∀ i, i < k → tags[i]? = e.2.Tags[i]?) ∧
      (∀ j, j ≤ tags.length → j ≤ e.2.Tags.length →
        (∀ i, i < j → tags[i]? = e.2.Tags[i]?) → j ≤ k) := by
  have huniq : ∀ k ∈ apiServices.keys,
      trimSuffix k "-api" = trimSuffix e.1 "-api" → k = e.1 := by
    intro k hk ht
    rw [← trimSuffix_append_self (hids k hk),
      ← trimSuffix_append_self (hids e.1 (apiServices.mem_keys_of_mem he)), ht]
  exact ⟨commonPrefixLen tags e.2.Tags,
    tagCount_get_of_mem o apiServices tags htags e he huniq, rfl,
    commonPrefixLen_le_left _ _, commonPrefixLen_le_right _ _,
    commonPrefixLen_agree _ _, commonPrefixLen_maximal _ _⟩

/-- C4, witness: target tags `a, b, c`; the peer tagged `a, b, x` gets 2 and the
peer tagged `x, a, b` gets 0, though it has two of the target tags. -/
theorem getInstancesTagsMatches_prefix_length_witness :
    (∃ k : Nat,
      (getInstancesTagsMatches Sched.inOrder orderView ["a", "b", "c"]).get
          (trimSuffix "i1-api" "-api") = some (k : Int) ∧
      k = commonPrefixLen ["a", "b", "c"] ["a", "b", "x"] ∧
      k ≤ 3 ∧ k ≤ 3 ∧
      (∀ i, i < k → ["a", "b", "c"][i]? = ["a", "b", "x"][i]?) ∧
      (∀ j, j ≤ 3 → j ≤ 3 →
        (∀ i, i < j → ["a", "b", "c"][i]? = ["a", "b", "x"][i]?) → j ≤ k)) ∧
    (getInstancesTagsMatches Sched.inOrder orderView ["a", "b", "c"]).get "i1" = some 2 ∧
    (getInstancesTagsMatches Sched.inOrder orderView ["a", "b", "c"]).get "i2" = some 0 :=
  ⟨getInstancesTagsMatches_prefix_length Sched.inOrder orderView ["a", "b", "c"]
      ("i1-api", ⟨"i1-api", "h1:7890", ["a", "b", "x"]⟩) (by decide) (by decide) (by decide),
    by decide, by decide⟩

/-- C5, the code at the failing input: instances `i1` (tag `region=eu`) and `i2`
(tag `region=us`) of cluster `c`, one target lock held by `i1`, target tags
`region=eu`. Both peers get affinity 0, because their tag lists start with
`cluster-name=c`, and for every visiting order `selectService` returns the service
of `i2`, the less loaded peer. -/
theorem selectService_region_goes_by_load (o : Sched) :
    (getInstancesTagsMatches o regionView ["region=eu"]).get "i1" = some 0 ∧
    (getInstancesTagsMatches o regionView ["region=eu"]).get "i2" = some 0 ∧
    selectService o regionView (.ok regionLocks) ["region=eu"] [] = .ok (some usPeer) := by
  have hform : RegisteredIDs regionView ["region=eu"] := by decide
  refine ⟨?_, ?_, ?_⟩
  · exact tagCount_get_of_mem o regionView ["region=eu"] (by decide) (euPeer.ID, euPeer)
      (by decide) (fun k hk ht => hform.trimInjective k hk euPeer.ID (by decide) ht)
  · exact tagCount_get_of_mem o regionView ["region=eu"] (by decide) (usPeer.ID, usPeer)
      (by decide) (fun k hk ht => hform.trimInjective k hk usPeer.ID (by decide) ht)
  · obtain ⟨e, he, hsel, _, _, hmin⟩ := selectService_ties o regionView regionLocks
      ["region=eu"] [] hform (fun d hd => absurd hd (List.not_mem_nil d))
      ⟨(euPeer.ID, euPeer), by decide, (usPeer.ID, usPeer), by decide, by decide,
        by decide, by decide⟩
      ⟨(euPeer.ID, euPeer), by decide, by decide, by decide⟩
    have hcases : e = (euPeer.ID, euPeer) ∨ e = (usPeer.ID, usPeer) := by
      simpa [regionView, viewOf] using he
    rcases hcases with h | h
    · subst h
      have := hmin (usPeer.ID, usPeer) (by decide) (by decide) (by decide)
      exact absurd this (by decide)
    · subst h
      exact hsel

/-- C6, counterexample: two untagged peers `i1`, `i2` both in the denied list, the
lock listing readable: whatever the visiting order, `selectService` returns no
candidate; with the in-order visit it returns `errNoMoreSuitableServices`. -/
theorem selectService_all_denied :
    (¬ ∃ (o : Sched) (s : Service),
      selectService o plainView (.ok plainLocks) [] ["i1-api", "i2-api"] = .ok (some s)) ∧
    selectService Sched.inOrder plainView (.ok plainLocks) [] ["i1-api", "i2-api"]
      = .error Err.noMoreSuitableServices := by
  refine ⟨?_, by decide⟩
  rintro ⟨o, s, hs⟩
  have hform : RegisteredIDs plainView [] := by decide
  obtain ⟨hmem, hlen⟩ := candidates_registered o plainView [] hform (by decide)
  have h2 := hlen ⟨(plainPeer1.ID, plainPeer1), by decide, (plainPeer2.ID, plainPeer2),
    by decide, by decide, by decide, by decide⟩
  rw [selectService_many o plainView _ [] _ (by decide) (by omega),
    loadPath_all_denied o plainView plainLocks _ _ (by intro h; rw [h] at h2; simp at h2)] at hs
  · cases hs
  · intro n hn
    obtain ⟨e, he, _, rfl⟩ := (hmem n).1 hn
    have hcases : e = (plainPeer1.ID, plainPeer1) ∨ e = (plainPeer2.ID, plainPeer2) := by
      simpa [plainView, viewOf] using he
    rcases hcases with h | h <;> subst h <;> decide

/-- C6, amended: for every view whose service IDs end in `-api` (with instance names
not ending in `-api` when the target has tags) in which at least two peers have
maximal affinity, and every readable lock listing: if the denied list holds service
IDs of the view and at least one peer of maximal affinity is not denied,
`selectService` returns a peer of maximal affinity that is not denied and whose
load (the number of locks whose value is its instance name) is at most the load of
every peer of maximal affinity that is not denied; if every peer of maximal
affinity is denied it returns `errNoMoreSuitableServices`. With the untagged peers
`i1`, `i2` and the locks `t1 = i1`, `t2 = i1` it returns `i2`, for every visiting
order. -/
theorem selectService_least_loaded :
    (∀ (o : Sched) (apiServices : GoMap Service) (locks : GoMap String)
        (tags denied : List String),
      RegisteredIDs apiServices tags →
      (∀ d ∈ denied, d ∈ apiServices.keys) →
      (∃ e1 ∈ apiServices.entries, ∃ e2 ∈ apiServices.entries, e1 ≠ e2 ∧
        MaxAffinity apiServices tags e1.2 ∧ MaxAffinity apiServices tags e2.2) →
      (∃ e ∈ apiServices.entries, MaxAffinity apiServices tags e.2 ∧ e.1 ∉ denied) →
      ∃ e ∈ apiServices.entries,
        selectService o apiServices (.ok locks) tags denied = .ok (some e.2) ∧
        MaxAffinity apiServices tags e.2 ∧ e.1 ∉ denied ∧
        ∀ e' ∈ apiServices.entries, MaxAffinity apiServices tags e'.2 → e'.1 ∉ denied →
          lockCount locks (trimSuffix e.1 "-api")
            ≤ lockCount locks (trimSuffix e'.1 "-api")) ∧
    (∀ o : Sched, selectService o plainView (.ok plainLocks) [] [] = .ok (some plainPeer2)) ∧
    (∀ (o : Sched) (apiServices : GoMap Service) (locks : GoMap String)
        (tags denied : List String),
      RegisteredIDs apiServices tags →
      (∃ e1 ∈ apiServices.entries, ∃ e2 ∈ apiServices.entries, e1 ≠ e2 ∧
        MaxAffinity apiServices tags e1.2 ∧ MaxAffinity apiServices tags e2.2) →
      (∀ e ∈ apiServices.entries, MaxAffinity apiServices tags e.2 → e.1 ∈ denied) →
      selectService o apiServices (.ok locks) tags denied
        = .error Err.noMoreSuitableServices) := by
  refine ⟨fun o apiServices locks tags denied hform hdenied htie hfree =>
    selectService_ties o apiServices locks tags denied hform hdenied htie hfree, ?_,
    fun o apiServices locks tags denied hform htie hall =>
      selectService_ties_all_denied o apiServices locks tags denied hform htie hall⟩
  intro o
  obtain ⟨e, he, hsel, _, _, hmin⟩ := selectService_ties o plainView plainLocks [] []
    (by decide) (fun d hd => absurd hd (List.not_mem_nil d))
    ⟨(plainPeer1.ID, plainPeer1), by decide, (plainPeer2.ID, plainPeer2), by decide,
      by decide, by decide, by decide⟩
    ⟨(plainPeer1.ID, plainPeer1), by decide, by decide, by decide⟩
  have hcases : e = (plainPeer1.ID, plainPeer1) ∨ e = (plainPeer2.ID, plainPeer2) := by
    simpa [plainView, viewOf] using he
  rcases hcases with h | h
  · subst h
    have := hmin (plainPeer2.ID, plainPeer2) (by decide) (by decide) (by decide)
    exact absurd this (by decide)
  · subst h
    exact hsel

/-- C6, witness: the peers `i1` (tag `region=eu`) and `i2` (tag `region=us`), one
lock held by `i1`, target tags `region=eu`, nobody denied: both peers have maximal
affinity, and a peer of least load is returned. -/
theorem selectService_least_loaded_witness :
    ∃ e ∈ regionView.entries,
      selectService Sched.reversed regionView (.ok regionLocks) ["region=eu"] []
        = .ok (some e.2) ∧
      MaxAffinity regionView ["region=eu"] e.2 ∧ e.1 ∉ ([] : List String) ∧
      ∀ e' ∈ regionView.entries, MaxAffinity regionView ["region=eu"] e'.2 →
        e'.1 ∉ ([] : List String) →
        lockCount regionLocks (trimSuffix e.1 "-api")
          ≤ lockCount regionLocks (trimSuffix e'.1 "-api") :=
  selectService_least_loaded.1 Sched.reversed regionView regionLocks ["region=eu"] []
    (by decide) (fun d hd => absurd hd (List.not_mem_nil d))
    ⟨(euPeer.ID, euPeer), by decide, (usPeer.ID, usPeer), by decide, by decide,
      by decide, by decide⟩
    ⟨(euPeer.ID, euPeer), by decide, by decide, by decide⟩

/-- C7, the code at the failing input: instances `x-api` and `y` of cluster `c` and
the target tags `cluster-name=c`, `instance-name=x-api`. The peer `x-api` alone has
maximal affinity, and for every visiting order, lock listing and denied list
`selectService` returns a nil service with a nil error: it looks up `x-api`, the
winner's name trimmed twice and followed by `-api`, and the winner's ID is
`x-api-api`. -/
theorem selectService_api_named_winner (o : Sched) (locks : Except String (GoMap String))
    (denied : List String) :
    apiNamedPeer.ID = "x-api-api" ∧
    MaxAffinity apiNamedView ["cluster-name=c", "instance-name=x-api"] apiNamedPeer ∧
    ¬ MaxAffinity apiNamedView ["cluster-name=c", "instance-name=x-api"] otherPeer ∧
    selectService o apiNamedView locks ["cluster-name=c", "instance-name=x-api"] denied
      = .ok none := by
  refine ⟨by decide, by decide, by decide, ?_⟩
  exact selectService_winner o apiNamedView locks ["cluster-name=c", "instance-name=x-api"]
    denied (by decide) (by decide) (by decide) (apiNamedPeer.ID, apiNamedPeer) (by decide)
    (by decide) (by decide)

/-- C8: with a readable lock listing, `selectService` returns `errNotFound` exactly
when the view is empty, for every tag list, denied list and visiting order; and a
view with exactly one peer yields that peer. -/
theorem selectService_notFound_iff_empty (o : Sched) (apiServices : GoMap Service)
    (locks : GoMap String) (tags denied : List String) :
    (selectService o apiServices (.ok locks) tags denied = .error Err.notFound ↔
      apiServices.len = 0) ∧
    (∀ e, apiServices.entries = [e] →
      selectService o apiServices (.ok locks) tags denied = .ok (some e.2)) := by
  constructor
  · constructor
    · intro h
      by_contra hne
      exact selectService_ne_notFound o apiServices locks tags denied hne h
    · exact selectService_empty o apiServices (.ok locks) tags denied
  · intro e he
    have hlen : apiServices.len = 1 := by
      unfold GoMap.len
      rw [he]
      rfl
    obtain ⟨e', he', hsel⟩ := selectService_one o apiServices (.ok locks) tags denied hlen
    rw [he, List.mem_singleton] at he'
    rw [hsel, he']

/-- C2, the code at the failing input: two untagged peers `i1`, `i2`, a timeout of
200ms, peers that accept every request and never take the lock. In general, a poll
that finds no lock at the retry limit calls `unassignTarget` and goes back to
`SELECTSERVICE` with the denied list it had; here the trace of `dispatchTarget` is:
`i1` selected with an empty denied list and assigned, one empty poll, the DELETE of
`unassignTarget` on `i1`, then `selectService` called again with an empty denied
list and `i1` assigned again. -/
theorem dispatchTarget_timeout_keeps_denied :
    (∀ (w : World) (c : ClusteringConfig) (apiServices : GoMap Service) (tc : TargetConfig)
        (fuel : Nat) (service : Service) (instanceName : String) (retries : Int)
        (denied : List String) (st : DState) (values : GoMap String),
      w.list st.nList = .ok values → values.len = 0 →
      retryLimitReached (retries + 1) c = true →
      dispatchLoop w c apiServices tc (fuel + 1) (Phase.wait service instanceName retries)
          denied st =
        dispatchLoop w c apiServices tc fuel Phase.select denied
          (unassignTarget (w.sched st.nSelect) w apiServices tc.Name service.ID
            { st with nList := st.nList + 1
                      trace := st.trace ++ [Event.list (targetKey c tc)] })) ∧
    (dispatchTarget silentWorld shortTimeoutConfig plainView 3 ⟨"t", []⟩ DState.init).2.trace =
      [Event.isLocked "gnmic/c/targets/t",
        Event.select [],
        Event.listTargets "gnmic/c/targets",
        Event.post "http://h1:7890/config/targets",
        Event.post "http://h1:7890/targets/t",
        Event.list "gnmic/c/targets/t",
        Event.delete "http://h1:7890/targets/t",
        Event.select [],
        Event.listTargets "gnmic/c/targets",
        Event.post "http://h1:7890/config/targets",
        Event.post "http://h1:7890/targets/t"] := by
  refine ⟨?_, by decide⟩
  intro w c apiServices tc fuel service instanceName retries denied st values hlist hlen hlimit
  rw [dispatchLoop]
  simp only [hlist, hlen, if_true, retryOrReselect, hlimit]

/-- C9: when `IsLocked` answers `(true, nil)` for the lock key of every target of
a list, `dispatchTarget` on any of them returns nil after that one `IsLocked` call
and nothing else, with any fuel, and a dispatcher pass over the list comes to its
end having made one `IsLocked` call per target, in order, and nothing else: no
peer selection, no `List` call, no HTTP request. -/
theorem dispatchTarget_locked_is_read_only (w : World) (c : ClusteringConfig)
    (apiServices : GoMap Service) (fuel : Nat) (targets : List TargetConfig) (st : DState)
    (hlocked : ∀ tc ∈ targets, ∀ n, w.isLocked n (targetKey c tc) = .ok true) :
    (∀ tc ∈ targets, ∀ st0 : DState,
      dispatchTarget w c apiServices fuel tc st0 =
        (some none, { st0 with nLocked := st0.nLocked + 1
                               trace := st0.trace ++ [Event.isLocked (targetKey c tc)] })) ∧
    dispatchPass w c apiServices fuel targets st =
      (true, { st with nLocked := st.nLocked + targets.length
                       trace := st.trace ++
                         targets.map (fun tc => Event.isLocked (targetKey c tc)) }) := by
  have hone : ∀ tc ∈ targets, ∀ st0 : DState,
      dispatchTarget w c apiServices fuel tc st0 =
        (some none, { st0 with nLocked := st0.nLocked + 1
                               trace := st0.trace ++ [Event.isLocked (targetKey c tc)] }) := by
    intro tc htc st0
    unfold dispatchTarget
    simp only [hlocked tc htc]
  refine ⟨hone, ?_⟩
  clear hlocked
  induction targets generalizing st with
  | nil => simp [dispatchPass]
  | cons tc rest ih =>
    rw [dispatchPass, hone tc (List.mem_cons_self _ _)]
    simp only []
    rw [ih _ (fun tc' h st0 => hone tc' (List.mem_cons_of_mem _ h) st0)]
    simp [Nat.add_assoc, Nat.add_comm 1]

/-- C9, witness: two targets, both locked: the pass makes two `IsLocked` calls. -/
theorem dispatchTarget_locked_is_read_only_witness :
    (dispatchPass lockedWorld shortTimeoutConfig plainView 5
        [⟨"t1", []⟩, ⟨"t2", ["region=eu"]⟩] DState.init).2.trace =
      [Event.isLocked "gnmic/c/targets/t1", Event.isLocked "gnmic/c/targets/t2"] := by
  have h := (dispatchTarget_locked_is_read_only lockedWorld shortTimeoutConfig plainView 5
    [⟨"t1", []⟩, ⟨"t2", ["region=eu"]⟩] DState.init (fun _ _ _ => rfl)).2
  rw [h]
  decide

/-- C10: the registration built by `apiServiceRegistration` has the ID
`<instance>-api`, the name `<cluster>-gnmic-api`, a TTL of 5 seconds and the tags
`cluster-name=<cluster>`, `instance-name=<instance>` followed by the user tags in
their order. -/
theorem apiServiceRegistration_fields (c : ClusteringConfig) (addr : String) (p : Int) :
    (apiServiceRegistration c addr p).ID = c.InstanceName ++ "-api" ∧
    (apiServiceRegistration c addr p).Name = c.ClusterName ++ "-gnmic-api" ∧
    (apiServiceRegistration c addr p).TTL = 5 * 1000000000 ∧
    (apiServiceRegistration c addr p).Tags =
      ["cluster-name=" ++ c.ClusterName, "instance-name=" ++ c.InstanceName] ++ c.Tags := by
  have hname : c.ClusterName ++ "-" ++ apiServiceName = c.ClusterName ++ "-gnmic-api" := by
    rw [String.append_assoc]
    rfl
  unfold apiServiceRegistration
  simp only []
  split <;> simp [hname, timeSecond]

/-- C14: for every non-empty map from names that do not end in `-api` to
non-negative counts and every visiting order, the list `getHighestTagsMatches`
returns has no repetition and holds exactly the names whose count is the maximum
of the map. -/
theorem getHighestTagsMatches_exactly_max (o : Sched) (tagsCount : GoMap Int)
    (hne : tagsCount.len ≠ 0)
    (hnames : ∀ e ∈ tagsCount.entries, hasSuffix e.1 "-api" = false)
    (hpos : ∀ e ∈ tagsCount.entries, 0 ≤ e.2) :
    (getHighestTagsMatches o tagsCount).Nodup ∧
    ∀ n, n ∈ getHighestTagsMatches o tagsCount ↔
      ∃ c, tagsCount.get n = some c ∧ ∀ e ∈ tagsCount.entries, e.2 ≤ c := by
  obtain ⟨mx, hle, ⟨emx, hemx, hmx⟩, heq⟩ := getHighestTagsMatches_eq o tagsCount hne hpos
  have hperm := tagsCount.range_perm o.cnt 4
  have hmap : ((tagsCount.range o.cnt 4).filter (fun e => decide (e.2 = mx))).map
      (fun e => trimSuffix e.1 "-api") =
      ((tagsCount.range o.cnt 4).filter (fun e => decide (e.2 = mx))).map Prod.fst := by
    apply List.map_congr_left
    intro e he
    exact trimSuffix_of_not_hasSuffix (hnames e (hperm.mem_iff.1 (List.mem_of_mem_filter he)))
  rw [heq, hmap]
  constructor
  · exact List.Nodup.sublist ((List.filter_sublist _).map Prod.fst)
      (tagsCount.nodup_keys_range o.cnt 4)
  · intro n
    rw [List.mem_map]
    constructor
    · rintro ⟨e, he, rfl⟩
      rw [List.mem_filter] at he
      have hc : e.2 = mx := of_decide_eq_true he.2
      exact ⟨e.2, (tagsCount.mem_range_iff o.cnt 4 e).1 he.1, fun e' he' => hc ▸ hle e' he'⟩
    · rintro ⟨c, hget, hmax⟩
      have hmem : (n, c) ∈ tagsCount.entries := (tagsCount.get_eq_some_iff n c).1 hget
      have h1 : c ≤ mx := hle (n, c) hmem
      have h2 : mx ≤ c := hmx ▸ hmax emx hemx
      refine ⟨(n, c), List.mem_filter.2 ⟨hperm.mem_iff.2 hmem, decide_eq_true ?_⟩, rfl⟩
      exact le_antisymm h1 h2

/-- C14, witness: the counts `i1 = 2`, `i2 = 0`, `i3 = 2`, visited in reverse. -/
theorem getHighestTagsMatches_exactly_max_witness :
    getHighestTagsMatches Sched.reversed tieCounts = ["i3", "i1"] ∧
    ((getHighestTagsMatches Sched.reversed tieCounts).Nodup ∧
      ∀ n, n ∈ getHighestTagsMatches Sched.reversed tieCounts ↔
        ∃ c, tieCounts.get n = some c ∧ ∀ e ∈ tieCounts.entries, e.2 ≤ c) :=
  ⟨by decide,
    getHighestTagsMatches_exactly_max Sched.reversed tieCounts
      (by decide) (by decide) (by decide)⟩

/-- C15, the code at the failing input: the view of the registered instances
`x-api` and `y` of cluster `c` (service IDs `x-api-api` and `y-api`), the target
tags `cluster-name=c`, one target lock held by `y`, nobody denied. Both peers have
affinity 1; `getHighestTagsMatches` trims their names to `x` and `y`, `x` has the
least load, and for every visiting order `selectService` returns what the view
holds under `x-api`: a nil service, with a nil error. -/
theorem selectService_api_named_tie (o : Sched) :
    (∀ k ∈ apiNamedView.keys, hasSuffix k "-api" = true) ∧
    apiNamedView.get "x-api" = none ∧
    selectService o apiNamedView (.ok yLocks) ["cluster-name=c"] [] = .ok none := by
  refine ⟨by decide, by decide, ?_⟩
  obtain ⟨F, _, hF, hmi⟩ := candidates_tags o apiNamedView ["cluster-name=c"] (by decide)
    (by decide) (by decide)
  have hx : ("x-api", (1 : Int)) ∈ F :=
    (hF _).2 ⟨(apiNamedPeer.ID, apiNamedPeer), by decide, by decide, by decide⟩
  have hy : ("y", (1 : Int)) ∈ F :=
    (hF _).2 ⟨(otherPeer.ID, otherPeer), by decide, by decide, by decide⟩
  have hmem : ∀ n, n ∈ matchingInstances o apiNamedView ["cluster-name=c"] ↔
      n = "x" ∨ n = "y" := by
    intro n
    rw [hmi, List.mem_map]
    constructor
    · rintro ⟨p, hp, rfl⟩
      obtain ⟨e, he, _, rfl⟩ := (hF p).1 hp
      have hcases : e = (apiNamedPeer.ID, apiNamedPeer) ∨ e = (otherPeer.ID, otherPeer) := by
        simpa [apiNamedView, viewOf] using he
      rcases hcases with h | h <;> subst h <;> decide
    · rintro (h | h)
      · exact ⟨_, hx, by rw [h]; decide⟩
      · exact ⟨_, hy, by rw [h]; decide⟩
  have hlen : 2 ≤ (matchingInstances o apiNamedView ["cluster-name=c"]).length := by
    rw [hmi, List.length_map]
    exact two_le_length_of_mem_ne hx hy (by decide)
  have hne : matchingInstances o apiNamedView ["cluster-name=c"] ≠ [] := by
    intro h
    rw [h] at hlen
    simp at hlen
  rw [selectService_many o apiNamedView _ _ [] (by decide) (by omega)]
  obtain ⟨load, hl, hget⟩ := getInstancesLoad_ok o apiNamedView yLocks _ hne
  have hgx : load.get "x" = some 0 := by
    rw [hget, if_pos ((hmem "x").2 (Or.inl rfl))]
    decide
  have hpos : ∀ n c, load.get n = some c → 0 ≤ c := by
    intro n c hc
    rw [hget] at hc
    split at hc
    · rw [← Option.some.inj hc]
      exact Int.natCast_nonneg _
    · cases hc
  obtain ⟨ss, low, hsel, hss, _, hmin⟩ := selectByLoad_ok o apiNamedView load [] hpos
    ⟨"x", 0, hgx, by simp⟩
  have hlow : low ≤ 0 := hmin "x" 0 hgx (by simp)
  have hssx : ss = "x" := by
    rw [hget] at hss
    split at hss
    · rename_i hin
      rcases (hmem ss).1 hin with h | h
      · exact h
      · subst h
        have : low = 1 := by
          have h1 := (Option.some.inj hss).symm
          rw [h1]
          decide
        omega
    · cases hss
  have hlz : load.len ≠ 0 := by
    intro hz
    rw [(GoMap.len_eq_zero_iff load).1 hz "x"] at hgx
    cases hgx
  unfold loadPath
  rw [hl]
  simp only [hlz, if_false]
  rw [hsel, hssx]
  decide

/-- C11, counterexample: a timeout of 200ms and a locker whose first three polls
fail and whose fourth finds no lock. The attempt on `i1` ends in a reselection
after three sleeps of `lockWaitTime`, 300ms, and the trace of `dispatchTarget`
shows them between the assignment and the unassignment. -/
theorem confirmLoop_errors_not_counted :
    (confirmLoop flakyWorld shortTimeoutConfig plainView ⟨"t", []⟩ plainPeer1 "i1" 4 0
        DState.init).1 = some Confirm.reselect ∧
    sleepCount (confirmLoop flakyWorld shortTimeoutConfig plainView ⟨"t", []⟩ plainPeer1 "i1" 4 0
        DState.init).2.2.trace = 3 ∧
    ¬ (3 * lockWaitTime ≤ shortTimeoutConfig.TargetAssignmentTimeout) ∧
    (dispatchTarget flakyWorld shortTimeoutConfig plainView 5 ⟨"t", []⟩ DState.init).2.trace =
      [Event.isLocked "gnmic/c/targets/t",
        Event.select [],
        Event.listTargets "gnmic/c/targets",
        Event.post "http://h1:7890/config/targets",
        Event.post "http://h1:7890/targets/t",
        Event.list "gnmic/c/targets/t",
        Event.sleep lockWaitTime,
        Event.list "gnmic/c/targets/t",
        Event.sleep lockWaitTime,
        Event.list "gnmic/c/targets/t",
        Event.sleep lockWaitTime,
        Event.list "gnmic/c/targets/t",
        Event.delete "http://h1:7890/targets/t"] := by
  decide

/-- C11, amended: with a non-negative `TargetAssignmentTimeout` and a locker whose
`List` calls do not fail, one confirmation attempt for a chosen peer comes to its
end (success or back to peer selection) given enough fuel, and whenever it does,
the number `n` of `lockWaitTime` sleeps it made satisfies
`n * lockWaitTime <= TargetAssignmentTimeout`. When a `List` call fails, the
attempt sleeps `lockWaitTime` and polls again with the retry count it had. -/
theorem confirmLoop_within_timeout :
    (∀ (w : World) (c : ClusteringConfig) (apiServices : GoMap Service) (tc : TargetConfig)
        (service : Service) (instanceName : String) (st : DState),
      (∀ k, ∃ values, w.list k = .ok values) →
      0 ≤ c.TargetAssignmentTimeout →
      (∃ fuel r fuel1 st1,
        confirmLoop w c apiServices tc service instanceName fuel 0 st = (some r, fuel1, st1)) ∧
      ∀ fuel r fuel1 st1,
        confirmLoop w c apiServices tc service instanceName fuel 0 st = (some r, fuel1, st1) →
        ∃ n : Nat, sleepCount st1.trace = sleepCount st.trace + n ∧
          n * lockWaitTime ≤ c.TargetAssignmentTimeout) ∧
    (∀ (w : World) (c : ClusteringConfig) (apiServices : GoMap Service) (tc : TargetConfig)
        (service : Service) (instanceName : String) (fuel : Nat) (retries : Int)
        (st : DState) (msg : String),
      w.list st.nList = .error msg →
      confirmLoop w c apiServices tc service instanceName (fuel + 1) retries st =
        confirmLoop w c apiServices tc service instanceName fuel retries
          { st with nList := st.nList + 1
                    trace := st.trace ++ [Event.list (targetKey c tc)] ++
                      [Event.sleep lockWaitTime] }) := by
  refine ⟨?_, ?_⟩
  · intro w c apiServices tc service instanceName st hok htimeout
    constructor
    · obtain ⟨r, fuel1, st1, h⟩ := confirmLoop_ends w c apiServices tc service instanceName hok
        c.TargetAssignmentTimeout.toNat 0 st (by
          have h1 : (c.TargetAssignmentTimeout.toNat : Int) = c.TargetAssignmentTimeout :=
            Int.toNat_of_nonneg htimeout
          rw [h1]
          unfold lockWaitTime
          omega)
      exact ⟨_, r, fuel1, st1, h⟩
    · intro fuel r fuel1 st1 h
      obtain ⟨n, hn, hb⟩ := confirmLoop_sleeps w c apiServices tc service instanceName hok
        fuel 0 st r fuel1 st1 h
      refine ⟨n, hn, ?_⟩
      rcases hb with h0 | hb
      · subst h0
        simpa using htimeout
      · have hpos := lockWaitTime_pos
        have hexp : (0 + (n : Int) + 1) * lockWaitTime
            = (n : Int) * lockWaitTime + lockWaitTime := by
          ring
        rw [hexp] at hb
        omega
  · intro w c apiServices tc service instanceName fuel retries st msg herr
    rw [confirmLoop]
    simp only [herr]

/-- C11, witness: the peers never take the lock and the timeout is 500ms: the
attempt sleeps after its first three polls and ends in a reselection at the
fourth, 300ms of sleep in all. -/
theorem confirmLoop_within_timeout_witness :
    (confirmLoop silentWorld halfSecondConfig plainView ⟨"t", []⟩ plainPeer1 "i1" 10 0
        DState.init).1 = some Confirm.reselect ∧
    sleepCount (confirmLoop silentWorld halfSecondConfig plainView ⟨"t", []⟩ plainPeer1 "i1" 10 0
        DState.init).2.2.trace = 3 ∧
    3 * lockWaitTime ≤ halfSecondConfig.TargetAssignmentTimeout ∧
    ((∃ fuel r fuel1 st1,
      confirmLoop silentWorld halfSecondConfig plainView ⟨"t", []⟩ plainPeer1 "i1" fuel 0
        DState.init = (some r, fuel1, st1)) ∧
    ∀ fuel r fuel1 st1,
      confirmLoop silentWorld halfSecondConfig plainView ⟨"t", []⟩ plainPeer1 "i1" fuel 0
        DState.init = (some r, fuel1, st1) →
      ∃ n : Nat, sleepCount st1.trace = sleepCount DState.init.trace + n ∧
        n * lockWaitTime ≤ halfSecondConfig.TargetAssignmentTimeout) :=
  ⟨by decide, by decide, by decide,
    confirmLoop_within_timeout.1 silentWorld halfSecondConfig plainView ⟨"t", []⟩ plainPeer1 "i1"
      DState.init (fun _ => ⟨GoMap.empty, rfl⟩) (by decide)⟩

/-- C17, the code at the failing input: encoding `json`, diff prefix `/a`, no
target, no get prefix. The request is built without a prefix, and with the get
prefix set to `/x` and nothing else changed it has the parsed diff prefix: the
test of line 43 reads `GetPrefix`. In general, with an empty `GetPrefix` and an
empty `DiffTarget` every request returned has a nil prefix, whatever `DiffPrefix`
is. -/
theorem CreateDiffGetRequest_ignores_diff_prefix :
    (∀ (lib : DiffLib) (c : DiffConfig) (req : GetRequest),
      c.GetPrefix = "" → c.DiffTarget = "" →
      CreateDiffGetRequest lib (some c) = .ok req → req.Prefix = none) ∧
    plainLib.parsePath diffOnlyConfig.DiffPrefix = .ok ⟨"", ["/a"], ""⟩ ∧
    CreateDiffGetRequest plainLib (some diffOnlyConfig) =
      .ok { Prefix := none, Path := [⟨"", ["/b"], ""⟩], DataType := 0, Encoding := 0 } ∧
    CreateDiffGetRequest plainLib (some { diffOnlyConfig with GetPrefix := "/x" }) =
      .ok { Prefix := some ⟨"", ["/a"], ""⟩, Path := [⟨"", ["/b"], ""⟩], DataType := 0,
            Encoding := 0 } := by
  refine ⟨?_, by decide, by decide, by decide⟩
  intro lib c req hget htarget h
  have hpaths : ∀ (l : List String) (r r1 : GetRequest),
      diffPaths lib l r = .ok r1 → r1.Prefix = r.Prefix := by
    intro l
    induction l with
    | nil =>
      intro r r1 h1
      simp only [diffPaths] at h1
      rw [← Except.ok.inj h1]
    | cons p rest ih =>
      intro r r1 h1
      rw [diffPaths] at h1
      cases hp : lib.parsePath (lib.trimSpace p) with
      | error err => rw [hp] at h1; cases h1
      | ok gp =>
        rw [hp] at h1
        simp only [] at h1
        exact ih { r with Path := r.Path ++ [gp] } r1 h1
  unfold CreateDiffGetRequest at h
  simp only [] at h
  cases he : lib.encodingValue c.Encoding with
  | none => rw [he] at h; cases h
  | some ev =>
    rw [he] at h
    simp only [diffPrefixStep, hget, ne_eq, not_true_eq_false, if_false, diffTargetStep,
      htarget] at h
    cases ht : diffTypeStep lib c { Prefix := none, Path := [], DataType := 0, Encoding := ev } with
    | error err => rw [ht] at h; cases h
    | ok r =>
      rw [ht] at h
      have h1 := hpaths _ _ _ h
      rw [h1]
      unfold diffTypeStep at ht
      split at ht
      · cases hd : lib.dataTypeValue c.DiffType with
        | none => rw [hd] at ht; cases ht
        | some dti =>
          rw [hd] at ht
          rw [← Except.ok.inj ht]
      · rw [← Except.ok.inj ht]

/-- C13: for a processor with an empty condition and every visiting order of the
maps of the events, `Apply` returns the non-nil events of its input that pass a
test, in their order and as often as they occur, and an event passes the test
exactly when it is matched: an expression of `valueNames` matches one of its
value keys, or one of `values` a value of type string, or one of `tagNames` a tag
key, or one of `tags` a tag value. -/
theorem Apply_allows_exactly_matched (o : EventOrder) (check : EventMsg → Except String Bool)
    (d : Allow) (hcond : d.Condition = "") :
    ∃ keep : EventMsg → Bool, (∀ e, keep e = true ↔ Matched d e) ∧
      ∀ es : List (Option EventMsg), d.Apply o check es = (nonNil es).filter keep := by
  refine ⟨allowsEvent o check d, allowsEvent_iff o check d hcond, ?_⟩
  intro es
  unfold Allow.Apply
  rw [applyFold_eq (allowsEvent o check d) es []]
  rfl

/-- C13, witness: a processor allowing value names starting with `eth`, applied to
an `eth0` event, a nil event, an `lo0` event and the `eth0` event again. -/
theorem Apply_allows_exactly_matched_witness :
    ethAllow.Apply EventOrder.reversed (fun _ => .ok false)
        [some ethEvent, none, some loEvent, some ethEvent] = [ethEvent, ethEvent] ∧
    ∃ keep : EventMsg → Bool, (∀ e, keep e = true ↔ Matched ethAllow e) ∧
      ∀ es : List (Option EventMsg),
        ethAllow.Apply EventOrder.reversed (fun _ => .ok false) es = (nonNil es).filter keep :=
  ⟨by decide, Apply_allows_exactly_matched EventOrder.reversed (fun _ => .ok false) ethAllow rfl⟩

end Gnmic
